import Mathlib

/-!
MidiSync: Standard MIDI File decoder and tick scheduler.

A shallow embedding of `midisync.cpp` (namespace `KDLib`).

Conventions of the embedding

* A buffer is a `List Nat`; every read reduces the element modulo 256, so a read always
  yields a byte. A pointer into a buffer is the offset from the start of that buffer.
* Functions return `Option`. The value `none` stands for a run that leaves defined C++
  behaviour: a read outside the buffer, a conversion of a `double` that does not fit
  `uint32_t`, the use of a member the constructor left unset, or a failed `strcpy_s`
  runtime constraint. A `false` returned by the code is `some` with the flag `false`.
* `uint32_t` arithmetic is `Nat` arithmetic reduced modulo `2 ^ 32`.
* The host is little-endian (the code swaps the big-endian file fields "to Little Endian").
  The swaps write their result back into the caller's buffer; the embedding keeps the
  swapped value and not the write, since no later read of `Load` depends on it.
* The tick key is computed by the code in `double`. `Dbl` models the non-negative finite
  binary64 values that occur there, each operation rounded to nearest, ties to even.
* The play clock `m_playTime` is a `double` as well. It is kept as the rational number it
  equals; the sum `m_playTime += deltatime` is rounded to the nearest `double`, ties to
  even, by `roundDouble`, and a sum that overflows to infinity gives `none`, the conversion
  of an infinite value to `uint32_t` being undefined. A delta is a finite `double`, given
  as the rational number it equals.
* `std::string::compare` is specified up to the sign of its result. The functions that call
  it take the implementation as a parameter, `compareSpec` states what the standard
  requires of it.
-/

namespace MidiSync

/-! ## Memory reads -/

/-- Byte at offset `p`, or `none` outside the buffer -/
def readByte (mem : List Nat) (p : Nat) : Option Nat :=
  mem[p]?.map (fun b => b % 256)

/-- The `uint16_t` stored at offset `p` on a little-endian host -/
def readU16 (mem : List Nat) (p : Nat) : Option Nat := do
  let b0 ← readByte mem p
  let b1 ← readByte mem (p + 1)
  some (b0 + 256 * b1)

/-- The `uint32_t` stored at offset `p` on a little-endian host -/
def readU32 (mem : List Nat) (p : Nat) : Option Nat := do
  let b0 ← readByte mem p
  let b1 ← readByte mem (p + 1)
  let b2 ← readByte mem (p + 2)
  let b3 ← readByte mem (p + 3)
  some (b0 + 256 * b1 + 65536 * b2 + 16777216 * b3)

/-- The value of `*(uint32_t*)"MThd"` on a little-endian host -/
def MThd : Nat := 0x4D + 256 * 0x54 + 65536 * 0x68 + 16777216 * 0x64

/-- The value of `*(uint32_t*)"MTrk"` on a little-endian host -/
def MTrk : Nat := 0x4D + 256 * 0x54 + 65536 * 0x72 + 16777216 * 0x6B

/-! ## Helpers of the translation unit -/

/-- The C function `tolower` in the "C" locale, on a byte: the letters A to Z are lowered,
every other byte is returned as it is -/
def tolower (c : Nat) : Nat :=
  if 0x41 ≤ c ∧ c ≤ 0x5A then c + 0x20 else c

/-- Convert a string to lowercase -/
def ToLower (s : List Nat) : List Nat :=
  s.map tolower

/-- The constant `std::string::npos`, the largest `size_t` -/
def npos : Int := 2 ^ 64 - 1

/-- Swap byte-order of a 16-bit value -/
def SwapShort (v : Nat) : Nat :=
  let a := v &&& 0xff
  let b := (v >>> 8) &&& 0xff
  ((a <<< 8) ||| b) % 2 ^ 16

/-- Swap byte-order of a 32-bit value -/
def SwapLong (v : Nat) : Nat :=
  let a := v &&& 0xff
  let b := (v >>> 8) &&& 0xff
  let c := (v >>> 16) &&& 0xff
  let d := (v >>> 24) &&& 0xff
  ((a <<< 24) ||| (b <<< 16) ||| (c <<< 8) ||| d) % 2 ^ 32

/-- The do-while loop of `GetVLQ` over the bytes from the cursor on: `length` is the
accumulator, `n` the number of bytes consumed so far -/
def vlqLoop : List Nat → Nat → Nat → Option (Nat × Nat)
  | [], _, _ => none
  | c :: rest, length, n =>
    let c := c % 256
    let length := ((length <<< 7) + (c &&& 0x7f)) % 2 ^ 32
    if c &&& 0x80 ≠ 0 then vlqLoop rest length (n + 1) else some (length, n + 1)

/-- Get variable length quantity at cursor `data`; returns the value and the advanced cursor -/
def GetVLQ (mem : List Nat) (data : Nat) : Option (Nat × Nat) :=
  (vlqLoop (mem.drop data) 0 0).map (fun r => (r.1, data + r.2))

/-! ## The `double` arithmetic of the tick key -/

/-- A non-negative finite `double`, as the fraction `num / den` -/
structure Dbl where
  num : Nat
  den : Nat
deriving DecidableEq, Repr

/-- Double `num` until `num / den` is at least `2 ^ 52`; returns the scaled numerator and
the factor applied -/
def scaleUp : Nat → Nat → Nat → Nat → Nat × Nat
  | 0, num, _, sc => (num, sc)
  | fuel + 1, num, den, sc =>
    if num < 2 ^ 52 * den then scaleUp fuel (2 * num) den (2 * sc) else (num, sc)

/-- Double `den` until `num / den` is below `2 ^ 53`; returns the scaled denominator and
the factor applied -/
def scaleDown : Nat → Nat → Nat → Nat → Nat × Nat
  | 0, _, den, sc => (den, sc)
  | fuel + 1, num, den, sc =>
    if 2 ^ 53 * den ≤ num then scaleDown fuel num (2 * den) (2 * sc) else (den, sc)

/-- Round the exact quotient `num / den` to binary64: a significand of 53 bits, round to
nearest, ties to even (normal range; 1100 doublings either way cover it) -/
def roundDbl (num den : Nat) : Dbl :=
  if num = 0 ∨ den = 0 then ⟨0, 1⟩
  else
    let up := scaleUp 1100 num den 1
    let dn := scaleDown 1100 up.1 den 1
    let q := up.1 / dn.1
    let r := up.1 % dn.1
    let m := if 2 * r < dn.1 then q else if dn.1 < 2 * r then q + 1
      else if q % 2 = 0 then q else q + 1
    ⟨m * dn.2, up.2⟩

/-- Conversion of an unsigned integer below `2 ^ 53` to `double` (exact) -/
def Dbl.ofNat (n : Nat) : Dbl := ⟨n, 1⟩

/-- The `double` product -/
def Dbl.mul (a b : Dbl) : Dbl := roundDbl (a.num * b.num) (a.den * b.den)

/-- The `double` quotient, for a non-zero divisor -/
def Dbl.div (a b : Dbl) : Dbl := roundDbl (a.num * b.den) (a.den * b.num)

/-- The map key of `Parse`:
`tick = ((double)runtime / division * tempo) / 1000000.0; tick *= 65536.0;`
followed by `static_cast<uint32_t>(tick)`. With `division = 0` the quotient is infinite or
NaN and the conversion undefined, as it is for a value of `2 ^ 32` or more. -/
def castKey (runtime division tempo : Nat) : Option Nat :=
  if division = 0 then none
  else
    let tick := Dbl.div (Dbl.mul (Dbl.div (Dbl.ofNat runtime) (Dbl.ofNat division))
      (Dbl.ofNat tempo)) (Dbl.ofNat 1000000)
    let tick := Dbl.mul tick (Dbl.ofNat 65536)
    if tick.num / tick.den < 2 ^ 32 then some (tick.num / tick.den) else none

/-! ## Events, tracks and the `std::map` -/

/-- The class `MIDIEvent`. `m_time` holds the `uint32_t` tick count it was built from;
`m_data` is a pointer into the track's event buffer or null. -/
structure MIDIEvent where
  m_time : Nat
  m_status : Nat
  m_channel : Nat
  m_param1 : Nat
  m_param2 : Nat
  m_data : Option Nat
  m_length : Nat
  m_processed : Bool
deriving DecidableEq, Repr

/-- The constructor of `MIDIEvent`; parameters of type `uint8_t` are reduced to a byte -/
def MIDIEvent.new (time status channel param1 param2 : Nat) (data : Option Nat)
    (length : Nat) : MIDIEvent :=
  ⟨time, status % 256, channel % 256, param1 % 256, param2 % 256, data, length, false⟩

/-- Assignment `m[key] = value` on a `std::map` kept as a list in ascending key order -/
def mapInsert {α : Type} : List (Nat × α) → Nat → α → List (Nat × α)
  | [], key, value => [(key, value)]
  | (k, v) :: rest, key, value =>
    if key < k then (key, value) :: (k, v) :: rest
    else if key = k then (key, value) :: rest
    else (k, v) :: mapInsert rest key value

/-- The class `MIDITrack`. The name fields are `none` until a meta event writes them
(the constructor leaves the arrays unset). -/
structure MIDITrack where
  m_eventBuffer : List Nat
  m_event : Nat
  m_nextEvent : Nat
  m_trackName : Option (List Nat)
  m_instrumentName : Option (List Nat)
  m_map : List (Nat × MIDIEvent)
deriving DecidableEq, Repr

/-- The constructor of `MIDITrack` -/
def MIDITrack.new : MIDITrack :=
  ⟨[], 0, 0, none, none, []⟩

/-- The NUL-terminated string starting at offset `p`, without the terminator; `none` when
the buffer ends before a zero byte -/
def cString : List Nat → List Nat → Option (List Nat)
  | [], _ => none
  | c :: rest, acc => if c % 256 = 0 then some acc.reverse else cString rest (c % 256 :: acc)

/-- The call `strcpy_s(dest, size, src)`: the new content of `dest`. A source that does not
fit, terminator included, violates the runtime constraint. -/
def strcpy_s (size : Nat) (mem : List Nat) (src : Nat) : Option (List Nat) := do
  let s ← cString (mem.drop src) []
  if s.length < size then some s else none

/-! ## `MIDITrack::Parse` -/

/-- The locals of `MIDITrack::Parse`, the track they work on and the owner's tempo -/
structure ParseState where
  track : MIDITrack
  tempo : Nat
  status : Nat
  channel : Nat
  param1 : Nat
  param2 : Nat
  data : Option Nat
  length : Nat
  runtime : Nat
  deltatime : Nat
deriving DecidableEq, Repr

/-- The first `switch (status)` of the loop, "Decode events" -/
def decodeEvent (s : ParseState) : Option ParseState :=
  let buf := s.track.m_eventBuffer
  let ev := s.track.m_event
  if s.status = 0xC ∨ s.status = 0xD then do
    let param1 ← readByte buf (ev + 1)
    some { s with param1 := param1, track := { s.track with m_nextEvent := ev + 2 } }
  else if s.status = 0xF then
    if s.channel = 0xF then do
      let param1 ← readByte buf (ev + 1)
      let r ← GetVLQ buf (ev + 2)
      some { s with param1 := param1, length := r.1, data := some (ev + 3),
                    track := { s.track with m_nextEvent := ev + 3 + r.1 } }
    else do
      let r ← GetVLQ buf (ev + 1)
      some { s with length := r.1, data := some (ev + 2),
                    track := { s.track with m_nextEvent := ev + 2 + r.1 } }
  else do
    let param1 ← readByte buf (ev + 1)
    let param2 ← readByte buf (ev + 2)
    some { s with param1 := param1, param2 := param2,
                  track := { s.track with m_nextEvent := ev + 3 } }

/-- The statement `m_map[static_cast<uint32_t>(tick)] = e` -/
def storeEvent (division : Nat) (s : ParseState) (e : MIDIEvent) : Option ParseState := do
  let key ← castKey s.runtime division s.tempo
  some { s with track := { s.track with m_map := mapInsert s.track.m_map key e } }

/-- The second `switch (status)` of the loop, "Handle events" -/
def handleEvent (division : Nat) (s : ParseState) : Option ParseState :=
  let buf := s.track.m_eventBuffer
  if s.status = 0xF then
    if s.channel = 0x0 ∨ s.channel = 0x7 then
      storeEvent division s
        (MIDIEvent.new s.runtime (s.status * 16 + s.channel) 0 0 0 s.data s.length)
    else if s.channel = 0xF then
      if s.param1 = 0x03 then do
        let data ← s.data
        let name ← strcpy_s 256 buf data
        some { s with track := { s.track with m_trackName := some name } }
      else if s.param1 = 0x04 then do
        let data ← s.data
        let name ← strcpy_s 256 buf data
        some { s with track := { s.track with m_instrumentName := some name } }
      else if s.param1 = 0x2F then some s
      else if s.param1 = 0x51 then do
        let data ← s.data
        let d0 ← readByte buf data
        let d1 ← readByte buf (data + 1)
        let d2 ← readByte buf (data + 2)
        some { s with tempo := ((d0 <<< 16) + (d1 <<< 8) + d2) % 2 ^ 32 }
      else some s
    else some s
  else
    storeEvent division s
      (MIDIEvent.new s.runtime s.status s.channel s.param1 s.param2 none 0)

/-- One iteration of the `while` loop of `MIDITrack::Parse` -/
def parseStep (division : Nat) (s : ParseState) : Option ParseState := do
  let buf := s.track.m_eventBuffer
  let r ← GetVLQ buf s.track.m_event
  let runtime := (s.runtime + r.1) % 2 ^ 32
  let b ← readByte buf r.2
  let s1 : ParseState :=
    if b < 0x80 then
      { s with deltatime := r.1, runtime := runtime,
               track := { s.track with m_event := r.2 - 1 } }
    else
      { s with deltatime := r.1, runtime := runtime, status := b >>> 4, channel := b &&& 0xf,
               track := { s.track with m_event := r.2 } }
  let s2 ← decodeEvent s1
  let s3 ← handleEvent division s2
  some { s3 with track := { s3.track with m_event := s3.track.m_nextEvent } }

/-- The `while` loop of `MIDITrack::Parse`, with its condition
`static_cast<uint32_t>(m_event - m_eventBuffer) < header->length`. The recursion is on a
step bound; every iteration moves the cursor forward and reads at the cursor, so a bound
equal to the buffer length is never exhausted by a run that stays inside the buffer. -/
def parseLoop (division length : Nat) : Nat → ParseState → Option ParseState
  | 0, s => if s.track.m_event % 2 ^ 32 < length then none else some s
  | fuel + 1, s =>
    if s.track.m_event % 2 ^ 32 < length then
      (parseStep division s).bind (parseLoop division length fuel)
    else some s

/-- The state at the head of the loop of `MIDITrack::Parse`: the copied event buffer, the
cursor at its start and the locals zeroed -/
def ParseState.init (t : MIDITrack) (eventBuffer : List Nat) (tempo : Nat) : ParseState :=
  { track := { t with m_eventBuffer := eventBuffer, m_event := 0 },
    tempo := tempo, status := 0, channel := 0, param1 := 0, param2 := 0,
    data := none, length := 0, runtime := 0, deltatime := 0 }

/-- What `MIDITrack::Parse` leaves behind: its return value, the track, the owner's tempo
and the advanced `*songData` -/
structure ParseResult where
  ok : Bool
  track : MIDITrack
  tempo : Nat
  songData : Nat
deriving DecidableEq, Repr

/-- Parses a single MIDI track: `mem` is the song buffer, `songData` the shared cursor,
`division` and `tempo` the owner's values -/
def MIDITrack.Parse (t : MIDITrack) (division tempo : Nat) (mem : List Nat) (songData : Nat) :
    Option ParseResult := do
  let id ← readU32 mem songData
  let raw ← readU32 mem (songData + 4)
  let length := SwapLong raw
  if id ≠ MTrk then some ⟨false, t, tempo, songData⟩
  else
    let buffer := songData + 8
    if mem.length < buffer + length then none
    else
      let eventBuffer := (mem.drop buffer).take length
      let s ← parseLoop division length length (ParseState.init t eventBuffer tempo)
      some ⟨true, s.track, s.tempo, buffer + length⟩

/-- Returns the name of the track -/
def MIDITrack.GetTrackName (t : MIDITrack) : Option (List Nat) :=
  t.m_trackName

/-! ## `MIDISong` -/

/-- The class `MIDISong`. `m_isPlaying` is `none` until `Play` or `Stop` sets it (the
constructor leaves it unset). -/
structure MIDISong where
  m_currentEvents : List (Nat × MIDIEvent)
  m_tracks : List MIDITrack
  m_tempo : Nat
  m_division : Nat
  m_playTime : ℚ
  m_isPlaying : Option Bool
deriving DecidableEq

/-- The constructor of `MIDISong` -/
def MIDISong.new : MIDISong :=
  ⟨[], [], 0, 0, 0, none⟩

/-- Set playback tempo in microseconds per quarter note -/
def MIDISong.SetTempo (s : MIDISong) (tempo : Nat) : MIDISong :=
  { s with m_tempo := tempo % 2 ^ 32 }

/-- Returns the number of divisions that the MIDI time-stamps are based on -/
def MIDISong.GetDivision (s : MIDISong) : Nat := s.m_division

/-- Returns the playback tempo in microseconds per quarter note -/
def MIDISong.GetTempo (s : MIDISong) : Nat := s.m_tempo

/-- The `for` loop of `MIDISong::Load`: `n` tracks are still to be parsed. The value
returned by `Parse` is not looked at; the track is appended in either case. -/
def loadTracks (mem : List Nat) : Nat → MIDISong → Nat → Option MIDISong
  | 0, s, _ => some s
  | n + 1, s, songData => do
    let r ← MIDITrack.Parse MIDITrack.new s.GetDivision s.GetTempo mem songData
    loadTracks mem n { s with m_tempo := r.tempo, m_tracks := s.m_tracks ++ [r.track] } r.songData

/-- Parses a MIDI file buffer; returns the flag and the song -/
def MIDISong.Load (s : MIDISong) (songData : List Nat) : Option (Bool × MIDISong) := do
  let format ← (readU16 songData 8).map SwapShort
  let numTracks ← (readU16 songData 10).map SwapShort
  let division ← (readU16 songData 12).map SwapShort
  let s := { s with m_division := division }
  let id ← readU32 songData 0
  if id ≠ MThd ∨ format ≥ 2 then some (false, s)
  else do
    let s ← loadTracks songData numTracks s 14
    some (true, s)

/-- Start playback -/
def MIDISong.Play (s : MIDISong) : MIDISong :=
  { s with m_playTime := 0, m_isPlaying := some true }

/-- Stop playback -/
def MIDISong.Stop (s : MIDISong) : MIDISong :=
  { s with m_isPlaying := some false }

/-- Reset playcursor -/
def MIDISong.Reset (s : MIDISong) : MIDISong :=
  { s with m_playTime := 0 }

/-- Rounding of a rational to the nearest integer, ties to the even one -/
def rne (z : ℚ) : ℤ :=
  if 2 * (z - ⌊z⌋) < 1 then ⌊z⌋
  else if 1 < 2 * (z - ⌊z⌋) then ⌊z⌋ + 1
  else if ⌊z⌋ % 2 = 0 then ⌊z⌋ else ⌊z⌋ + 1

/-- The `double` nearest to a rational number (IEEE 754 binary64, round to nearest, ties to
even). The doubles are the multiples `m * 2 ^ e` with `|m| < 2 ^ 53` and `e ≥ -1074` below
`2 ^ 1024` in magnitude: with `X = |x| * 2 ^ 1074` the unit in the last place is
`2 ^ E / 2 ^ 1074`, `E = log2 ⌊X⌋ - 52` cut off at 0 (the subnormal range). A result of
magnitude `2 ^ 1024` or more is infinite: `none`. -/
def roundDouble (x : ℚ) : Option ℚ :=
  let X : ℚ := |x| * 2 ^ 1074
  let E : Nat := Nat.log 2 ⌊X⌋₊ - 52
  let r : ℚ := (rne (X / 2 ^ E) : ℚ) * 2 ^ E / 2 ^ 1074
  if r < 2 ^ 1024 then some (if x < 0 then -r else r) else none

/-- The conversion `static_cast<uint32_t>(x)` of a `double`: truncation toward zero,
undefined unless the truncated value fits -/
def toUInt32 (x : ℚ) : Option Nat :=
  if -1 < x ∧ x < 2 ^ 32 then some ⌊x⌋.toNat else none

/-- The test of `Update` that selects the events to fire -/
def fires (e : MIDIEvent) : Bool :=
  !e.m_processed && e.m_status != 0x8 && e.m_channel != 0xF

/-- The inner `while` loop of `Update` over the map of track `i`, from `begin()` while the
key is at most `tick`; returns the map and `m_currentEvents` -/
def scanTrack (tick i : Nat) :
    List (Nat × MIDIEvent) → List (Nat × MIDIEvent) → List (Nat × MIDIEvent) × List (Nat × MIDIEvent)
  | [], cur => ([], cur)
  | (k, e) :: rest, cur =>
    if k ≤ tick then
      if fires e then
        let e1 := { e with m_processed := true }
        let cur1 := if e.m_status = 0x9 then mapInsert cur i e1 else cur
        let r := scanTrack tick i rest cur1
        ((k, e1) :: r.1, r.2)
      else
        let r := scanTrack tick i rest cur
        ((k, e) :: r.1, r.2)
    else ((k, e) :: rest, cur)

/-- The outer `for` loop of `Update` over the tracks, `i` being the index of the first
track of the list -/
def scanTracks (tick : Nat) :
    Nat → List MIDITrack → List (Nat × MIDIEvent) → List MIDITrack × List (Nat × MIDIEvent)
  | _, [], cur => ([], cur)
  | i, t :: ts, cur =>
    let r := scanTrack tick i t.m_map cur
    let rs := scanTracks tick (i + 1) ts r.2
    ({ t with m_map := r.1 } :: rs.1, rs.2)

/-- Song player code. The sum `m_playTime += deltatime` is rounded to `double`; the product
of the clock by 65536, a power of two, is exact. -/
def MIDISong.Update (s : MIDISong) (deltatime : ℚ) : Option MIDISong :=
  match s.m_isPlaying with
  | none => none
  | some false => some s
  | some true => do
    let playTime ← roundDouble (s.m_playTime + deltatime)
    let tick ← toUInt32 (playTime * 65536)
    let r := scanTracks tick 0 s.m_tracks []
    some { s with m_currentEvents := r.2, m_playTime := playTime, m_tracks := r.1 }

/-- Returns whether a NoteOn event has occurred on a given channel: `some (note, velocity)`
when the code returns `true` and writes the two references, `none` when it returns `false` -/
def MIDISong.IsNoteOn (s : MIDISong) (channel : Nat) : Option (Nat × Nat) :=
  if channel ≥ s.m_tracks.length then none
  else
    match s.m_currentEvents.find? (fun p => p.1 == channel) with
    | some p => some (p.2.m_param1, p.2.m_param2)
    | none => none

/-- Returns true if the song is currently playing -/
def MIDISong.IsPlaying (s : MIDISong) : Option Bool := s.m_isPlaying

/-- The loop of `GetChannelIndex` from track number `i` on; `index` is the reference
parameter. Returns the flag and the value of `index` afterwards. `compare` is the member
`std::string::compare` of the library in use; its `int` result is converted to `size_t` for
the comparison with `npos`. -/
def channelIndexLoop (compare : List Nat → List Nat → Int) (tag : List Nat) :
    List MIDITrack → Nat → Nat → Option (Bool × Nat)
  | [], _, index => some (false, index)
  | t :: ts, i, index => do
    let s1 := ToLower tag
    let name ← t.GetTrackName
    let s2 := ToLower name
    if (compare s1 s2) % 2 ^ 64 ≠ npos then some (true, i)
    else channelIndexLoop compare tag ts (i + 1) index

/-- Returns the number of the channel specified by the string `tag` -/
def MIDISong.GetChannelIndex (s : MIDISong) (compare : List Nat → List Nat → Int)
    (tag : List Nat) (index : Nat) : Option (Bool × Nat) :=
  channelIndexLoop compare tag s.m_tracks 0 index

/-- Loads a MIDI file and returns a song: `some none` is the null pointer -/
def LoadSong (songData : List Nat) : Option (Option MIDISong) := do
  let r ← MIDISong.new.Load songData
  some (if r.1 then some r.2 else none)

/-! ## Reference notions used to state the properties -/

/-- The continuation bytes of the standard MIDI encoding, most significant first: seven
bits of `v` each, with the high bit set -/
def vlqHigh : Nat → Nat → List Nat
  | 0, _ => []
  | fuel + 1, v => if v = 0 then [] else vlqHigh fuel (v / 128) ++ [v % 128 + 128]

/-- The standard MIDI variable-length encoding of a 32-bit value: base-128 digits, most
significant first, every byte but the last with its high bit set -/
def encodeVLQ (v : Nat) : List Nat :=
  vlqHigh 4 (v / 128) ++ [v % 128]

/-- The byte at offset `i` of a buffer, `0` beyond its end -/
def byteAt (mem : List Nat) (i : Nat) : Nat := mem.getD i 0 % 256

/-- The 16-bit big-endian value of two bytes -/
def be16 (b0 b1 : Nat) : Nat := 256 * b0 + b1

/-- The 32-bit big-endian value of four bytes -/
def be32 (b0 b1 b2 b3 : Nat) : Nat := 16777216 * b0 + 65536 * b1 + 256 * b2 + b3

/-- The four bytes of a 32-bit value, most significant first -/
def be32Bytes (n : Nat) : List Nat :=
  [n / 16777216 % 256, n / 65536 % 256, n / 256 % 256, n % 256]

/-- The header chunk of a Standard MIDI File: "MThd", the length 6 and the three 16-bit
fields, big-endian -/
def headerChunk (format numTracks division : Nat) : List Nat :=
  [0x4D, 0x54, 0x68, 0x64, 0, 0, 0, 6, format / 256 % 256, format % 256,
    numTracks / 256 % 256, numTracks % 256, division / 256 % 256, division % 256]

/-- A track chunk: "MTrk", the big-endian length of the event bytes, the event bytes -/
def trackChunk (body : List Nat) : List Nat :=
  [0x4D, 0x54, 0x72, 0x6B] ++ be32Bytes body.length ++ body

/-- Consecutive track chunks, one for each list of event bytes -/
def trackChunks : List (List Nat) → List Nat
  | [] => []
  | body :: rest => trackChunk body ++ trackChunks rest

/-- The decode loop of `Parse` run over the event bytes of one chunk, for a new track -/
def parseBody (division tempo : Nat) (body : List Nat) : Option ParseState :=
  parseLoop division body.length body.length (ParseState.init MIDITrack.new body tempo)

/-- The event bytes of consecutive chunks decoded one after the other, the tempo left by
one track being the tempo the next one starts with; returns the tracks and the last tempo -/
def parseBodies (division : Nat) : Nat → List (List Nat) → Option (List MIDITrack × Nat)
  | tempo, [] => some ([], tempo)
  | tempo, body :: rest => do
    let s ← parseBody division tempo body
    let r ← parseBodies division s.tempo rest
    some (s.track :: r.1, r.2)

/-- The number of data bytes the decode switch reads for a status nibble other than 0xF:
one for 0xC and 0xD, two for the others -/
def dataBytes (status : Nat) : Nat :=
  if status = 0xC ∨ status = 0xD then 1 else 2

/-- The call `Update(deltatime)` made `n` times in a row -/
def repeatUpdate (deltatime : ℚ) : Nat → MIDISong → Option MIDISong
  | 0, s => some s
  | n + 1, s => (s.Update deltatime).bind (repeatUpdate deltatime n)

/-- The calls a driver makes on a loaded song -/
inductive Op where
  | play
  | stop
  | update (deltatime : ℚ)

/-- The effect of one call -/
def Op.apply : Op → MIDISong → Option MIDISong
  | Op.play, s => some s.Play
  | Op.stop, s => some s.Stop
  | Op.update d, s => s.Update d

/-- The states a series of calls goes through, the initial one first -/
def runOps : MIDISong → List Op → Option (List MIDISong)
  | s, [] => some [s]
  | s, op :: ops => do
    let s1 ← op.apply s
    let rest ← runOps s1 ops
    some (s :: rest)

/-- The entry number `j` of the map of track number `i` -/
def eventAt (s : MIDISong) (i j : Nat) : Option (Nat × MIDIEvent) :=
  s.m_tracks[i]?.bind (fun t => t.m_map[j]?)

/-- The fired flag of the event number `j` of track number `i` -/
def flagAt (s : MIDISong) (i j : Nat) : Option Bool :=
  (eventAt s i j).map (fun p => p.2.m_processed)

/-- The event number `j` of track number `i` is unfired in `s` and fired in `s1` -/
def firedBy (s s1 : MIDISong) (i j : Nat) : Prop :=
  flagAt s i j = some false ∧ flagAt s1 i j = some true

/-- The states at the end of each iteration of the loop of `Parse`, in order; the loop is
`parseLoop`, whose result is the last of them -/
def parseStates (division length : Nat) : Nat → ParseState → Option (List ParseState)
  | 0, s => if s.track.m_event % 2 ^ 32 < length then none else some []
  | fuel + 1, s =>
    if s.track.m_event % 2 ^ 32 < length then do
      let s1 ← parseStep division s
      let rest ← parseStates division length fuel s1
      some (s1 :: rest)
    else some []

/-- The floor of `T / d * tempo / 1000000 * 65536` in exact arithmetic -/
def exactKey (T d tempo : Nat) : ℤ :=
  ⌊(T : ℚ) / d * tempo / 1000000 * 65536⌋

/-- The keys of a map are strictly ascending along the list, as in a `std::map` -/
def keysAscending (m : List (Nat × MIDIEvent)) : Prop :=
  m.Pairwise (fun a b => a.1 < b.1)

/-- An entry with its fired flag set when its key is at most `tick` and `Update` selects
it, unchanged otherwise -/
def markFired (tick : Nat) (p : Nat × MIDIEvent) : Nat × MIDIEvent :=
  if p.1 ≤ tick ∧ fires p.2 = true then (p.1, { p.2 with m_processed := true }) else p

/-- The note-ons of a map that an `Update` with this tick fires: key at most `tick`,
selected by `Update`, status 0x9 -/
def newNoteOns (tick : Nat) (m : List (Nat × MIDIEvent)) : List (Nat × MIDIEvent) :=
  m.filter (fun p => decide (p.1 ≤ tick) && fires p.2 && decide (p.2.m_status = 0x9))

/-- The value of a `Dbl` as a rational number -/
def Dbl.val (a : Dbl) : ℚ := (a.num : ℚ) / (a.den : ℚ)


/-- Byte-wise lexicographic order of two strings, the order of `char_traits<char>` -/
def stringLess : List Nat → List Nat → Bool
  | _, [] => false
  | [], _ :: _ => true
  | a :: s1, b :: s2 => if a < b then true else if b < a then false else stringLess s1 s2

/-- What the C++ standard requires of `std::string::compare`: an `int` that is negative,
zero or positive as the first string is less than, equal to or greater than the second.
The value itself is left to the implementation. -/
def compareSpec (compare : List Nat → List Nat → Int) : Prop :=
  ∀ s1 s2 : List Nat, -2147483648 ≤ compare s1 s2 ∧ compare s1 s2 ≤ 2147483647
    ∧ (compare s1 s2 < 0 ↔ stringLess s1 s2 = true) ∧ (compare s1 s2 = 0 ↔ s1 = s2)

/-- An implementation of `std::string::compare` that returns `-1`, `0` or `1` -/
def compareSign : List Nat → List Nat → Int
  | [], [] => 0
  | [], _ :: _ => -1
  | _ :: _, [] => 1
  | a :: s1, b :: s2 => if a < b then -1 else if b < a then 1 else compareSign s1 s2

/-- A header chunk announcing format 2, one track and division 480 -/
def format2Header : List Nat :=
  [0x4D, 0x54, 0x68, 0x64, 0, 0, 0, 6, 0, 2, 0, 1, 1, 0xE0]

/-- The event bytes of a track that holds an end-of-track meta event only -/
def emptyTrackBody : List Nat := [0x00, 0xFF, 0x2F, 0x00]

/-- A format 1 file announcing two tracks: a well-formed chunk, then a chunk whose
identifier is "XXXX" instead of "MTrk" -/
def badSecondTrackFile : List Nat :=
  headerChunk 1 2 480 ++ trackChunk emptyTrackBody
    ++ ([0x58, 0x58, 0x58, 0x58] ++ be32Bytes 4 ++ emptyTrackBody)

/-- Event bytes: a program change (C0 05), a second program change in running status (07)
and a note-on 16 ticks later -/
def programChangeBody : List Nat :=
  [0x00, 0xC0, 0x05, 0x00, 0x07, 0x10, 0x90, 0x3C, 0x64]

/-- Event bytes: a note-on (90 3C 64) and, 16 ticks later, a second note-on in running
status (3E 50) -/
def runningNoteBody : List Nat :=
  [0x00, 0x90, 0x3C, 0x64, 0x10, 0x3E, 0x50]

/-- Event bytes of the scenario track: tempo 500000 (FF 51 03 07 A1 20) at tick 0, note-on
60 with velocity 100 at tick 480, note-off at tick 960, end of track -/
def scenarioBody : List Nat :=
  [0x00, 0xFF, 0x51, 0x03, 0x07, 0xA1, 0x20,
   0x83, 0x60, 0x90, 0x3C, 0x64,
   0x83, 0x60, 0x80, 0x3C, 0x00,
   0x00, 0xFF, 0x2F, 0x00]

/-- The note-on of the scenario, with its fired flag -/
def scenarioNoteOn (processed : Bool) : MIDIEvent :=
  ⟨480, 0x9, 0, 60, 100, none, 0, processed⟩

/-- The note-off of the scenario -/
def scenarioNoteOff : MIDIEvent :=
  ⟨960, 0x8, 0, 60, 0, none, 0, false⟩

/-- The track of the scenario as `Parse` builds it, the note-on under key 32768 and the
note-off under key 65536 -/
def scenarioTrack (processed : Bool) : MIDITrack :=
  ⟨scenarioBody, 21, 21, none, none, [(32768, scenarioNoteOn processed), (65536, scenarioNoteOff)]⟩

/-- The song of the scenario while playing: clock, fired flag of the note-on and current
events -/
def scenarioSong (playTime : ℚ) (processed : Bool) (cur : List (Nat × MIDIEvent)) : MIDISong :=
  ⟨cur, [scenarioTrack processed], 500000, 480, playTime, some true⟩

/-- The scenario song as loaded, before any call -/
def scenarioLoaded : MIDISong :=
  ⟨[], [scenarioTrack false], 500000, 480, 0, none⟩

/-- A series of calls on the scenario song -/
def scenarioOps : List Op :=
  [Op.play, Op.update (3 / 4), Op.update 0, Op.stop, Op.play, Op.update 1]

/-- The states the scenario song goes through under `scenarioOps` -/
def scenarioStates : List MIDISong :=
  [scenarioLoaded, scenarioSong 0 false [], scenarioSong (3 / 4) true [(0, scenarioNoteOn true)],
    scenarioSong (3 / 4) true [],
    ⟨[], [scenarioTrack true], 500000, 480, 3 / 4, some false⟩,
    scenarioSong 0 true [], scenarioSong 1 true []]

/-- Event bytes of a track named "Drums": the track-name meta event and the end of track -/
def drumsBody : List Nat :=
  [0x00, 0xFF, 0x03, 0x05, 0x44, 0x72, 0x75, 0x6D, 0x73, 0x00, 0xFF, 0x2F, 0x00]

/-- Event bytes of a track named "Bass" -/
def bassBody : List Nat :=
  [0x00, 0xFF, 0x03, 0x04, 0x42, 0x61, 0x73, 0x73, 0x00, 0xFF, 0x2F, 0x00]

/-- A format 1 file with the two tracks "Drums" and "Bass" -/
def namedTracksFile : List Nat :=
  headerChunk 1 2 480 ++ trackChunk drumsBody ++ trackChunk bassBody

/-- The tag "Piano" -/
def pianoTag : List Nat := [0x50, 0x69, 0x61, 0x6E, 0x6F]

/-- The tag "BASS" -/
def bassTag : List Nat := [0x42, 0x41, 0x53, 0x53]

/-- Event bytes: a note-on at tick 480 under tempo 500000, then tempo 1000000, then a
note-on at tick 960 -/
def tempoChangeBody : List Nat :=
  [0x00, 0xFF, 0x51, 0x03, 0x07, 0xA1, 0x20,
   0x83, 0x60, 0x90, 0x3C, 0x64,
   0x00, 0xFF, 0x51, 0x03, 0x0F, 0x42, 0x40,
   0x83, 0x60, 0x90, 0x3E, 0x64,
   0x00, 0xFF, 0x2F, 0x00]

/-- The states of the decode loop over `tempoChangeBody`, division 480 -/
def tempoChangeStates : List ParseState :=
  (parseStates 480 tempoChangeBody.length tempoChangeBody.length
    (ParseState.init MIDITrack.new tempoChangeBody 0)).getD []

/-- The scenario song at clock 3/4, the note-on fired and reported -/
def scenarioReported : MIDISong :=
  scenarioSong (3 / 4) true [(0, scenarioNoteOn true)]

/-- The states of the scenario song from `Reset` on, through two `Update` calls -/
def scenarioResetStates : List MIDISong :=
  [scenarioSong 0 true [(0, scenarioNoteOn true)], scenarioSong (3 / 4) true [],
    scenarioSong 1 true []]

/-- Event bytes without a tempo meta event: a note-on at tick 0, a note-off at tick 480, end
of track -/
def noTempoBody : List Nat :=
  [0x00, 0x90, 0x3C, 0x64,
   0x83, 0x60, 0x80, 0x3C, 0x00,
   0x00, 0xFF, 0x2F, 0x00]

/-- The states of the decode loop over `noTempoBody`, division 480, tempo 0 -/
def noTempoStates : List ParseState :=
  (parseStates 480 noTempoBody.length noTempoBody.length
    (ParseState.init MIDITrack.new noTempoBody 0)).getD []

/-- Event bytes cut short: a text meta event that announces 5 data bytes and holds 1 -/
def truncatedMetaBody : List Nat := [0x00, 0xFF, 0x01, 0x05, 0x41]

/-- Event bytes cut short: a note-on status byte with one of its two data bytes -/
def truncatedNoteBody : List Nat := [0x00, 0x90, 0x3C]

/-- Event bytes cut short: a delta-time whose last byte has the continuation bit set -/
def truncatedDeltaBody : List Nat := [0x00, 0x90, 0x3C, 0x64, 0x81]

/-- Event bytes: a text meta event whose length field is the two-byte quantity 81 00 (128)
followed by its 128 data bytes, then a note-on and the end of track -/
def longMetaBody : List Nat :=
  [0x00, 0xFF, 0x01, 0x81, 0x00] ++ List.replicate 128 0x41
    ++ [0x00, 0x90, 0x3C, 0x64, 0x00, 0xFF, 0x2F, 0x00]

/-- Event bytes: a system-exclusive event whose length field is the two-byte quantity 81 00
(128) followed by its 128 data bytes, then the end of track -/
def longSysexBody : List Nat :=
  [0x00, 0xF0, 0x81, 0x00] ++ List.replicate 127 0x41 ++ [0xF7]
    ++ [0x00, 0xFF, 0x2F, 0x00]

/-- Event bytes: the end-of-track marker followed, inside the declared length, by a tempo
meta event and a note-on -/
def afterEndBody : List Nat :=
  [0x00, 0xFF, 0x2F, 0x00,
   0x00, 0xFF, 0x51, 0x03, 0x07, 0xA1, 0x20,
   0x0A, 0x90, 0x3C, 0x64]

/-- Event bytes: the track name "Drums" (FF 03 05 and five letters), a note-on 96 ticks
later, a note-off at the same tick and the end of track -/
def nameThenNoteBody : List Nat :=
  [0x00, 0xFF, 0x03, 0x05, 0x44, 0x72, 0x75, 0x6D, 0x73,
   0x60, 0x90, 0x3C, 0x64,
   0x00, 0x80, 0x3C, 0x00,
   0x00, 0xFF, 0x2F, 0x00]

/-- Event bytes: an instrument name of 300 letters (FF 04, length 82 2C) and the end of
track -/
def longNameBody : List Nat :=
  [0x00, 0xFF, 0x04, 0x82, 0x2C] ++ List.replicate 300 0x41 ++ [0x00, 0xFF, 0x2F, 0x00]

/-- Event bytes with a tempo decrease between two notes: tempo 1000000 (FF 51 03 0F 42 40)
at tick 0, note-on 60 at tick 480, tempo 250000 (FF 51 03 03 D0 90), note-on 62 at tick
960, end of track -/
def tempoDropBody : List Nat :=
  [0x00, 0xFF, 0x51, 0x03, 0x0F, 0x42, 0x40,
   0x83, 0x60, 0x90, 0x3C, 0x64,
   0x00, 0xFF, 0x51, 0x03, 0x03, 0xD0, 0x90,
   0x83, 0x60, 0x90, 0x3E, 0x64,
   0x00, 0xFF, 0x2F, 0x00]

/-- The states of the decode loop over `scenarioBody`, division 480, tempo 0 at the start -/
def scenarioParseStates : List ParseState :=
  (parseStates 480 scenarioBody.length scenarioBody.length
    (ParseState.init MIDITrack.new scenarioBody 0)).getD []

/-- The song that `namedTracksFile` loads into -/
def namedTracksSong : MIDISong :=
  ⟨[], [⟨drumsBody, 13, 13, some [0x44, 0x72, 0x75, 0x6D, 0x73], none, []⟩,
    ⟨bassBody, 12, 12, some [0x42, 0x61, 0x73, 0x73], none, []⟩], 0, 480, 0, none⟩

/-! ## Bit operations as arithmetic -/

theorem and_7f (c : Nat) : c &&& 0x7f = c % 128 :=
  Nat.and_pow_two_sub_one_eq_mod c 7

theorem and_ff (c : Nat) : c &&& 0xff = c % 256 :=
  Nat.and_pow_two_sub_one_eq_mod c 8

theorem and_0f (c : Nat) : c &&& 0xf = c % 16 :=
  Nat.and_pow_two_sub_one_eq_mod c 4

set_option maxRecDepth 100000 in
theorem and_80_byte : ∀ c < 256, (c &&& 0x80 = 0) ↔ c < 128 := by
  decide

theorem and_80 (c : Nat) : (c % 256 &&& 0x80 = 0) ↔ c % 256 < 128 :=
  and_80_byte _ (Nat.mod_lt _ (by norm_num))

theorem shl_or (a b i : Nat) (h : b < 2 ^ i) : (a <<< i) ||| b = 2 ^ i * a + b := by
  rw [Nat.mul_add_lt_is_or h, Nat.shiftLeft_eq, Nat.mul_comm]

theorem SwapShort_eq (v : Nat) : SwapShort v = 256 * (v % 256) + v / 256 % 256 := by
  have h : v / 256 % 256 < 2 ^ 8 := Nat.mod_lt _ (by norm_num)
  simp only [SwapShort, and_ff, Nat.shiftRight_eq_div_pow, shl_or _ _ 8 h]
  omega

theorem SwapLong_eq (v : Nat) :
    SwapLong v = 16777216 * (v % 256) + 65536 * (v / 256 % 256) + 256 * (v / 65536 % 256)
      + v / 16777216 % 256 := by
  have hd : v / 16777216 % 256 < 2 ^ 8 := Nat.mod_lt _ (by norm_num)
  have hc : 2 ^ 8 * (v / 65536 % 256) + v / 16777216 % 256 < 2 ^ 16 := by omega
  have hb : 2 ^ 16 * (v / 256 % 256) + (2 ^ 8 * (v / 65536 % 256) + v / 16777216 % 256)
      < 2 ^ 24 := by omega
  simp only [SwapLong, and_ff, Nat.shiftRight_eq_div_pow, Nat.lor_assoc]
  norm_num only
  rw [shl_or _ _ 8 hd, shl_or _ _ 16 hc, shl_or _ _ 24 hb]
  omega

/-! ## `GetVLQ` -/

theorem vlqLoop_cons (c : Nat) (rest : List Nat) (acc n : Nat) :
    vlqLoop (c :: rest) acc n =
      if 128 ≤ c % 256 then vlqLoop rest ((acc * 128 + c % 128) % 2 ^ 32) (n + 1)
      else some ((acc * 128 + c % 128) % 2 ^ 32, n + 1) := by
  have h7 : c % 256 % 128 = c % 128 := by omega
  simp only [vlqLoop, and_7f, Nat.shiftLeft_eq, ne_eq, and_80, not_lt, h7]

theorem vlqLoop_encodeVLQ (v : Nat) (hv : v ≤ 0x0FFFFFFF) (rest : List Nat) :
    vlqLoop (encodeVLQ v ++ rest) 0 0 = some (v, (encodeVLQ v).length) ∧
      1 ≤ (encodeVLQ v).length ∧ (encodeVLQ v).length ≤ 4 := by
  by_cases h1 : v < 128
  · have e0 : v / 128 = 0 := by omega
    simp [encodeVLQ, vlqHigh, e0, vlqLoop_cons]
    split_ifs <;> first | omega | (simp; omega)
  · have e0 : v / 128 ≠ 0 := by omega
    by_cases h2 : v < 128 * 128
    · have e1 : v / 128 / 128 = 0 := by omega
      simp [encodeVLQ, vlqHigh, e1, e0, vlqLoop_cons]
      split_ifs <;> first | omega | (simp; omega)
    · have e1 : v / 128 / 128 ≠ 0 := by omega
      by_cases h3 : v < 128 * 128 * 128
      · have e2 : v / 128 / 128 / 128 = 0 := by omega
        simp [encodeVLQ, vlqHigh, e2, e1, e0, vlqLoop_cons]
        split_ifs <;> first | omega | (simp; omega)
      · have e2 : v / 128 / 128 / 128 ≠ 0 := by omega
        have e3 : v / 128 / 128 / 128 / 128 = 0 := by omega
        simp [encodeVLQ, vlqHigh, e3, e2, e1, e0, vlqLoop_cons]
        split_ifs <;> first | omega | (simp; omega)

/-- C1: for every value `v` from 0 to 0x0FFFFFFF, `GetVLQ` applied at the first byte of the
standard MIDI encoding of `v`, wherever it lies in a buffer and whatever follows it, returns
`v` and moves the cursor forward by the number of encoded bytes, which is between 1 and 4. -/
theorem GetVLQ_encodeVLQ (v : Nat) (hv : v ≤ 0x0FFFFFFF) (before after : List Nat) :
    GetVLQ (before ++ encodeVLQ v ++ after) before.length
        = some (v, before.length + (encodeVLQ v).length) ∧
      1 ≤ (encodeVLQ v).length ∧ (encodeVLQ v).length ≤ 4 := by
  obtain ⟨h, hlen⟩ := vlqLoop_encodeVLQ v hv after
  refine ⟨?_, hlen⟩
  simp [GetVLQ, List.append_assoc, List.drop_left, h]

theorem GetVLQ_encodeVLQ_witness :
    GetVLQ ([0x00, 0x90] ++ encodeVLQ 480 ++ [0x90, 0x3C, 0x64]) [0x00, 0x90].length
        = some (480, [0x00, 0x90].length + (encodeVLQ 480).length) ∧
      1 ≤ (encodeVLQ 480).length ∧ (encodeVLQ 480).length ≤ 4 :=
  GetVLQ_encodeVLQ 480 (by decide) [0x00, 0x90] [0x90, 0x3C, 0x64]

/-! ## Reads inside a buffer -/

theorem byteAt_lt (mem : List Nat) (i : Nat) : byteAt mem i < 256 :=
  Nat.mod_lt _ (by norm_num)

theorem readByte_eq (mem : List Nat) (p : Nat) (h : p < mem.length) :
    readByte mem p = some (byteAt mem p) := by
  simp [readByte, byteAt, List.getD, List.getElem?_eq_getElem h]

theorem readByte_none (mem : List Nat) (p : Nat) (h : mem.length ≤ p) :
    readByte mem p = none := by
  simp [readByte, List.getElem?_eq_none h]

theorem readU16_eq (mem : List Nat) (p : Nat) (h : p + 1 < mem.length) :
    readU16 mem p = some (byteAt mem p + 256 * byteAt mem (p + 1)) := by
  simp [readU16, readByte_eq mem p (by omega), readByte_eq mem (p + 1) h]

theorem readU32_eq (mem : List Nat) (p : Nat) (h : p + 3 < mem.length) :
    readU32 mem p = some (byteAt mem p + 256 * byteAt mem (p + 1) + 65536 * byteAt mem (p + 2)
      + 16777216 * byteAt mem (p + 3)) := by
  simp [readU32, readByte_eq mem p (by omega), readByte_eq mem (p + 1) (by omega),
    readByte_eq mem (p + 2) (by omega), readByte_eq mem (p + 3) h]

theorem SwapShort_le (b0 b1 : Nat) (h0 : b0 < 256) (h1 : b1 < 256) :
    SwapShort (b0 + 256 * b1) = be16 b0 b1 := by
  rw [SwapShort_eq, be16]
  omega

theorem SwapLong_le (b0 b1 b2 b3 : Nat) (h0 : b0 < 256) (h1 : b1 < 256) (h2 : b2 < 256)
    (h3 : b3 < 256) :
    SwapLong (b0 + 256 * b1 + 65536 * b2 + 16777216 * b3) = be32 b0 b1 b2 b3 := by
  rw [SwapLong_eq, be32]
  omega

/-- The header fields as `Load` reads them from a buffer that holds the 14 header bytes -/
theorem Load_header (s : MIDISong) (mem : List Nat) (h14 : 14 ≤ mem.length) :
    s.Load mem =
      if byteAt mem 0 + 256 * byteAt mem 1 + 65536 * byteAt mem 2 + 16777216 * byteAt mem 3
          ≠ MThd ∨ be16 (byteAt mem 8) (byteAt mem 9) ≥ 2 then
        some (false, { s with m_division := be16 (byteAt mem 12) (byteAt mem 13) })
      else
        (loadTracks mem (be16 (byteAt mem 10) (byteAt mem 11))
          { s with m_division := be16 (byteAt mem 12) (byteAt mem 13) } 14).map
            (fun s1 => (true, s1)) := by
  have b := byteAt_lt mem
  simp only [MIDISong.Load, readU16_eq mem 8 (by omega), readU16_eq mem 10 (by omega),
    readU16_eq mem 12 (by omega), readU32_eq mem 0 (by omega), Option.map_some',
    SwapShort_le _ _ (b _) (b _), Option.bind_eq_bind, Option.some_bind]
  split_ifs
  · rfl
  · cases loadTracks mem (be16 (byteAt mem 10) (byteAt mem 11))
      { s with m_division := be16 (byteAt mem 12) (byteAt mem 13) } 14 <;> rfl

theorem magic_MThd (b0 b1 b2 b3 : Nat) (h0 : b0 < 256) (h1 : b1 < 256) (h2 : b2 < 256)
    (_h3 : b3 < 256) :
    b0 + 256 * b1 + 65536 * b2 + 16777216 * b3 = MThd ↔
      [b0, b1, b2, b3] = [0x4D, 0x54, 0x68, 0x64] := by
  simp only [MThd, List.cons.injEq, and_true]
  omega

theorem magic_MTrk (b0 b1 b2 b3 : Nat) (h0 : b0 < 256) (h1 : b1 < 256) (h2 : b2 < 256)
    (_h3 : b3 < 256) :
    b0 + 256 * b1 + 65536 * b2 + 16777216 * b3 = MTrk ↔
      [b0, b1, b2, b3] = [0x4D, 0x54, 0x72, 0x6B] := by
  simp only [MTrk, List.cons.injEq, and_true]
  omega

/-- C2: for every buffer that holds the 14 header bytes and whose first four bytes are not
"MThd" or whose big-endian format field (bytes 8 and 9) is 2 or more, `Load` returns false
and changes nothing but `m_division`, so the track list of a new song stays empty, and
`LoadSong` returns the null pointer. -/
theorem Load_rejects_header (mem : List Nat) (h14 : 14 ≤ mem.length)
    (hbad : [byteAt mem 0, byteAt mem 1, byteAt mem 2, byteAt mem 3] ≠ [0x4D, 0x54, 0x68, 0x64]
      ∨ 2 ≤ be16 (byteAt mem 8) (byteAt mem 9)) :
    (∀ s : MIDISong,
        s.Load mem = some (false, { s with m_division := be16 (byteAt mem 12) (byteAt mem 13) }))
      ∧ (MIDISong.new.Load mem).map (fun r => (r.1, r.2.m_tracks)) = some (false, [])
      ∧ LoadSong mem = some none := by
  have b := byteAt_lt mem
  have key : ∀ s : MIDISong,
      s.Load mem = some (false, { s with m_division := be16 (byteAt mem 12) (byteAt mem 13) }) := by
    intro s
    rw [Load_header s mem h14, if_pos]
    rcases hbad with h | h
    · left
      rw [Ne, magic_MThd _ _ _ _ (b _) (b _) (b _) (b _)]
      exact h
    · right
      exact h
  refine ⟨key, ?_, ?_⟩
  · rw [key]
    rfl
  · rw [LoadSong, key]
    rfl

theorem Load_rejects_header_witness :
    (∀ s : MIDISong,
        s.Load format2Header = some (false,
          { s with m_division := be16 (byteAt format2Header 12) (byteAt format2Header 13) }))
      ∧ (MIDISong.new.Load format2Header).map (fun r => (r.1, r.2.m_tracks)) = some (false, [])
      ∧ LoadSong format2Header = some none :=
  Load_rejects_header format2Header (by decide) (Or.inr (by decide))

/-! ## `Parse` on a well-formed chunk -/

theorem byteAt_append_right (l1 l2 : List Nat) (i : Nat) :
    byteAt (l1 ++ l2) (l1.length + i) = byteAt l2 i := by
  simp [byteAt, List.getD_eq_getElem?_getD, List.getElem?_append_right]

theorem byteAt_append_left (l1 l2 : List Nat) (i : Nat) (h : i < l1.length) :
    byteAt (l1 ++ l2) i = byteAt l1 i := by
  simp [byteAt, List.getD_eq_getElem?_getD, List.getElem?_append_left h]

theorem byteAt_append_zero (l1 l2 : List Nat) :
    byteAt (l1 ++ l2) l1.length = byteAt l2 0 := by
  simpa using byteAt_append_right l1 l2 0

theorem byteAt_cons_zero (a : Nat) (l : List Nat) : byteAt (a :: l) 0 = a % 256 := rfl

theorem byteAt_cons_succ (a : Nat) (l : List Nat) (i : Nat) :
    byteAt (a :: l) (i + 1) = byteAt l i := rfl

theorem Parse_trackChunk (t : MIDITrack) (division tempo : Nat) (before body after : List Nat)
    (hlen : body.length < 2 ^ 32) :
    MIDITrack.Parse t division tempo (before ++ (trackChunk body ++ after)) before.length =
      (parseLoop division body.length body.length (ParseState.init t body tempo)).map
        (fun s => ⟨true, s.track, s.tempo, before.length + (trackChunk body).length⟩) := by
  have hl : (trackChunk body).length = 8 + body.length := by
    simp [trackChunk, be32Bytes]
    omega
  have hc : trackChunk body ++ after = 0x4D :: 0x54 :: 0x72 :: 0x6B ::
      (body.length / 16777216 % 256) :: (body.length / 65536 % 256) ::
      (body.length / 256 % 256) :: (body.length % 256) :: (body ++ after) := by
    simp [trackChunk, be32Bytes]
  have h0 : readU32 (before ++ (trackChunk body ++ after)) before.length = some MTrk := by
    rw [readU32_eq _ _ (by simp [hl]; omega)]
    simp only [byteAt_append_right, byteAt_append_zero, hc, byteAt_cons_zero, byteAt_cons_succ]
    rfl
  have h4 : (readU32 (before ++ (trackChunk body ++ after)) (before.length + 4)).map SwapLong
      = some body.length := by
    rw [readU32_eq _ _ (by simp [hl]; omega)]
    simp only [byteAt_append_right, Nat.add_assoc, hc, byteAt_cons_zero, byteAt_cons_succ,
      Option.map_some', Nat.reduceAdd, Nat.mod_mod]
    have e := SwapLong_le (body.length / 16777216 % 256) (body.length / 65536 % 256)
      (body.length / 256 % 256) (body.length % 256) (Nat.mod_lt _ (by norm_num))
      (Nat.mod_lt _ (by norm_num)) (Nat.mod_lt _ (by norm_num)) (Nat.mod_lt _ (by norm_num))
    simp only [Nat.add_assoc] at e
    rw [e, be32]
    congr 1
    omega
  have hmem : ¬ (before ++ (trackChunk body ++ after)).length < before.length + 8 + body.length := by
    simp [hl]
    omega
  have hbuf : List.take body.length (List.drop (before.length + 8)
      (before ++ (trackChunk body ++ after))) = body := by
    rw [List.drop_append, hc]
    simp
  rw [Option.map_eq_some'] at h4
  obtain ⟨raw, hraw, hswap⟩ := h4
  simp only [MIDITrack.Parse, h0, hraw, hswap, Option.bind_eq_bind, Option.some_bind, ne_eq,
    not_true_eq_false, if_false, hmem, hbuf, hl]
  cases parseLoop division body.length body.length (ParseState.init t body tempo) <;>
    simp [Nat.add_assoc]

/-! ## `Load` on a well-formed file -/

theorem loadTracks_trackChunks (bodies : List (List Nat)) :
    ∀ (before after : List Nat) (s : MIDISong), (∀ b ∈ bodies, b.length < 2 ^ 32) →
      loadTracks (before ++ (trackChunks bodies ++ after)) bodies.length s before.length =
        (parseBodies s.m_division s.m_tempo bodies).map
          (fun r => { s with m_tempo := r.2, m_tracks := s.m_tracks ++ r.1 }) := by
  induction bodies with
  | nil =>
    intro before after s _
    simp [loadTracks, parseBodies]
  | cons body rest ih =>
    intro before after s hb
    have hbody : body.length < 2 ^ 32 := hb body (List.mem_cons_self _ _)
    have hrest : ∀ b ∈ rest, b.length < 2 ^ 32 := fun b h => hb b (List.mem_cons_of_mem _ h)
    have hmem : before ++ (trackChunks (body :: rest) ++ after)
        = before ++ (trackChunk body ++ (trackChunks rest ++ after)) := by
      simp [trackChunks]
    have hmem2 : before ++ (trackChunk body ++ (trackChunks rest ++ after))
        = (before ++ trackChunk body) ++ (trackChunks rest ++ after) := by
      simp
    simp only [List.length_cons, loadTracks, MIDISong.GetDivision, MIDISong.GetTempo, hmem,
      Parse_trackChunk _ _ _ _ _ _ hbody, parseBodies, parseBody, Option.bind_eq_bind]
    cases hp : parseLoop s.m_division body.length body.length
        (ParseState.init MIDITrack.new body s.m_tempo) with
    | none => simp
    | some st =>
      simp only [Option.map_some', Option.some_bind]
      rw [hmem2, ← List.length_append, ih _ _ _ hrest]
      cases parseBodies s.m_division st.tempo rest <;> simp

theorem parseBodies_length (division : Nat) (bodies : List (List Nat)) :
    ∀ (tempo : Nat) (r : List MIDITrack × Nat),
      parseBodies division tempo bodies = some r → r.1.length = bodies.length := by
  induction bodies with
  | nil =>
    intro tempo r h
    simp [parseBodies] at h
    simp [← h]
  | cons body rest ih =>
    intro tempo r h
    simp only [parseBodies, Option.bind_eq_bind, Option.bind_eq_some] at h
    obtain ⟨st, _, r1, hr1, hr⟩ := h
    simp only [Option.some.injEq] at hr
    simp [← hr, ih _ _ hr1]

theorem headerChunk_length (format numTracks division : Nat) :
    (headerChunk format numTracks division).length = 14 := rfl

/-- C3: for every buffer made of a header chunk with magic "MThd", format 0 or 1, track count
`n` and any division, followed by `n` track chunks ("MTrk", big-endian length, event bytes)
and any further bytes, `Load` returns true with exactly `n` tracks appended, the track
number `i` being the result of the decode loop over the event bytes of chunk number `i`,
whenever that decoding stays inside the chunks (`parseBodies` is `some`); otherwise the run
is undefined. -/
theorem Load_valid_file (s : MIDISong) (format division : Nat) (bodies : List (List Nat))
    (after : List Nat) (hf : format < 2) (hn : bodies.length < 65536) (hd : division < 65536)
    (hb : ∀ b ∈ bodies, b.length < 2 ^ 32) :
    s.Load (headerChunk format bodies.length division ++ (trackChunks bodies ++ after)) =
        (parseBodies division s.m_tempo bodies).map
          (fun r => (true, { s with m_division := division, m_tempo := r.2,
                                    m_tracks := s.m_tracks ++ r.1 }))
      ∧ ∀ r, parseBodies division s.m_tempo bodies = some r →
          r.1.length = bodies.length
          ∧ s.Load (headerChunk format bodies.length division ++ (trackChunks bodies ++ after))
              = some (true, { s with m_division := division, m_tempo := r.2,
                                     m_tracks := s.m_tracks ++ r.1 }) := by
  suffices hmain : s.Load (headerChunk format bodies.length division
      ++ (trackChunks bodies ++ after)) =
        (parseBodies division s.m_tempo bodies).map
          (fun r => (true, { s with m_division := division, m_tempo := r.2,
                                    m_tracks := s.m_tracks ++ r.1 })) by
    refine ⟨hmain, fun r h => ⟨parseBodies_length _ _ _ _ h, ?_⟩⟩
    rw [hmain, h]
    rfl
  have hlen : 14 ≤ (headerChunk format bodies.length division
      ++ (trackChunks bodies ++ after)).length := by
    simp [headerChunk_length]
  have hby : ∀ i, i < 14 → byteAt (headerChunk format bodies.length division
      ++ (trackChunks bodies ++ after)) i = byteAt (headerChunk format bodies.length division) i :=
    fun i hi => byteAt_append_left _ _ _ (by simpa [headerChunk_length] using hi)
  rw [Load_header s _ hlen]
  simp only [hby 0 (by norm_num), hby 1 (by norm_num), hby 2 (by norm_num), hby 3 (by norm_num),
    hby 8 (by norm_num), hby 9 (by norm_num), hby 10 (by norm_num), hby 11 (by norm_num),
    hby 12 (by norm_num), hby 13 (by norm_num)]
  have e0 : byteAt (headerChunk format bodies.length division) 0
      + 256 * byteAt (headerChunk format bodies.length division) 1
      + 65536 * byteAt (headerChunk format bodies.length division) 2
      + 16777216 * byteAt (headerChunk format bodies.length division) 3 = MThd := rfl
  have ef : be16 (byteAt (headerChunk format bodies.length division) 8)
      (byteAt (headerChunk format bodies.length division) 9) = format := by
    simp only [headerChunk, byteAt, be16, List.getD_cons_succ, List.getD_cons_zero]
    omega
  have en : be16 (byteAt (headerChunk format bodies.length division) 10)
      (byteAt (headerChunk format bodies.length division) 11) = bodies.length := by
    simp only [headerChunk, byteAt, be16, List.getD_cons_succ, List.getD_cons_zero]
    omega
  have ed : be16 (byteAt (headerChunk format bodies.length division) 12)
      (byteAt (headerChunk format bodies.length division) 13) = division := by
    simp only [headerChunk, byteAt, be16, List.getD_cons_succ, List.getD_cons_zero]
    omega
  rw [e0, ef, en, ed, if_neg (by simp; omega)]
  have h := loadTracks_trackChunks bodies (headerChunk format bodies.length division) after
    { s with m_division := division } hb
  rw [headerChunk_length] at h
  rw [h]
  cases parseBodies division s.m_tempo bodies <;> simp

theorem Load_valid_file_witness :
    MIDISong.new.Load (headerChunk 1 [emptyTrackBody, emptyTrackBody].length 480
        ++ (trackChunks [emptyTrackBody, emptyTrackBody] ++ [])) =
        (parseBodies 480 MIDISong.new.m_tempo [emptyTrackBody, emptyTrackBody]).map
          (fun r => (true, { MIDISong.new with m_division := 480, m_tempo := r.2,
                                               m_tracks := MIDISong.new.m_tracks ++ r.1 }))
      ∧ ∀ r, parseBodies 480 MIDISong.new.m_tempo [emptyTrackBody, emptyTrackBody] = some r →
          r.1.length = [emptyTrackBody, emptyTrackBody].length
          ∧ MIDISong.new.Load (headerChunk 1 [emptyTrackBody, emptyTrackBody].length 480
              ++ (trackChunks [emptyTrackBody, emptyTrackBody] ++ []))
              = some (true, { MIDISong.new with m_division := 480, m_tempo := r.2,
                                                m_tracks := MIDISong.new.m_tracks ++ r.1 }) :=
  Load_valid_file MIDISong.new 1 480 [emptyTrackBody, emptyTrackBody] [] (by decide) (by decide)
    (by decide) (by decide)

theorem parseBodies_emptyTracks : parseBodies 480 0 [emptyTrackBody, emptyTrackBody] =
    some ([{ MIDITrack.new with m_eventBuffer := emptyTrackBody, m_event := 4, m_nextEvent := 4 },
       { MIDITrack.new with m_eventBuffer := emptyTrackBody, m_event := 4, m_nextEvent := 4 }], 0) := by
  decide

/-- C4: on the two-track file `badSecondTrackFile`, whose second chunk does not start with
"MTrk", `Parse` returns false for that chunk, and yet `Load` returns true, with the first
track built and a second track left as constructed. -/
theorem Load_ignores_failed_Parse :
    MIDITrack.Parse MIDITrack.new 480 0 badSecondTrackFile 26
        = some ⟨false, MIDITrack.new, 0, 26⟩
      ∧ MIDISong.new.Load badSecondTrackFile = some (true,
          { MIDISong.new with
            m_division := 480,
            m_tracks := [{ MIDITrack.new with m_eventBuffer := emptyTrackBody, m_event := 4,
                                              m_nextEvent := 4 }, MIDITrack.new] }) := by
  decide

/-! ## One iteration of the decode loop -/

/-- An iteration that finds a status byte of a channel message (nibble other than 0xF) -/
theorem parseStep_status (division : Nat) (s : ParseState) (dt p sb a1 a2 k : Nat)
    (hv : GetVLQ s.track.m_eventBuffer s.track.m_event = some (dt, p))
    (hsb : readByte s.track.m_eventBuffer p = some sb) (hhi : 0x80 ≤ sb)
    (hF : sb >>> 4 ≠ 0xF)
    (ha1 : readByte s.track.m_eventBuffer (p + 1) = some a1)
    (ha2 : dataBytes (sb >>> 4) = 2 → readByte s.track.m_eventBuffer (p + 2) = some a2)
    (hk : castKey ((s.runtime + dt) % 2 ^ 32) division s.tempo = some k) :
    parseStep division s = some
      { s with
        deltatime := dt, runtime := (s.runtime + dt) % 2 ^ 32,
        status := sb >>> 4, channel := sb &&& 0xf, param1 := a1,
        param2 := if dataBytes (sb >>> 4) = 2 then a2 else s.param2,
        track := { s.track with
          m_event := p + 1 + dataBytes (sb >>> 4),
          m_nextEvent := p + 1 + dataBytes (sb >>> 4),
          m_map := mapInsert s.track.m_map k
            (MIDIEvent.new ((s.runtime + dt) % 2 ^ 32) (sb >>> 4) (sb &&& 0xf) a1
              (if dataBytes (sb >>> 4) = 2 then a2 else s.param2) none 0) } } := by
  have hnlt : ¬ sb < 0x80 := by omega
  simp only [Nat.reducePow] at hk
  by_cases hcd : sb >>> 4 = 0xC ∨ sb >>> 4 = 0xD
  · simp [parseStep, decodeEvent, handleEvent, storeEvent, hv, hsb, hnlt, hF, ha1, hk, hcd,
      dataBytes]
  · have h2 := ha2 (by simp [dataBytes, hcd])
    simp [parseStep, decodeEvent, handleEvent, storeEvent, hv, hsb, hnlt, hF, ha1, h2, hk, hcd,
      dataBytes, Nat.add_assoc]

theorem vlqLoop_advance (l : List Nat) :
    ∀ (acc n v m : Nat), vlqLoop l acc n = some (v, m) → n < m ∧ m ≤ n + l.length := by
  induction l with
  | nil =>
    intro acc n v m h
    simp [vlqLoop] at h
  | cons c rest ih =>
    intro acc n v m h
    rw [vlqLoop_cons] at h
    split_ifs at h
    · have := ih _ _ _ _ h
      simp only [List.length_cons]
      omega
    · simp only [Option.some.injEq, Prod.mk.injEq] at h
      simp only [List.length_cons]
      omega

/-- The cursor moves forward by one byte at least and stays inside the buffer or at its end -/
theorem GetVLQ_advance (mem : List Nat) (q v p : Nat) (h : GetVLQ mem q = some (v, p)) :
    q < p ∧ p ≤ mem.length := by
  simp only [GetVLQ, Option.map_eq_some', Prod.mk.injEq] at h
  obtain ⟨r, hr, hv, hp⟩ := h
  have hq : q < mem.length := by
    by_contra hq
    rw [List.drop_eq_nil_of_le (by omega)] at hr
    simp [vlqLoop] at hr
  have := vlqLoop_advance _ _ _ _ _ (show vlqLoop (List.drop q mem) 0 0 = some (r.1, r.2) from hr)
  simp only [List.length_drop] at this
  omega

/-- An iteration that finds a data byte where a status byte could stand, the status in
force being that of a channel message (nibble other than 0xF) -/
theorem parseStep_running (division : Nat) (s : ParseState) (dt p b1 b2 k : Nat)
    (hv : GetVLQ s.track.m_eventBuffer s.track.m_event = some (dt, p))
    (hb1 : readByte s.track.m_eventBuffer p = some b1) (hlo : b1 < 0x80)
    (hF : s.status ≠ 0xF)
    (hb2 : dataBytes s.status = 2 → readByte s.track.m_eventBuffer (p + 1) = some b2)
    (hk : castKey ((s.runtime + dt) % 2 ^ 32) division s.tempo = some k) :
    parseStep division s = some
      { s with
        deltatime := dt, runtime := (s.runtime + dt) % 2 ^ 32, param1 := b1,
        param2 := if dataBytes s.status = 2 then b2 else s.param2,
        track := { s.track with
          m_event := p + dataBytes s.status,
          m_nextEvent := p + dataBytes s.status,
          m_map := mapInsert s.track.m_map k
            (MIDIEvent.new ((s.runtime + dt) % 2 ^ 32) s.status s.channel b1
              (if dataBytes s.status = 2 then b2 else s.param2) none 0) } } := by
  have hp : p - 1 + 1 = p := by
    have := (GetVLQ_advance _ _ _ _ hv).1
    omega
  have hp2 : p - 1 + 2 = p + 1 := by omega
  have hp3 : p - 1 + 3 = p + 2 := by omega
  simp only [Nat.reducePow] at hk
  by_cases hcd : s.status = 0xC ∨ s.status = 0xD
  · simp [parseStep, decodeEvent, handleEvent, storeEvent, hv, hb1, hlo, hF, hk, hcd,
      dataBytes, hp, hp2]
  · have h2 := hb2 (by simp [dataBytes, hcd])
    simp [parseStep, decodeEvent, handleEvent, storeEvent, hv, hb1, hlo, hF, h2, hk, hcd,
      dataBytes, hp, hp2, hp3]

/-- C5 (counterexample): in `programChangeBody` the program change C0 05 is followed by an
event whose first byte after the delta-time is 07. That event is decoded with status 0xC,
channel 0 and param1 7, but its param2 is the 0 left from before and not the following byte
0x10, and the next event is decoded from offset 5, that very byte, not from offset 6. -/
theorem running_status_program_change :
    ((parseStep 480 (ParseState.init MIDITrack.new programChangeBody 0)).bind
        (parseStep 480)).map
        (fun s => (s.status, s.channel, s.param1, s.param2, s.track.m_event))
        = some (0xC, 0, 7, 0, 5)
      ∧ byteAt programChangeBody 4 = 7 ∧ byteAt programChangeBody 5 = 0x10 := by
  decide

/-- C5 (amended): when an event with a status byte of a channel message (nibble 0x8 to 0xE)
is followed by an event whose first byte after the delta-time has its high bit clear, the
second event is decoded with the status nibble and channel of the first and with that byte
as param1. For nibbles other than 0xC and 0xD its param2 is the byte after it and decoding
resumes after these two bytes; for 0xC and 0xD the event has one data byte, param2 keeps its
value and decoding resumes right after that byte. The event is stored under its key. -/
theorem running_status_decode (division : Nat) (s : ParseState)
    (dt1 p1 sb a1 a2 k1 dt2 p2 b1 b2 k2 : Nat)
    (hv1 : GetVLQ s.track.m_eventBuffer s.track.m_event = some (dt1, p1))
    (hsb : readByte s.track.m_eventBuffer p1 = some sb) (hhi : 0x80 ≤ sb)
    (hF : sb >>> 4 ≠ 0xF)
    (ha1 : readByte s.track.m_eventBuffer (p1 + 1) = some a1)
    (ha2 : dataBytes (sb >>> 4) = 2 → readByte s.track.m_eventBuffer (p1 + 2) = some a2)
    (hk1 : castKey ((s.runtime + dt1) % 2 ^ 32) division s.tempo = some k1)
    (hv2 : GetVLQ s.track.m_eventBuffer (p1 + 1 + dataBytes (sb >>> 4)) = some (dt2, p2))
    (hb1 : readByte s.track.m_eventBuffer p2 = some b1) (hlo : b1 < 0x80)
    (hb2 : dataBytes (sb >>> 4) = 2 → readByte s.track.m_eventBuffer (p2 + 1) = some b2)
    (hk2 : castKey (((s.runtime + dt1) % 2 ^ 32 + dt2) % 2 ^ 32) division s.tempo = some k2) :
    ∃ s1 s2, parseStep division s = some s1 ∧ parseStep division s1 = some s2
      ∧ s1.status = sb >>> 4 ∧ s1.channel = sb &&& 0xf
      ∧ s2.status = s1.status ∧ s2.channel = s1.channel ∧ s2.param1 = b1
      ∧ s2.param2 = (if dataBytes (sb >>> 4) = 2 then b2 else s1.param2)
      ∧ s2.track.m_event = p2 + dataBytes (sb >>> 4)
      ∧ s2.track.m_map = mapInsert s1.track.m_map k2
          (MIDIEvent.new s2.runtime s1.status s1.channel s2.param1 s2.param2 none 0) := by
  have h1 := parseStep_status division s dt1 p1 sb a1 a2 k1 hv1 hsb hhi hF ha1 ha2 hk1
  refine ⟨_, _, h1, parseStep_running division _ dt2 p2 b1 b2 k2 hv2 hb1 hlo hF hb2 hk2, ?_⟩
  simp

set_option maxRecDepth 100000 in
theorem running_status_decode_witness :
    ∃ s1 s2, parseStep 480 (ParseState.init MIDITrack.new runningNoteBody 500000) = some s1
      ∧ parseStep 480 s1 = some s2
      ∧ s1.status = 0x90 >>> 4 ∧ s1.channel = 0x90 &&& 0xf
      ∧ s2.status = s1.status ∧ s2.channel = s1.channel ∧ s2.param1 = 0x3E
      ∧ s2.param2 = (if dataBytes (0x90 >>> 4) = 2 then 0x50 else s1.param2)
      ∧ s2.track.m_event = 5 + dataBytes (0x90 >>> 4)
      ∧ s2.track.m_map = mapInsert s1.track.m_map 1092
          (MIDIEvent.new s2.runtime s1.status s1.channel s2.param1 s2.param2 none 0) :=
  running_status_decode 480 (ParseState.init MIDITrack.new runningNoteBody 500000)
    0 1 0x90 0x3C 0x64 0 0x10 5 0x3E 0x50 1092
    (by decide) (by decide) (by decide) (by decide) (by decide) (by decide) (by decide)
    (by decide) (by decide) (by decide) (by decide) (by decide)

/-! ## Rounding to the nearest integer and to `double` -/

theorem rne_bounds (z : ℚ) : ⌊z⌋ ≤ rne z ∧ rne z ≤ ⌊z⌋ + 1 := by
  unfold rne
  split_ifs <;> constructor <;> omega

theorem rne_intCast (k : ℤ) : rne (k : ℚ) = k := by
  unfold rne
  simp

theorem rne_mono (z1 z2 : ℚ) (h : z1 ≤ z2) : rne z1 ≤ rne z2 := by
  have hfl : ⌊z1⌋ ≤ ⌊z2⌋ := Int.floor_mono h
  rcases lt_or_eq_of_le hfl with hlt | heq
  · have := (rne_bounds z1).2
    have := (rne_bounds z2).1
    omega
  · unfold rne
    rw [← heq]
    split_ifs <;> first | omega | (exfalso; linarith)

theorem rne_ge (z : ℚ) (k : ℤ) (h : (k : ℚ) ≤ z) : k ≤ rne z := by
  have := rne_mono _ _ h
  rwa [rne_intCast] at this

theorem rne_le (z : ℚ) (k : ℤ) (h : z ≤ (k : ℚ)) : rne z ≤ k := by
  have := rne_mono _ _ h
  rwa [rne_intCast] at this

theorem rne_div (N D : Nat) (hD : 0 < D) :
    rne ((N : ℚ) / D) = ((if 2 * (N % D) < D then N / D else if D < 2 * (N % D) then N / D + 1
      else if (N / D) % 2 = 0 then N / D else N / D + 1 : Nat) : ℤ) := by
  have hfl : ⌊(N : ℚ) / D⌋ = ((N / D : Nat) : ℤ) := by
    rw [Rat.floor_natCast_div_natCast]; norm_cast
  have hDq : (0 : ℚ) < D := by exact_mod_cast hD
  have hfr : 2 * ((N : ℚ) / D - ((N / D : Nat) : ℤ)) = (2 * (N % D) : Nat) / (D : ℚ) := by
    have h := Nat.div_add_mod N D
    have hq : (N : ℚ) = D * (N / D : Nat) + (N % D : Nat) := by exact_mod_cast h.symm
    rw [Int.cast_natCast, Nat.cast_mul, Nat.cast_ofNat]
    field_simp
    linarith
  unfold rne
  rw [hfl, hfr]
  have c1 : ((2 * (N % D) : Nat) / (D : ℚ) < 1) ↔ 2 * (N % D) < D := by
    rw [div_lt_one hDq]; norm_cast
  have c2 : (1 < (2 * (N % D) : Nat) / (D : ℚ)) ↔ D < 2 * (N % D) := by
    rw [one_lt_div hDq]; norm_cast
  have c3 : (((N / D : Nat) : ℤ) % 2 = 0) ↔ (N / D) % 2 = 0 := by omega
  simp only [c1, c2, c3]
  split_ifs <;> simp

theorem grid_round_mono (F : Nat) (X Y : ℚ) (Ex Ey : Nat) (hXY : X ≤ Y)
    (hEx : Ex ≤ 2 * F) (hEy : Ey ≤ 2 * F)
    (hx1 : 2 ^ 52 * 2 ^ Ex ≤ X ∨ Ex = 0) (hx2 : X < 2 ^ 53 * 2 ^ Ex ∨ Ex = 2 * F)
    (hy1 : 2 ^ 52 * 2 ^ Ey ≤ Y ∨ Ey = 0) (hy2 : Y < 2 ^ 53 * 2 ^ Ey ∨ Ey = 2 * F) :
    (rne (X / 2 ^ Ex) : ℚ) * 2 ^ Ex ≤ (rne (Y / 2 ^ Ey) : ℚ) * 2 ^ Ey := by
  have px : (0 : ℚ) < 2 ^ Ex := by positivity
  have py : (0 : ℚ) < 2 ^ Ey := by positivity
  have step : ∀ a b : Nat, a < b → (2 : ℚ) * 2 ^ a ≤ 2 ^ b := by
    intro a b hab
    have : (2 : ℚ) * 2 ^ a = 2 ^ (a + 1) := by rw [pow_succ]; ring
    rw [this]
    exact pow_le_pow_right₀ (by norm_num) hab
  rcases Nat.lt_trichotomy Ex Ey with hlt | heq | hgt
  · have h1 : X < 2 ^ 53 * 2 ^ Ex := by
      rcases hx2 with h | h
      · exact h
      · omega
    have h2 : 2 ^ 52 * 2 ^ Ey ≤ Y := by
      rcases hy1 with h | h
      · exact h
      · omega
    have h3 : rne (X / 2 ^ Ex) ≤ ((2 ^ 53 : Nat) : ℤ) := by
      apply rne_le
      rw [div_le_iff₀ px]
      push_cast
      exact le_of_lt h1
    have h4 : ((2 ^ 52 : Nat) : ℤ) ≤ rne (Y / 2 ^ Ey) := by
      apply rne_ge
      rw [le_div_iff₀ py]
      push_cast
      exact h2
    have h3q : (rne (X / 2 ^ Ex) : ℚ) ≤ 2 ^ 53 := by exact_mod_cast h3
    have h4q : (2 ^ 52 : ℚ) ≤ (rne (Y / 2 ^ Ey) : ℚ) := by exact_mod_cast h4
    have h5 := step Ex Ey hlt
    calc (rne (X / 2 ^ Ex) : ℚ) * 2 ^ Ex ≤ 2 ^ 53 * 2 ^ Ex :=
          mul_le_mul_of_nonneg_right h3q (le_of_lt px)
      _ = 2 ^ 52 * (2 * 2 ^ Ex) := by ring
      _ ≤ 2 ^ 52 * 2 ^ Ey := mul_le_mul_of_nonneg_left h5 (by positivity)
      _ ≤ (rne (Y / 2 ^ Ey) : ℚ) * 2 ^ Ey := mul_le_mul_of_nonneg_right h4q (le_of_lt py)
  · subst heq
    apply mul_le_mul_of_nonneg_right _ (le_of_lt px)
    have : rne (X / 2 ^ Ex) ≤ rne (Y / 2 ^ Ex) :=
      rne_mono _ _ (div_le_div_of_nonneg_right hXY (le_of_lt px))
    exact_mod_cast this
  · exfalso
    have h1 : 2 ^ 52 * 2 ^ Ex ≤ X := by
      rcases hx1 with h | h
      · exact h
      · omega
    have h2 : Y < 2 ^ 53 * 2 ^ Ey := by
      rcases hy2 with h | h
      · exact h
      · omega
    have h5 := step Ey Ex hgt
    have h6 : (2 : ℚ) ^ 53 * 2 ^ Ey ≤ 2 ^ 52 * 2 ^ Ex := by
      calc (2 : ℚ) ^ 53 * 2 ^ Ey = 2 ^ 52 * (2 * 2 ^ Ey) := by ring
        _ ≤ 2 ^ 52 * 2 ^ Ex := mul_le_mul_of_nonneg_left h5 (by positivity)
    linarith

theorem roundDouble_unfold (x : ℚ) (M : ℕ) (hM : M = 1074) :
    roundDouble x = if (rne (|x| * 2 ^ M / 2 ^ (Nat.log 2 ⌊|x| * 2 ^ M⌋₊ - 52)) : ℚ)
        * 2 ^ (Nat.log 2 ⌊|x| * 2 ^ M⌋₊ - 52) / 2 ^ M < 2 ^ 1024
      then some (if x < 0 then -((rne (|x| * 2 ^ M / 2 ^ (Nat.log 2 ⌊|x| * 2 ^ M⌋₊ - 52)) : ℚ)
        * 2 ^ (Nat.log 2 ⌊|x| * 2 ^ M⌋₊ - 52) / 2 ^ M)
        else (rne (|x| * 2 ^ M / 2 ^ (Nat.log 2 ⌊|x| * 2 ^ M⌋₊ - 52)) : ℚ)
        * 2 ^ (Nat.log 2 ⌊|x| * 2 ^ M⌋₊ - 52) / 2 ^ M)
      else none := by
  subst hM
  rfl

/-- The binade of a scaled magnitude: with `E = log2 ⌊X⌋ - 52`, the quotient `X / 2 ^ E`
is below `2 ^ 53`, and at least `2 ^ 52` unless `E = 0` -/
theorem log_grid (X : ℚ) (hX : 0 ≤ X) :
    (2 ^ 52 * 2 ^ (Nat.log 2 ⌊X⌋₊ - 52) ≤ X ∨ Nat.log 2 ⌊X⌋₊ - 52 = 0)
      ∧ X < 2 ^ 53 * 2 ^ (Nat.log 2 ⌊X⌋₊ - 52) := by
  constructor
  · by_cases h : 52 ≤ Nat.log 2 ⌊X⌋₊
    · by_cases h0 : Nat.log 2 ⌊X⌋₊ - 52 = 0
      · exact Or.inr h0
      · left
        have hne : ⌊X⌋₊ ≠ 0 := by
          intro hz
          rw [hz] at h0
          simp at h0
        have h1 : 2 ^ Nat.log 2 ⌊X⌋₊ ≤ ⌊X⌋₊ := Nat.pow_log_le_self 2 hne
        have h2 : ((⌊X⌋₊ : ℕ) : ℚ) ≤ X := Nat.floor_le hX
        have h3 : (2 : ℚ) ^ 52 * 2 ^ (Nat.log 2 ⌊X⌋₊ - 52) = ((2 ^ Nat.log 2 ⌊X⌋₊ : ℕ) : ℚ) := by
          rw [← pow_add]
          push_cast
          congr 1
          omega
        rw [h3]
        exact le_trans (by exact_mod_cast h1) h2
    · right
      omega
  · have h1 : ⌊X⌋₊ < 2 ^ (Nat.log 2 ⌊X⌋₊ + 1) := Nat.lt_pow_succ_log_self (by norm_num) _
    have h2 : X < ((⌊X⌋₊ : ℕ) : ℚ) + 1 := Nat.lt_floor_add_one X
    have h3 : ((⌊X⌋₊ : ℕ) : ℚ) + 1 ≤ ((2 ^ (Nat.log 2 ⌊X⌋₊ + 1) : ℕ) : ℚ) := by
      exact_mod_cast h1
    have h4 : ((2 ^ (Nat.log 2 ⌊X⌋₊ + 1) : ℕ) : ℚ) ≤ 2 ^ 53 * 2 ^ (Nat.log 2 ⌊X⌋₊ - 52) := by
      rw [← pow_add]
      push_cast
      exact pow_le_pow_right₀ (by norm_num) (by omega)
    linarith

theorem grid_multiple (m j : ℕ) (hm : m ≤ 2 ^ 53) :
    ∃ k : ℕ, m * 2 ^ j = k * 2 ^ (Nat.log 2 (m * 2 ^ j) - 52) := by
  by_cases hE : Nat.log 2 (m * 2 ^ j) - 52 ≤ j
  · refine ⟨m * 2 ^ (j - (Nat.log 2 (m * 2 ^ j) - 52)), ?_⟩
    rw [mul_assoc, ← pow_add]
    congr 2
    omega
  · have hL : j + 53 ≤ Nat.log 2 (m * 2 ^ j) := by omega
    have hne : m * 2 ^ j ≠ 0 := by
      intro hz
      rw [hz] at hL
      simp at hL
    have h1 : 2 ^ Nat.log 2 (m * 2 ^ j) ≤ m * 2 ^ j := Nat.pow_log_le_self 2 hne
    have h2 : m * 2 ^ j ≤ 2 ^ 53 * 2 ^ j := Nat.mul_le_mul_right _ hm
    have h3 : 2 ^ (j + 53) ≤ 2 ^ Nat.log 2 (m * 2 ^ j) := Nat.pow_le_pow_right (by norm_num) hL
    have h4 : (2 : ℕ) ^ 53 * 2 ^ j = 2 ^ (j + 53) := by rw [← pow_add]; congr 1; omega
    have h5 : m * 2 ^ j = 2 ^ (j + 53) := by omega
    have h6 : Nat.log 2 (m * 2 ^ j) = j + 53 := by
      rw [h5]
      exact Nat.log_pow (by norm_num) _
    refine ⟨2 ^ 52, ?_⟩
    rw [h6, h5, ← pow_add]
    congr 1
    omega

/-- A value whose magnitude is `m * 2 ^ j / 2 ^ 1074` with `m ≤ 2 ^ 53`, below `2 ^ 1024`,
is a `double`: rounding returns it -/
theorem roundDouble_fix (p : ℚ) (m j : ℕ) (hm : m ≤ 2 ^ 53)
    (hp : |p| * 2 ^ 1074 = ((m * 2 ^ j : ℕ) : ℚ)) (hlt : |p| < 2 ^ 1024) :
    roundDouble p = some p := by
  rw [roundDouble_unfold p 1074 rfl]
  generalize (1074 : ℕ) = M at hp ⊢
  obtain ⟨k, hk⟩ := grid_multiple m j hm
  have hP : (0 : ℚ) < 2 ^ M := pow_pos (by norm_num) _
  rw [hp, Nat.floor_natCast]
  generalize Nat.log 2 (m * 2 ^ j) - 52 = E at hk ⊢
  have hE : (0 : ℚ) < 2 ^ E := pow_pos (by norm_num) _
  have hq : ((m * 2 ^ j : ℕ) : ℚ) / 2 ^ E = ((k : ℤ) : ℚ) := by
    rw [div_eq_iff (ne_of_gt hE), hk]
    push_cast
    ring
  rw [hq, rne_intCast]
  have hr : ((k : ℤ) : ℚ) * 2 ^ E / 2 ^ M = |p| := by
    rw [eq_comm, eq_div_iff (ne_of_gt hP), hp, hk]
    push_cast
    ring
  rw [hr, if_pos hlt]
  congr 1
  split_ifs with h
  · rw [abs_of_neg h, neg_neg]
  · exact abs_of_nonneg (not_lt.mp h)

/-- The result of a rounding is a `double`: rounding it again returns it -/
theorem roundDouble_idem (x p : ℚ) (h : roundDouble x = some p) : roundDouble p = some p := by
  rw [roundDouble_unfold x 1074 rfl] at h
  have hX : 0 ≤ |x| * 2 ^ 1074 := mul_nonneg (abs_nonneg x) (pow_nonneg (by norm_num) _)
  obtain ⟨_, g2⟩ := log_grid _ hX
  generalize hE : Nat.log 2 ⌊|x| * 2 ^ 1074⌋₊ - 52 = E at h g2
  have hEp : (0 : ℚ) < 2 ^ E := pow_pos (by norm_num) _
  have h0 : (0 : ℤ) ≤ rne (|x| * 2 ^ 1074 / 2 ^ E) := by
    apply rne_ge
    rw [Int.cast_zero]
    exact div_nonneg hX (le_of_lt hEp)
  have h53 : rne (|x| * 2 ^ 1074 / 2 ^ E) ≤ ((2 ^ 53 : ℕ) : ℤ) := by
    apply rne_le
    rw [div_le_iff₀ hEp]
    push_cast
    exact le_of_lt g2
  generalize rne (|x| * 2 ^ 1074 / 2 ^ E) = mz at h h0 h53
  obtain ⟨m, rfl⟩ := Int.eq_ofNat_of_zero_le h0
  have hm : m ≤ 2 ^ 53 := by exact_mod_cast h53
  have hP : (0 : ℚ) < 2 ^ 1074 := pow_pos (by norm_num) _
  have hr0 : (0 : ℚ) ≤ ((m : ℤ) : ℚ) * 2 ^ E / 2 ^ 1074 := by
    apply div_nonneg _ (le_of_lt hP)
    apply mul_nonneg _ (le_of_lt hEp)
    exact_mod_cast h0
  split_ifs at h with c1 c2
  · simp only [Option.some.injEq] at h
    apply roundDouble_fix p m E hm
    · rw [← h, abs_neg, abs_of_nonneg hr0, div_mul_cancel₀ _ (ne_of_gt hP)]
      push_cast
      ring
    · rw [← h, abs_neg, abs_of_nonneg hr0]
      exact c1
  · simp only [Option.some.injEq] at h
    apply roundDouble_fix p m E hm
    · rw [← h, abs_of_nonneg hr0, div_mul_cancel₀ _ (ne_of_gt hP)]
      push_cast
      ring
    · rw [← h, abs_of_nonneg hr0]
      exact c1

theorem roundDouble_dyadic (m k : ℕ) (hm : m ≤ 2 ^ 53) (hk : k ≤ 1074) :
    roundDouble ((m : ℚ) / 2 ^ k) = some ((m : ℚ) / 2 ^ k) := by
  have hK : (0 : ℚ) < 2 ^ k := pow_pos (by norm_num) _
  have h0 : (0 : ℚ) ≤ (m : ℚ) / 2 ^ k := div_nonneg (by exact_mod_cast Nat.zero_le m) (le_of_lt hK)
  apply roundDouble_fix _ m (1074 - k) hm
  · rw [abs_of_nonneg h0]
    have : (2 : ℚ) ^ 1074 = 2 ^ k * 2 ^ (1074 - k) := by
      rw [← pow_add]
      congr 1
      omega
    rw [this]
    push_cast
    field_simp
    ring
  · rw [abs_of_nonneg h0]
    have h1 : (m : ℚ) / 2 ^ k ≤ m := div_le_self (by exact_mod_cast Nat.zero_le m) (one_le_pow₀ (by norm_num))
    have h2 : (m : ℚ) ≤ 2 ^ 53 := by exact_mod_cast hm
    have h3 : (2 : ℚ) ^ 53 < 2 ^ 1024 := pow_lt_pow_right₀ (by norm_num) (by norm_num)
    linarith

/-- Rounding in the binade `[2 ^ (-k), 2 ^ (1 - k))`, a normal one: the nearest multiple of
`2 ^ (-(k + 52))`, ties to even -/
theorem roundDouble_normal (x : ℚ) (k : ℕ) (hk : k ≤ 1022) (h1 : 2 ^ 52 ≤ x * 2 ^ (k + 52))
    (h2 : x * 2 ^ (k + 52) < 2 ^ 53) :
    roundDouble x = some ((rne (x * 2 ^ (k + 52)) : ℚ) / 2 ^ (k + 52)) := by
  have hK : (0 : ℚ) < 2 ^ (k + 52) := pow_pos (by norm_num) _
  have hx : 0 < x := by
    by_contra hc
    have : x * 2 ^ (k + 52) ≤ 0 := mul_nonpos_of_nonpos_of_nonneg (not_lt.mp hc) (le_of_lt hK)
    have : (0 : ℚ) < 2 ^ 52 := pow_pos (by norm_num) _
    linarith
  rw [roundDouble_unfold x 1074 rfl, abs_of_pos hx]
  have hs : (2 : ℚ) ^ 1074 = 2 ^ (k + 52) * 2 ^ (1022 - k) := by
    rw [← pow_add]
    congr 1
    omega
  rw [hs]
  generalize 1022 - k = s
  have hS : (0 : ℚ) < 2 ^ s := pow_pos (by norm_num) _
  have hlog : Nat.log 2 ⌊x * (2 ^ (k + 52) * 2 ^ s)⌋₊ = 52 + s := by
    have e1 : (2 : ℚ) ^ (52 + s) = 2 ^ 52 * 2 ^ s := pow_add _ _ _
    have e2 : (2 : ℚ) ^ (52 + s + 1) = 2 ^ 53 * 2 ^ s := by
      rw [← pow_add]
      congr 1
      omega
    have hnn : 0 ≤ x * (2 ^ (k + 52) * 2 ^ s) :=
      mul_nonneg (le_of_lt hx) (mul_nonneg (le_of_lt hK) (le_of_lt hS))
    apply Nat.log_eq_of_pow_le_of_lt_pow
    · apply Nat.le_floor
      rw [Nat.cast_pow, Nat.cast_ofNat, e1, ← mul_assoc]
      exact mul_le_mul_of_nonneg_right h1 (le_of_lt hS)
    · rw [Nat.floor_lt hnn, Nat.cast_pow, Nat.cast_ofNat, e2, ← mul_assoc]
      exact mul_lt_mul_of_pos_right h2 hS
  rw [hlog, show 52 + s - 52 = s by omega]
  have hq : x * (2 ^ (k + 52) * 2 ^ s) / 2 ^ s = x * 2 ^ (k + 52) := by
    field_simp
    ring
  rw [hq]
  have hr : (rne (x * 2 ^ (k + 52)) : ℚ) * 2 ^ s / (2 ^ (k + 52) * 2 ^ s)
      = (rne (x * 2 ^ (k + 52)) : ℚ) / 2 ^ (k + 52) := by
    field_simp
    ring
  rw [hr]
  have hle : rne (x * 2 ^ (k + 52)) ≤ ((2 ^ 53 : ℕ) : ℤ) := by
    apply rne_le
    push_cast
    exact le_of_lt h2
  have hleq : (rne (x * 2 ^ (k + 52)) : ℚ) ≤ 2 ^ 53 := by exact_mod_cast hle
  have hlt : (rne (x * 2 ^ (k + 52)) : ℚ) / 2 ^ (k + 52) < 2 ^ 1024 := by
    rw [div_lt_iff₀ hK]
    have a1 : (2 : ℚ) ^ 53 < 2 ^ 1024 := pow_lt_pow_right₀ (by norm_num) (by norm_num)
    have a2 : (1 : ℚ) ≤ 2 ^ (k + 52) := one_le_pow₀ (by norm_num)
    have a3 : (0 : ℚ) < 2 ^ 1024 := pow_pos (by norm_num) _
    nlinarith
  rw [if_pos hlt, if_neg (not_lt.mpr (le_of_lt hx))]

/-! ## The playback scenario -/

theorem scanTrack_scenario (tick : Nat) (b : Bool) :
    scanTrack tick 0 [(32768, scenarioNoteOn b), (65536, scenarioNoteOff)] [] =
      if 32768 ≤ tick then
        ([(32768, scenarioNoteOn true), (65536, scenarioNoteOff)],
          if b then [] else [(0, scenarioNoteOn true)])
      else ([(32768, scenarioNoteOn b), (65536, scenarioNoteOff)], []) := by
  by_cases h : 32768 ≤ tick
  · by_cases h2 : 65536 ≤ tick <;> cases b <;>
      simp [scanTrack, fires, scenarioNoteOn, scenarioNoteOff, mapInsert, h, h2]
  · simp [scanTrack, h]

theorem tick_ge_iff (x : ℚ) (hx : 0 ≤ x) (n : Nat) : n ≤ ⌊x⌋.toNat ↔ (n : ℚ) ≤ x := by
  have h0 : 0 ≤ ⌊x⌋ := Int.floor_nonneg.mpr hx
  rw [Int.le_toNat h0, Int.le_floor]
  norm_cast

theorem scenario_Update (pt d p : ℚ) (b : Bool) (cur : List (Nat × MIDIEvent))
    (hr : roundDouble (pt + d) = some p) (h0 : 0 ≤ p) (h1 : p ≤ 1) :
    (scenarioSong pt b cur).Update d =
      some (scenarioSong p (b || decide (1 ≤ 2 * p))
        (if b = false ∧ 1 ≤ 2 * p then [(0, scenarioNoteOn true)] else [])) := by
  have hx : 0 ≤ p * 65536 := by positivity
  have hc : -1 < p * 65536 ∧ p * 65536 < 2 ^ 32 := by
    constructor
    · linarith
    · norm_num
      linarith
  have ht : 32768 ≤ ⌊p * 65536⌋.toNat ↔ 1 ≤ 2 * p := by
    rw [tick_ge_iff _ hx]
    constructor <;> intro h <;> push_cast at * <;> linarith
  simp only [MIDISong.Update, scenarioSong, hr, toUInt32, hc, and_self, if_true,
    Option.bind_eq_bind, Option.some_bind, scanTracks, scenarioTrack, scanTrack_scenario, ht]
  by_cases ha : 1 ≤ 2 * p <;> cases b <;> simp [ha]

theorem scenario_IsNoteOn (pt : ℚ) (b : Bool) (c : Prop) [Decidable c] :
    (scenarioSong pt b (if c then [(0, scenarioNoteOn true)] else [])).IsNoteOn 0 =
      if c then some (60, 100) else none := by
  by_cases h : c <;> simp [MIDISong.IsNoteOn, scenarioSong, scenarioNoteOn, h]

/-- The sum 0 + (1/2 - 2^-54) is a `double` -/
theorem roundDouble_below_half :
    roundDouble (0 + (1 / 2 - 1 / 2 ^ 54)) = some (1 / 2 - 1 / 2 ^ 54) := by
  have h := roundDouble_dyadic 9007199254740991 54 (by norm_num) (by norm_num)
  have e : ((9007199254740991 : ℕ) : ℚ) / 2 ^ 54 = 0 + (1 / 2 - 1 / 2 ^ 54) := by norm_num
  have e2 : ((9007199254740991 : ℕ) : ℚ) / 2 ^ 54 = 1 / 2 - 1 / 2 ^ 54 := by norm_num
  rw [e] at h
  rw [h, ← e, e2]

/-- The sum (1/2 - 2^-54) + 2^-55 lies halfway between the doubles 1/2 - 2^-54 and 1/2 and
rounds to 1/2, whose significand is even -/
theorem roundDouble_tie_half :
    roundDouble (1 / 2 - 1 / 2 ^ 54 + 1 / 2 ^ 55) = some (1 / 2) := by
  have e : (1 / 2 - 1 / 2 ^ 54 + 1 / 2 ^ 55 : ℚ) * 2 ^ (2 + 52)
      = ((18014398509481983 : ℕ) : ℚ) / ((2 : ℕ) : ℚ) := by norm_num
  rw [roundDouble_normal _ 2 (by norm_num) (by norm_num) (by norm_num), e,
    rne_div _ _ (by norm_num)]
  norm_num

theorem fires_processed (e : MIDIEvent) : fires { e with m_processed := true } = false := by
  simp [fires]

/-- Scanning a map again with the same tick changes nothing and reports nothing -/
theorem scanTrack_again (tick i : Nat) (m : List (Nat × MIDIEvent)) :
    ∀ (cur cur2 : List (Nat × MIDIEvent)),
      scanTrack tick i (scanTrack tick i m cur).1 cur2 = ((scanTrack tick i m cur).1, cur2) := by
  induction m with
  | nil =>
    intro cur cur2
    simp [scanTrack]
  | cons p rest ih =>
    intro cur cur2
    obtain ⟨k, e⟩ := p
    by_cases hk : k ≤ tick
    · cases hf : fires e
      · simp [scanTrack, hk, hf, ih]
      · simp [scanTrack, hk, hf, fires_processed, ih]
    · simp [scanTrack, hk]

theorem scanTracks_again (tick : Nat) (ts : List MIDITrack) :
    ∀ (i : Nat) (cur cur2 : List (Nat × MIDIEvent)),
      scanTracks tick i (scanTracks tick i ts cur).1 cur2 = ((scanTracks tick i ts cur).1, cur2) := by
  induction ts with
  | nil =>
    intro i cur cur2
    simp [scanTracks]
  | cons t ts ih =>
    intro i cur cur2
    simp only [scanTracks, scanTrack_again, ih]

/-- What `Update` does while playing: the rounded sum is the new clock, its product by
65536 converted to `uint32_t` the tick, and the tracks are scanned with that tick -/
theorem Update_playing (s s1 : MIDISong) (d : ℚ) (hp : s.m_isPlaying = some true)
    (h : s.Update d = some s1) :
    ∃ (p : ℚ) (tick : Nat), roundDouble (s.m_playTime + d) = some p
      ∧ toUInt32 (p * 65536) = some tick
      ∧ s1 = { s with m_currentEvents := (scanTracks tick 0 s.m_tracks []).2, m_playTime := p,
                      m_tracks := (scanTracks tick 0 s.m_tracks []).1 } := by
  simp only [MIDISong.Update, hp, Option.bind_eq_bind, Option.bind_eq_some] at h
  obtain ⟨p, hr, tick, htick, h⟩ := h
  simp only [Option.some.injEq] at h
  subst h
  refine ⟨p, tick, hr, htick, ?_⟩
  rw [hp]

theorem Update_zero_again (s s1 : MIDISong) (d : ℚ) (hp : s.m_isPlaying = some true)
    (h : s.Update d = some s1) :
    s1.Update 0 = some { s1 with m_currentEvents := [] } := by
  obtain ⟨p, tick, hr, htick, rfl⟩ := Update_playing s s1 d hp h
  simp only [MIDISong.Update, hp, add_zero, roundDouble_idem _ _ hr, htick,
    Option.bind_eq_bind, Option.some_bind, scanTracks_again]

theorem Update_zero_fixed (s s1 : MIDISong) (d : ℚ) (hp : s.m_isPlaying = some true)
    (h : s.Update d = some s1) :
    ({ s1 with m_currentEvents := [] } : MIDISong).Update 0
      = some { s1 with m_currentEvents := [] } := by
  obtain ⟨p, tick, hr, htick, rfl⟩ := Update_playing s s1 d hp h
  simp only [MIDISong.Update, hp, add_zero, roundDouble_idem _ _ hr, htick,
    Option.bind_eq_bind, Option.some_bind, scanTracks_again]

/-- C7: for every song that is playing and every delta `d ≥ 0` for which `Update(d)` is
defined, each further `Update(0)`, however many are made, leaves the tracks with all
their fired flags and the clock as `Update(d)` left them and leaves the current-events map
empty, so that `IsNoteOn` returns false for every track index. -/
theorem Update_zero_idempotent (s s1 : MIDISong) (d : ℚ) (hp : s.m_isPlaying = some true)
    (_hd : 0 ≤ d) (h : s.Update d = some s1) (n : Nat) :
    repeatUpdate 0 (n + 1) s1 = some { s1 with m_currentEvents := [] }
      ∧ ∀ i, ({ s1 with m_currentEvents := [] } : MIDISong).IsNoteOn i = none := by
  constructor
  · induction n with
    | zero =>
      simp [repeatUpdate, Update_zero_again s s1 d hp h]
    | succ n ih =>
      rw [repeatUpdate, Update_zero_again s s1 d hp h, Option.some_bind]
      clear ih
      induction n with
      | zero => simp [repeatUpdate, Update_zero_fixed s s1 d hp h]
      | succ n ih => rw [repeatUpdate, Update_zero_fixed s s1 d hp h, Option.some_bind, ih]
  · intro i
    simp only [MIDISong.IsNoteOn, List.find?_nil]
    split_ifs <;> rfl

theorem scenario_Update_example :
    (scenarioSong 0 false []).Update (3 / 4)
      = some (scenarioSong (3 / 4) true [(0, scenarioNoteOn true)]) := by
  have hr : roundDouble (0 + 3 / 4) = some (3 / 4) := by
    have h := roundDouble_dyadic 3 2 (by norm_num) (by norm_num)
    norm_num at h ⊢
    exact h
  have h := scenario_Update 0 (3 / 4) (3 / 4) false [] hr (by norm_num) (by norm_num)
  norm_num at h
  exact h

theorem Update_zero_idempotent_witness :
    repeatUpdate 0 (2 + 1) (scenarioSong (3 / 4) true [(0, scenarioNoteOn true)])
        = some { scenarioSong (3 / 4) true [(0, scenarioNoteOn true)] with m_currentEvents := [] }
      ∧ ∀ i, ({ scenarioSong (3 / 4) true [(0, scenarioNoteOn true)] with
                m_currentEvents := [] } : MIDISong).IsNoteOn i = none :=
  Update_zero_idempotent (scenarioSong 0 false []) _ (3 / 4) rfl (by norm_num)
    scenario_Update_example 2

theorem mem_mapInsert {α : Type} (l : List (Nat × α)) (key : Nat) (value : α) (p : Nat × α)
    (h : p ∈ mapInsert l key value) : p ∈ l ∨ p = (key, value) := by
  induction l with
  | nil =>
    simp [mapInsert] at h
    exact Or.inr h
  | cons q rest ih =>
    obtain ⟨k, v⟩ := q
    simp only [mapInsert] at h
    split_ifs at h with h1 h2
    · rcases List.mem_cons.mp h with h | h
      · exact Or.inr h
      · exact Or.inl h
    · rcases List.mem_cons.mp h with h | h
      · exact Or.inr h
      · exact Or.inl (List.mem_cons_of_mem _ h)
    · rcases List.mem_cons.mp h with h | h
      · exact Or.inl (h ▸ List.mem_cons_self _ _)
      · rcases ih h with h | h
        · exact Or.inl (List.mem_cons_of_mem _ h)
        · exact Or.inr h

/-- Entry by entry, a scan keeps the key and either keeps the event or sets the fired flag
of an event that was unfired -/
theorem scanTrack_getElem (tick i : Nat) (m : List (Nat × MIDIEvent)) :
    ∀ (cur : List (Nat × MIDIEvent)) (j : Nat) (p : Nat × MIDIEvent), m[j]? = some p →
      (scanTrack tick i m cur).1[j]? = some p ∨
        (p.2.m_processed = false ∧
          (scanTrack tick i m cur).1[j]? = some (p.1, { p.2 with m_processed := true })) := by
  induction m with
  | nil =>
    intro cur j p h
    simp at h
  | cons q rest ih =>
    intro cur j p h
    obtain ⟨k, e⟩ := q
    by_cases hk : k ≤ tick
    · cases hf : fires e
      · cases j with
        | zero =>
          left
          simpa [scanTrack, hk, hf] using h
        | succ j =>
          simp only [List.getElem?_cons_succ] at h
          simpa [scanTrack, hk, hf] using ih cur j p h
      · cases j with
        | zero =>
          right
          simp only [List.getElem?_cons_zero, Option.some.injEq] at h
          subst h
          have hp : e.m_processed = false := by
            simp only [fires, Bool.and_eq_true, Bool.not_eq_true'] at hf
            exact hf.1.1
          simp [scanTrack, hk, hf, hp]
        | succ j =>
          simp only [List.getElem?_cons_succ] at h
          simpa [scanTrack, hk, hf] using ih _ j p h
    · left
      simpa [scanTrack, hk] using h

/-- An entry of the current-events map after the scan of track `i` was there before, or is
a note-on of that track, unfired before the scan and fired by it -/
theorem scanTrack_cur (tick i : Nat) (m : List (Nat × MIDIEvent)) :
    ∀ (cur : List (Nat × MIDIEvent)) (p : Nat × MIDIEvent), p ∈ (scanTrack tick i m cur).2 →
      p ∈ cur ∨ (p.1 = i ∧ ∃ (j k : Nat) (e0 : MIDIEvent), m[j]? = some (k, e0) ∧ e0.m_processed = false
        ∧ e0.m_status = 0x9 ∧ p.2 = { e0 with m_processed := true }
        ∧ (scanTrack tick i m cur).1[j]? = some (k, p.2)) := by
  induction m with
  | nil =>
    intro cur p h
    left
    simpa [scanTrack] using h
  | cons q rest ih =>
    intro cur p h
    obtain ⟨k, e⟩ := q
    by_cases hk : k ≤ tick
    · cases hf : fires e
      · simp only [scanTrack, hk, if_true, hf, Bool.false_eq_true, if_false] at h
        rcases ih cur p h with h1 | ⟨h1, j, k1, e0, h2, h3, h4, h5, h6⟩
        · exact Or.inl h1
        · right
          refine ⟨h1, j + 1, k1, e0, by rw [List.getElem?_cons_succ]; exact h2, h3, h4, h5, ?_⟩
          simpa [scanTrack, hk, hf] using h6
      · simp only [scanTrack, hk, if_true, hf] at h
        rcases ih _ p h with h1 | ⟨h1, j, k1, e0, h2, h3, h4, h5, h6⟩
        · by_cases h9 : e.m_status = 0x9
          · rw [if_pos h9] at h1
            rcases mem_mapInsert _ _ _ _ h1 with h1 | h1
            · exact Or.inl h1
            · right
              have hp : e.m_processed = false := by
                simp only [fires, Bool.and_eq_true, Bool.not_eq_true'] at hf
                exact hf.1.1
              refine ⟨by rw [h1], 0, k, e, by simp, hp, h9, by rw [h1], ?_⟩
              simp [scanTrack, hk, hf, h1]
          · rw [if_neg h9] at h1
            exact Or.inl h1
        · right
          refine ⟨h1, j + 1, k1, e0, by rw [List.getElem?_cons_succ]; exact h2, h3, h4, h5, ?_⟩
          simpa [scanTrack, hk, hf] using h6
    · left
      simpa [scanTrack, hk] using h

theorem scanTracks_getElem (tick : Nat) (ts : List MIDITrack) :
    ∀ (i : Nat) (cur : List (Nat × MIDIEvent)) (n : Nat) (t : MIDITrack), ts[n]? = some t →
      ∃ cur1, (scanTracks tick i ts cur).1[n]?
        = some { t with m_map := (scanTrack tick (i + n) t.m_map cur1).1 } := by
  induction ts with
  | nil =>
    intro i cur n t h
    simp at h
  | cons t0 ts ih =>
    intro i cur n t h
    cases n with
    | zero =>
      simp only [List.getElem?_cons_zero, Option.some.injEq] at h
      subst h
      exact ⟨cur, by simp [scanTracks]⟩
    | succ n =>
      simp only [List.getElem?_cons_succ] at h
      obtain ⟨cur1, h1⟩ := ih (i + 1) (scanTrack tick i t0.m_map cur).2 n t h
      refine ⟨cur1, ?_⟩
      simp only [scanTracks, List.getElem?_cons_succ, h1]
      congr 4
      omega

theorem scanTracks_cur (tick : Nat) (ts : List MIDITrack) :
    ∀ (i : Nat) (cur : List (Nat × MIDIEvent)) (p : Nat × MIDIEvent),
      p ∈ (scanTracks tick i ts cur).2 →
      p ∈ cur ∨ ∃ (n : Nat) (t : MIDITrack) (cur1 : List (Nat × MIDIEvent)),
        ts[n]? = some t ∧ p.1 = i + n
        ∧ (scanTracks tick i ts cur).1[n]?
            = some { t with m_map := (scanTrack tick (i + n) t.m_map cur1).1 }
        ∧ ∃ (j k : Nat) (e0 : MIDIEvent), t.m_map[j]? = some (k, e0) ∧ e0.m_processed = false
          ∧ e0.m_status = 0x9 ∧ p.2 = { e0 with m_processed := true }
          ∧ (scanTrack tick (i + n) t.m_map cur1).1[j]? = some (k, p.2) := by
  induction ts with
  | nil =>
    intro i cur p h
    left
    simpa [scanTracks] using h
  | cons t0 ts ih =>
    intro i cur p h
    simp only [scanTracks] at h
    rcases ih (i + 1) _ p h with h1 | ⟨n, t, cur1, h1, h2, h3, h4⟩
    · rcases scanTrack_cur tick i t0.m_map cur p h1 with h5 | ⟨h5, h6⟩
      · exact Or.inl h5
      · right
        exact ⟨0, t0, cur, by simp, by simpa using h5, by simp [scanTracks], h6⟩
    · right
      have e : i + 1 + n = i + (n + 1) := by omega
      rw [e] at h3 h4
      refine ⟨n + 1, t, cur1, by simpa using h1, by omega, ?_, h4⟩
      simpa [scanTracks] using h3

theorem Update_eventAt (s s1 : MIDISong) (d : ℚ) (i j : Nat) (p : Nat × MIDIEvent)
    (h : s.Update d = some s1) (hp : eventAt s i j = some p) :
    eventAt s1 i j = some p ∨
      (p.2.m_processed = false ∧ eventAt s1 i j = some (p.1, { p.2 with m_processed := true })) := by
  rcases hpl : s.m_isPlaying with _ | b
  · simp [MIDISong.Update, hpl] at h
  · cases b
    · simp only [MIDISong.Update, hpl, Option.some.injEq] at h
      subst h
      exact Or.inl hp
    · obtain ⟨_, tick, _, _, rfl⟩ := Update_playing s s1 d hpl h
      simp only [eventAt, Option.bind_eq_some] at hp
      obtain ⟨t, ht, hj⟩ := hp
      obtain ⟨cur1, h1⟩ := scanTracks_getElem tick s.m_tracks 0 [] i t ht
      simp only [eventAt, h1, Option.some_bind]
      exact scanTrack_getElem tick (0 + i) t.m_map cur1 j p hj

theorem Update_currentEvents (s s1 : MIDISong) (d : ℚ) (i : Nat) (e : MIDIEvent)
    (hpl : s.m_isPlaying = some true) (h : s.Update d = some s1)
    (he : (i, e) ∈ s1.m_currentEvents) :
    ∃ (j k : Nat) (e0 : MIDIEvent), eventAt s i j = some (k, e0) ∧ e0.m_processed = false
      ∧ e0.m_status = 0x9 ∧ e = { e0 with m_processed := true }
      ∧ eventAt s1 i j = some (k, e) := by
  obtain ⟨_, tick, _, _, rfl⟩ := Update_playing s s1 d hpl h
  rcases scanTracks_cur tick s.m_tracks 0 [] (i, e) he with h1 | ⟨n, t, cur1, h1, h2, h3, h4⟩
  · simp at h1
  · obtain ⟨j, k, e0, h5, h6, h7, h8, h9⟩ := h4
    have hn : n = i := by
      simp only [zero_add] at h2
      exact h2.symm
    subst hn
    refine ⟨j, k, e0, ?_, h6, h7, h8, ?_⟩
    · simp [eventAt, h1, h5]
    · simp only [eventAt, h3, Option.some_bind]
      exact h9

theorem flagAt_tracks (s s1 : MIDISong) (h : s1.m_tracks = s.m_tracks) (i j : Nat) :
    flagAt s1 i j = flagAt s i j := by
  simp [flagAt, eventAt, h]

theorem apply_flag_mono (op : Op) (s s1 : MIDISong) (i j : Nat) (h : op.apply s = some s1)
    (hf : flagAt s i j = some true) : flagAt s1 i j = some true := by
  cases op with
  | play =>
    simp only [Op.apply, Option.some.injEq] at h
    subst h
    rw [flagAt_tracks s s.Play rfl]
    exact hf
  | stop =>
    simp only [Op.apply, Option.some.injEq] at h
    subst h
    rw [flagAt_tracks s s.Stop rfl]
    exact hf
  | update d =>
    simp only [Op.apply] at h
    simp only [flagAt, Option.map_eq_some'] at hf
    obtain ⟨p, hp, hpt⟩ := hf
    rcases Update_eventAt s s1 d i j p h hp with h1 | ⟨h1, _⟩
    · simp [flagAt, h1, hpt]
    · rw [hpt] at h1
      cases h1

theorem runOps_mono (ops : List Op) :
    ∀ (s : MIDISong) (states : List MIDISong) (i j : Nat), runOps s ops = some states →
      ∀ sb ∈ states, flagAt s i j = some true → flagAt sb i j = some true := by
  induction ops with
  | nil =>
    intro s states i j h sb hsb hf
    simp only [runOps, Option.some.injEq] at h
    subst h
    simp only [List.mem_singleton] at hsb
    subst hsb
    exact hf
  | cons op ops ih =>
    intro s states i j h sb hsb hf
    simp only [runOps, Option.bind_eq_bind, Option.bind_eq_some] at h
    obtain ⟨s1, h1, rest, hrest, h⟩ := h
    simp only [Option.some.injEq] at h
    subst h
    rcases List.mem_cons.mp hsb with h2 | h2
    · subst h2
      exact hf
    · exact ih s1 rest i j hrest sb h2 (apply_flag_mono op s s1 i j h1 hf)

theorem runOps_drop (ops : List Op) :
    ∀ (s : MIDISong) (states : List MIDISong) (a : Nat) (sa : MIDISong),
      runOps s ops = some states → states[a]? = some sa →
      runOps sa (ops.drop a) = some (states.drop a) := by
  induction ops with
  | nil =>
    intro s states a sa h ha
    simp only [runOps, Option.some.injEq] at h
    subst h
    cases a with
    | zero =>
      simp only [List.getElem?_cons_zero, Option.some.injEq] at ha
      subst ha
      simp [runOps]
    | succ a => simp at ha
  | cons op ops ih =>
    intro s states a sa h ha
    have h0 := h
    simp only [runOps, Option.bind_eq_bind, Option.bind_eq_some] at h
    obtain ⟨s1, h1, rest, hrest, h⟩ := h
    simp only [Option.some.injEq] at h
    subst h
    cases a with
    | zero =>
      simp only [List.getElem?_cons_zero, Option.some.injEq] at ha
      subst ha
      simpa using h0
    | succ a =>
      simp only [List.getElem?_cons_succ] at ha
      simpa using ih s1 rest a sa hrest ha

theorem runOps_step (ops : List Op) (s : MIDISong) (states : List MIDISong) (a : Nat)
    (sa sa1 : MIDISong) (h : runOps s ops = some states) (ha : states[a]? = some sa)
    (ha1 : states[a + 1]? = some sa1) :
    ∃ op, ops[a]? = some op ∧ op.apply sa = some sa1 := by
  have hd := runOps_drop ops s states a sa h ha
  cases hops : ops.drop a with
  | nil =>
    rw [hops] at hd
    simp only [runOps, Option.some.injEq] at hd
    have : (states.drop a)[1]? = some sa1 := by
      rw [List.getElem?_drop]
      exact ha1
    rw [← hd] at this
    simp at this
  | cons op rest =>
    rw [hops] at hd
    simp only [runOps, Option.bind_eq_bind, Option.bind_eq_some] at hd
    obtain ⟨s1, h1, rest1, hrest, hd⟩ := hd
    simp only [Option.some.injEq] at hd
    have h2 : (states.drop a)[1]? = some sa1 := by
      rw [List.getElem?_drop]
      exact ha1
    rw [← hd] at h2
    simp only [List.getElem?_cons_succ] at h2
    have h3 : rest1[0]? = some s1 := by
      cases rest with
      | nil =>
        simp only [runOps, Option.some.injEq] at hrest
        simp [← hrest]
      | cons op2 rest2 =>
        simp only [runOps, Option.bind_eq_bind, Option.bind_eq_some] at hrest
        obtain ⟨_, _, _, _, hrest⟩ := hrest
        simp only [Option.some.injEq] at hrest
        simp [← hrest]
    rw [h3] at h2
    simp only [Option.some.injEq] at h2
    subst h2
    refine ⟨op, ?_, h1⟩
    have : (ops.drop a)[0]? = some op := by simp [hops]
    rw [List.getElem?_drop] at this
    simpa using this

/-- C8: along every series of `Play`, `Stop` and `Update` calls on a song, for the event
number `j` of track number `i`: once its fired flag is true it is true in every later state;
it is fired (flag false before the call, true after) by at most one call; and an entry for
track `i` in the current-events map after an `Update` made while playing is a note-on of
that track which this very call has fired. -/
theorem event_fires_once (s : MIDISong) (ops : List Op) (states : List MIDISong)
    (h : runOps s ops = some states) (i j : Nat) :
    (∀ (a b : Nat) (sa sb : MIDISong), a ≤ b → states[a]? = some sa → states[b]? = some sb →
        flagAt sa i j = some true → flagAt sb i j = some true)
      ∧ (∀ (a b : Nat) (sa sa1 sb sb1 : MIDISong), a < b →
          states[a]? = some sa → states[a + 1]? = some sa1 →
          states[b]? = some sb → states[b + 1]? = some sb1 →
          firedBy sa sa1 i j → ¬ firedBy sb sb1 i j)
      ∧ (∀ (a : Nat) (sa sa1 : MIDISong) (d : ℚ) (e : MIDIEvent),
          ops[a]? = some (Op.update d) → states[a]? = some sa → states[a + 1]? = some sa1 →
          sa.m_isPlaying = some true → (i, e) ∈ sa1.m_currentEvents →
          ∃ (j1 k : Nat) (e0 : MIDIEvent), eventAt sa i j1 = some (k, e0) ∧ e0.m_status = 0x9
            ∧ e = { e0 with m_processed := true } ∧ firedBy sa sa1 i j1) := by
  have mono : ∀ (a b : Nat) (sa sb : MIDISong), a ≤ b → states[a]? = some sa →
      states[b]? = some sb → flagAt sa i j = some true → flagAt sb i j = some true := by
    intro a b sa sb hab ha hb hf
    have hd := runOps_drop ops s states a sa h ha
    refine runOps_mono _ sa _ i j hd sb ?_ hf
    have : (states.drop a)[b - a]? = some sb := by
      rw [List.getElem?_drop]
      rw [show a + (b - a) = b by omega]
      exact hb
    exact List.getElem?_mem this
  refine ⟨mono, ?_, ?_⟩
  · intro a b sa sa1 sb sb1 hab ha ha1 hb _ hfa hfb
    have := mono (a + 1) b sa1 sb (by omega) ha1 hb hfa.2
    rw [hfb.1] at this
    cases this
  · intro a sa sa1 d e hop ha ha1 hpl he
    obtain ⟨op, hop2, happ⟩ := runOps_step ops s states a sa sa1 h ha ha1
    rw [hop] at hop2
    simp only [Option.some.injEq] at hop2
    subst hop2
    simp only [Op.apply] at happ
    obtain ⟨j1, k, e0, h1, h2, h3, h4, h5⟩ := Update_currentEvents sa sa1 d i e hpl happ he
    refine ⟨j1, k, e0, h1, h3, h4, ?_, ?_⟩
    · simp [flagAt, h1, h2]
    · simp [flagAt, h5, h4]

theorem scenario_Update_fired (pt d p : ℚ) (cur : List (Nat × MIDIEvent))
    (hr : roundDouble (pt + d) = some p) (h0 : 0 ≤ p) (h1 : p ≤ 1) :
    (scenarioSong pt true cur).Update d = some (scenarioSong p true []) := by
  have h := scenario_Update pt d p true cur hr h0 h1
  simpa using h

theorem roundDouble_three_quarters : roundDouble (3 / 4) = some (3 / 4) := by
  have h := roundDouble_dyadic 3 2 (by norm_num) (by norm_num)
  norm_num at h ⊢
  exact h

theorem roundDouble_one : roundDouble 1 = some 1 := by
  have h := roundDouble_dyadic 1 0 (by norm_num) (by norm_num)
  norm_num at h ⊢
  exact h

theorem scenario_Update_zero :
    (scenarioSong (3 / 4) true [(0, scenarioNoteOn true)]).Update 0
      = some (scenarioSong (3 / 4) true []) :=
  scenario_Update_fired (3 / 4) 0 (3 / 4) [(0, scenarioNoteOn true)]
    (by rw [add_zero]; exact roundDouble_three_quarters) (by norm_num) (by norm_num)

theorem scenario_Update_one :
    (scenarioSong 0 true []).Update 1 = some (scenarioSong 1 true []) :=
  scenario_Update_fired 0 1 1 [] (by rw [zero_add]; exact roundDouble_one) (by norm_num)
    (by norm_num)

theorem runOps_cons (op : Op) (ops : List Op) (s s1 : MIDISong) (rest : List MIDISong)
    (h1 : op.apply s = some s1) (h2 : runOps s1 ops = some rest) :
    runOps s (op :: ops) = some (s :: rest) := by
  simp [runOps, h1, h2]

theorem runOps_scenario : runOps scenarioLoaded scenarioOps = some scenarioStates := by
  have p1 : Op.play.apply scenarioLoaded = some (scenarioSong 0 false []) := by
    simp [Op.apply, MIDISong.Play, scenarioLoaded, scenarioSong]
  have p2 : Op.stop.apply (scenarioSong (3 / 4) true [])
      = some ⟨[], [scenarioTrack true], 500000, 480, 3 / 4, some false⟩ := by
    simp [Op.apply, MIDISong.Stop, scenarioSong]
  have p3 : Op.play.apply ⟨[], [scenarioTrack true], 500000, 480, 3 / 4, some false⟩
      = some (scenarioSong 0 true []) := by
    simp [Op.apply, MIDISong.Play, scenarioSong]
  exact runOps_cons _ _ _ _ _ p1
    (runOps_cons _ _ _ _ _ scenario_Update_example
      (runOps_cons _ _ _ _ _ scenario_Update_zero
        (runOps_cons _ _ _ _ _ p2
          (runOps_cons _ _ _ _ _ p3
            (runOps_cons _ _ _ _ _ scenario_Update_one rfl)))))

theorem event_fires_once_witness :
    (∀ (a b : Nat) (sa sb : MIDISong), a ≤ b → scenarioStates[a]? = some sa →
        scenarioStates[b]? = some sb →
        flagAt sa 0 0 = some true → flagAt sb 0 0 = some true)
      ∧ (∀ (a b : Nat) (sa sa1 sb sb1 : MIDISong), a < b →
          scenarioStates[a]? = some sa → scenarioStates[a + 1]? = some sa1 →
          scenarioStates[b]? = some sb → scenarioStates[b + 1]? = some sb1 →
          firedBy sa sa1 0 0 → ¬ firedBy sb sb1 0 0)
      ∧ (∀ (a : Nat) (sa sa1 : MIDISong) (d : ℚ) (e : MIDIEvent),
          scenarioOps[a]? = some (Op.update d) → scenarioStates[a]? = some sa →
          scenarioStates[a + 1]? = some sa1 →
          sa.m_isPlaying = some true → (0, e) ∈ sa1.m_currentEvents →
          ∃ (j1 k : Nat) (e0 : MIDIEvent), eventAt sa 0 j1 = some (k, e0) ∧ e0.m_status = 0x9
            ∧ e = { e0 with m_processed := true } ∧ firedBy sa sa1 0 j1) :=
  event_fires_once scenarioLoaded scenarioOps scenarioStates runOps_scenario 0 0

/-! ## `GetChannelIndex` -/

theorem compareSign_spec : compareSpec compareSign := by
  intro s1
  induction s1 with
  | nil =>
    intro s2
    cases s2 with
    | nil => simp [compareSign, stringLess]
    | cons b s2 => simp [compareSign, stringLess]
  | cons a s1 ih =>
    intro s2
    cases s2 with
    | nil => simp [compareSign, stringLess]
    | cons b s2 =>
      obtain ⟨i1, i2, i3, i4⟩ := ih s2
      simp only [compareSign, stringLess]
      by_cases h1 : a < b
      · simp only [if_pos h1]
        refine ⟨by norm_num, by norm_num, by simp, ?_⟩
        constructor
        · intro h
          norm_num at h
        · intro h
          simp only [List.cons.injEq] at h
          omega
      · simp only [if_neg h1]
        by_cases h2 : b < a
        · simp only [if_pos h2]
          refine ⟨by norm_num, by norm_num, by simp, ?_⟩
          constructor
          · intro h
            norm_num at h
          · intro h
            simp only [List.cons.injEq] at h
            omega
        · simp only [if_neg h2]
          have hab : a = b := by omega
          subst hab
          refine ⟨i1, i2, i3, ?_⟩
          rw [i4]
          simp

theorem namedTracks_load :
    LoadSong namedTracksFile = some (some namedTracksSong) := by
  decide

/-- C9: the file `namedTracksFile` loads into two tracks named "Drums" and "Bass". For the
tag "Piano", which is the name of neither, `GetChannelIndex` returns true with index 0,
whatever the library's `std::string::compare` returns within the standard: the test
`s1.compare(s2) != string::npos` holds as soon as the lowered tag is not below the lowered
name. For the tag "BASS", which is below "drums", the answer depends on the library: index 1
when `compare` returns exactly -1 for "bass" against "drums", index 0, the track "Drums",
for every other negative value. -/
theorem GetChannelIndex_other_name (compare : List Nat → List Nat → Int)
    (hc : compareSpec compare) :
    ∃ song, LoadSong namedTracksFile = some (some song)
      ∧ song.m_tracks.map MIDITrack.GetTrackName
          = [some [0x44, 0x72, 0x75, 0x6D, 0x73], some [0x42, 0x61, 0x73, 0x73]]
      ∧ ToLower pianoTag ≠ ToLower [0x44, 0x72, 0x75, 0x6D, 0x73]
      ∧ ToLower pianoTag ≠ ToLower [0x42, 0x61, 0x73, 0x73]
      ∧ song.GetChannelIndex compare pianoTag 99 = some (true, 0)
      ∧ song.GetChannelIndex compare bassTag 99
          = some (true, if compare (ToLower bassTag) (ToLower [0x44, 0x72, 0x75, 0x6D, 0x73]) = -1
              then 1 else 0) := by
  refine ⟨namedTracksSong, namedTracks_load, by decide, by decide, by decide, ?_, ?_⟩
  · obtain ⟨i1, i2, i3, _⟩ := hc (ToLower pianoTag) (ToLower [0x44, 0x72, 0x75, 0x6D, 0x73])
    have hnl : stringLess (ToLower pianoTag) (ToLower [0x44, 0x72, 0x75, 0x6D, 0x73]) = false := by
      decide
    have h0 : ¬ compare (ToLower pianoTag) (ToLower [0x44, 0x72, 0x75, 0x6D, 0x73]) < 0 := by
      rw [i3, hnl]
      simp
    have hne : compare (ToLower pianoTag) (ToLower [0x44, 0x72, 0x75, 0x6D, 0x73]) % 2 ^ 64
        ≠ npos := by
      simp only [npos]
      omega
    simp only [MIDISong.GetChannelIndex, namedTracksSong, channelIndexLoop,
      MIDITrack.GetTrackName, Option.bind_eq_bind, Option.some_bind]
    rw [if_pos hne]
  · obtain ⟨i1, i2, _, _⟩ := hc (ToLower bassTag) (ToLower [0x44, 0x72, 0x75, 0x6D, 0x73])
    obtain ⟨_, _, _, j4⟩ := hc (ToLower bassTag) (ToLower [0x42, 0x61, 0x73, 0x73])
    have heq : compare (ToLower bassTag) (ToLower [0x42, 0x61, 0x73, 0x73]) = 0 :=
      j4.mpr (by decide)
    have hne2 : compare (ToLower bassTag) (ToLower [0x42, 0x61, 0x73, 0x73]) % 2 ^ 64 ≠ npos := by
      rw [heq]
      simp [npos]
    simp only [MIDISong.GetChannelIndex, namedTracksSong, channelIndexLoop,
      MIDITrack.GetTrackName, Option.bind_eq_bind, Option.some_bind]
    by_cases h1 : compare (ToLower bassTag) (ToLower [0x44, 0x72, 0x75, 0x6D, 0x73]) = -1
    · have hn : ¬ compare (ToLower bassTag) (ToLower [0x44, 0x72, 0x75, 0x6D, 0x73]) % 2 ^ 64
          ≠ npos := by
        rw [h1]
        simp [npos]
      rw [if_neg hn, if_pos hne2, if_pos h1]
    · have hn : compare (ToLower bassTag) (ToLower [0x44, 0x72, 0x75, 0x6D, 0x73]) % 2 ^ 64
          ≠ npos := by
        simp only [npos]
        omega
      rw [if_pos hn, if_neg h1]

theorem GetChannelIndex_other_name_witness :
    ∃ song, LoadSong namedTracksFile = some (some song)
      ∧ song.m_tracks.map MIDITrack.GetTrackName
          = [some [0x44, 0x72, 0x75, 0x6D, 0x73], some [0x42, 0x61, 0x73, 0x73]]
      ∧ ToLower pianoTag ≠ ToLower [0x44, 0x72, 0x75, 0x6D, 0x73]
      ∧ ToLower pianoTag ≠ ToLower [0x42, 0x61, 0x73, 0x73]
      ∧ song.GetChannelIndex compareSign pianoTag 99 = some (true, 0)
      ∧ song.GetChannelIndex compareSign bassTag 99
          = some (true, if compareSign (ToLower bassTag) (ToLower [0x44, 0x72, 0x75, 0x6D, 0x73])
              = -1 then 1 else 0) :=
  GetChannelIndex_other_name compareSign compareSign_spec

/-! ## The key of a stored event -/

/-- The decode switch leaves counters, status, tempo, buffer and map alone -/
theorem decodeEvent_frame (s s2 : ParseState) (h : decodeEvent s = some s2) :
    s2.runtime = s.runtime ∧ s2.deltatime = s.deltatime ∧ s2.tempo = s.tempo
      ∧ s2.status = s.status ∧ s2.channel = s.channel
      ∧ s2.track.m_map = s.track.m_map
      ∧ s2.track.m_eventBuffer = s.track.m_eventBuffer := by
  simp only [decodeEvent] at h
  split_ifs at h <;>
    simp only [Option.bind_eq_bind, Option.bind_eq_some, Option.some.injEq] at h
  · obtain ⟨a, _, rfl⟩ := h
    simp
  · obtain ⟨a, _, b, _, rfl⟩ := h
    simp
  · obtain ⟨a, _, rfl⟩ := h
    simp
  · obtain ⟨a, _, b, _, rfl⟩ := h
    simp

theorem readByte_lt (mem : List Nat) (p b : Nat) (h : readByte mem p = some b) : b < 256 := by
  simp only [readByte, Option.map_eq_some'] at h
  obtain ⟨a, _, rfl⟩ := h
  exact Nat.mod_lt _ (by norm_num)

theorem storeEvent_effect (division : Nat) (s s3 : ParseState) (e : MIDIEvent)
    (h : storeEvent division s e = some s3) :
    ∃ key, castKey s.runtime division s.tempo = some key
      ∧ s3 = { s with track := { s.track with m_map := mapInsert s.track.m_map key e } } := by
  simp only [storeEvent, Option.bind_eq_bind, Option.bind_eq_some, Option.some.injEq] at h
  obtain ⟨key, hk, rfl⟩ := h
  exact ⟨key, hk, rfl⟩

/-- The handle switch either stores one event, built from the running tick count, under the
key computed from that count and the tempo in force, or stores nothing; it changes the tempo
for a tempo meta event only, to the big-endian value of the three bytes at `data` -/
theorem handleEvent_effect (division : Nat) (s s3 : ParseState)
    (h : handleEvent division s = some s3) :
    s3.runtime = s.runtime ∧ s3.deltatime = s.deltatime ∧ s3.status = s.status
      ∧ s3.channel = s.channel ∧ s3.param1 = s.param1 ∧ s3.data = s.data
      ∧ s3.track.m_eventBuffer = s.track.m_eventBuffer
      ∧ s3.track.m_nextEvent = s.track.m_nextEvent
      ∧ (s3.track.m_map = s.track.m_map
          ∨ ∃ (key : Nat) (e : MIDIEvent), castKey s.runtime division s.tempo = some key
              ∧ e.m_time = s.runtime ∧ s3.track.m_map = mapInsert s.track.m_map key e
              ∧ s3.tempo = s.tempo)
      ∧ (s3.tempo = s.tempo
          ∨ (s.status = 0xF ∧ s.channel = 0xF ∧ s.param1 = 0x51
              ∧ s3.track.m_map = s.track.m_map
              ∧ ∃ (q d0 d1 d2 : Nat), s.data = some q
                ∧ readByte s.track.m_eventBuffer q = some d0
                ∧ readByte s.track.m_eventBuffer (q + 1) = some d1
                ∧ readByte s.track.m_eventBuffer (q + 2) = some d2
                ∧ s3.tempo = 65536 * d0 + 256 * d1 + d2)) := by
  simp only [handleEvent] at h
  split_ifs at h with hF h07 hFF h3 h4 h2F h51
  · obtain ⟨key, hk, rfl⟩ := storeEvent_effect _ _ _ _ h
    exact ⟨rfl, rfl, rfl, rfl, rfl, rfl, rfl, rfl, Or.inr ⟨key, _, hk, rfl, rfl, rfl⟩, Or.inl rfl⟩
  · simp only [Option.bind_eq_bind, Option.bind_eq_some, Option.some.injEq] at h
    obtain ⟨a, _, b, _, rfl⟩ := h
    exact ⟨rfl, rfl, rfl, rfl, rfl, rfl, rfl, rfl, Or.inl rfl, Or.inl rfl⟩
  · simp only [Option.bind_eq_bind, Option.bind_eq_some, Option.some.injEq] at h
    obtain ⟨a, _, b, _, rfl⟩ := h
    exact ⟨rfl, rfl, rfl, rfl, rfl, rfl, rfl, rfl, Or.inl rfl, Or.inl rfl⟩
  · simp only [Option.some.injEq] at h
    subst h
    exact ⟨rfl, rfl, rfl, rfl, rfl, rfl, rfl, rfl, Or.inl rfl, Or.inl rfl⟩
  · simp only [Option.bind_eq_bind, Option.bind_eq_some, Option.some.injEq] at h
    obtain ⟨q, hq, d0, h0, d1, h1, d2, h2, rfl⟩ := h
    refine ⟨rfl, rfl, rfl, rfl, rfl, rfl, rfl, rfl, Or.inl rfl, Or.inr ⟨hF, hFF, h51, rfl,
      q, d0, d1, d2, hq, h0, h1, h2, ?_⟩⟩
    have b0 := readByte_lt _ _ _ h0
    have b1 := readByte_lt _ _ _ h1
    have b2 := readByte_lt _ _ _ h2
    simp only [Nat.shiftLeft_eq]
    omega
  · simp only [Option.some.injEq] at h
    subst h
    exact ⟨rfl, rfl, rfl, rfl, rfl, rfl, rfl, rfl, Or.inl rfl, Or.inl rfl⟩
  · simp only [Option.some.injEq] at h
    subst h
    exact ⟨rfl, rfl, rfl, rfl, rfl, rfl, rfl, rfl, Or.inl rfl, Or.inl rfl⟩
  · obtain ⟨key, hk, rfl⟩ := storeEvent_effect _ _ _ _ h
    exact ⟨rfl, rfl, rfl, rfl, rfl, rfl, rfl, rfl, Or.inr ⟨key, _, hk, rfl, rfl, rfl⟩, Or.inl rfl⟩

/-- What one iteration of the loop does to the tick count, the map and the tempo -/
theorem parseStep_effect (division : Nat) (s s1 : ParseState)
    (h : parseStep division s = some s1) :
    (∃ p, GetVLQ s.track.m_eventBuffer s.track.m_event = some (s1.deltatime, p))
      ∧ s1.runtime = (s.runtime + s1.deltatime) % 2 ^ 32
      ∧ s1.track.m_eventBuffer = s.track.m_eventBuffer
      ∧ (s1.track.m_map = s.track.m_map
          ∨ ∃ (key : Nat) (e : MIDIEvent), castKey s1.runtime division s.tempo = some key
              ∧ e.m_time = s1.runtime ∧ s1.track.m_map = mapInsert s.track.m_map key e
              ∧ s1.tempo = s.tempo)
      ∧ (s1.tempo = s.tempo
          ∨ (s1.status = 0xF ∧ s1.channel = 0xF ∧ s1.param1 = 0x51
              ∧ s1.track.m_map = s.track.m_map
              ∧ ∃ (q d0 d1 d2 : Nat), s1.data = some q
                ∧ readByte s.track.m_eventBuffer q = some d0
                ∧ readByte s.track.m_eventBuffer (q + 1) = some d1
                ∧ readByte s.track.m_eventBuffer (q + 2) = some d2
                ∧ s1.tempo = 65536 * d0 + 256 * d1 + d2)) := by
  simp only [parseStep, Option.bind_eq_bind, Option.bind_eq_some, Option.some.injEq] at h
  obtain ⟨r, hr, b, _, s2, h2, s3, h3, rfl⟩ := h
  obtain ⟨d1, d2, d3, d4, d5, d6, d7⟩ := decodeEvent_frame _ _ h2
  obtain ⟨e1, e2, e3, e4, e5, e6, e7, _, e9, e10⟩ := handleEvent_effect _ _ _ h3
  have hrt : s2.runtime = (s.runtime + r.1) % 2 ^ 32 := by
    rw [d1]
    split_ifs <;> rfl
  have hdt : s2.deltatime = r.1 := by
    rw [d2]
    split_ifs <;> rfl
  have htp : s2.tempo = s.tempo := by
    rw [d3]
    split_ifs <;> rfl
  have hmp : s2.track.m_map = s.track.m_map := by
    rw [d6]
    split_ifs <;> rfl
  have hbf : s2.track.m_eventBuffer = s.track.m_eventBuffer := by
    rw [d7]
    split_ifs <;> rfl
  refine ⟨⟨r.2, ?_⟩, ?_, ?_, ?_, ?_⟩
  · simp only [e2, hdt]
    exact hr
  · simp only [e1, e2, hrt, hdt]
  · simp only [e7, hbf]
  · simp only [e1]
    rcases e9 with e9 | ⟨key, e, k1, k2, k3, k4⟩
    · exact Or.inl (by rw [e9, hmp])
    · exact Or.inr ⟨key, e, by rw [← htp]; exact k1, k2, by rw [k3, hmp], by rw [k4, htp]⟩
  · simp only [e3, e4, e5, e6]
    rcases e10 with e10 | ⟨k1, k2, k3, k4, q, b0, b1, b2, k5, k6, k7, k8, k9⟩
    · exact Or.inl (by rw [e10, htp])
    · refine Or.inr ⟨k1, k2, k3, by rw [k4, hmp], q, b0, b1, b2, k5, ?_, ?_, ?_, k9⟩
      · rw [← hbf]
        exact k6
      · rw [← hbf]
        exact k7
      · rw [← hbf]
        exact k8

theorem parseLoop_parseStates (division length : Nat) :
    ∀ (fuel : Nat) (s : ParseState),
      parseLoop division length fuel s
        = (parseStates division length fuel s).map (fun l => l.getLastD s) := by
  intro fuel
  induction fuel with
  | zero =>
    intro s
    simp only [parseLoop, parseStates]
    split_ifs <;> rfl
  | succ fuel ih =>
    intro s
    simp only [parseLoop, parseStates]
    split_ifs
    · cases hs : parseStep division s with
      | none => rfl
      | some s1 =>
        simp only [Option.bind_eq_bind, Option.some_bind, ih]
        cases parseStates division length fuel s1 with
        | none => rfl
        | some rest =>
          cases rest with
          | nil => simp
          | cons a l =>
            have hx : (a :: l).getLast? = some ((a :: l).getLast (List.cons_ne_nil _ _)) :=
              List.getLast?_eq_getLast _ _
            simp only [List.getLastD_eq_getLast?, List.getLast?_cons_cons, hx, Option.map_some',
              Option.getD_some, Option.some_bind]
    · rfl

theorem parseStates_step (division length : Nat) :
    ∀ (fuel : Nat) (s0 : ParseState) (states : List ParseState),
      parseStates division length fuel s0 = some states →
      ∀ (i : Nat) (s s1 : ParseState), (s0 :: states)[i]? = some s → states[i]? = some s1 →
        parseStep division s = some s1
          ∧ s1.runtime = (s0.runtime + ((states.take (i + 1)).map (fun x => x.deltatime)).sum)
              % 2 ^ 32 := by
  intro fuel
  induction fuel with
  | zero =>
    intro s0 states h i s s1 _ h1
    simp only [parseStates] at h
    split_ifs at h
    simp only [Option.some.injEq] at h
    subst h
    simp at h1
  | succ fuel ih =>
    intro s0 states h i s s1 hs h1
    simp only [parseStates] at h
    split_ifs at h
    · simp only [Option.bind_eq_bind, Option.bind_eq_some, Option.some.injEq] at h
      obtain ⟨t1, ht1, rest, hrest, rfl⟩ := h
      have hr0 := (parseStep_effect division s0 t1 ht1).2.1
      cases i with
      | zero =>
        simp only [List.getElem?_cons_zero, Option.some.injEq] at hs h1
        subst hs h1
        exact ⟨ht1, by simpa using hr0⟩
      | succ i =>
        simp only [List.getElem?_cons_succ] at hs h1
        obtain ⟨h2, h3⟩ := ih t1 rest hrest i s s1 hs h1
        refine ⟨h2, ?_⟩
        rw [h3, hr0]
        simp only [List.take_succ_cons, List.map_cons, List.sum_cons]
        omega
    · simp only [Option.some.injEq] at h
      subst h
      simp at h1

set_option maxRecDepth 100000 in
/-- The rounding can carry the product above an integer as well: with division 9887 and
tempo 6624040 the tick count 80173022 gets key 3520193987, while the floor in exact
arithmetic is 3520193986 -/
theorem castKey_above_exact_floor :
    castKey 80173022 9887 6624040 = some 3520193987
      ∧ exactKey 80173022 9887 6624040 = 3520193986 := by
  constructor
  · decide
  · rw [exactKey, Int.floor_eq_iff]
    constructor <;> norm_num

set_option maxRecDepth 100000 in
theorem tempoChange_keys :
    tempoChangeStates.map (fun s => (s.runtime, s.tempo, s.track.m_map.map (fun p => p.1)))
      = [(0, 500000, []), (480, 500000, [32768]), (480, 1000000, [32768]),
         (960, 1000000, [32768, 131072]), (960, 1000000, [32768, 131072])] := by
  decide

/-- C11: for every song whose `m_isPlaying` is false and every delta, `Update(delta)` returns
the song as it was: clock, tracks with every fired flag and current-events map, hence every
answer of `IsNoteOn`. `Stop` puts any song in that state and keeps the clock and the
tracks. -/
theorem Update_stopped (s : MIDISong) (d : ℚ) (h : s.m_isPlaying = some false) :
    s.Update d = some s
      ∧ (∀ s1, s.Update d = some s1 → s1.m_playTime = s.m_playTime
          ∧ s1.m_currentEvents = s.m_currentEvents
          ∧ (∀ i j, flagAt s1 i j = flagAt s i j) ∧ ∀ i, s1.IsNoteOn i = s.IsNoteOn i)
      ∧ ∀ s0 : MIDISong, s0.Stop.Update d = some s0.Stop
          ∧ s0.Stop.m_playTime = s0.m_playTime ∧ s0.Stop.m_tracks = s0.m_tracks
          ∧ s0.Stop.m_currentEvents = s0.m_currentEvents := by
  have h1 : s.Update d = some s := by
    simp [MIDISong.Update, h]
  refine ⟨h1, ?_, ?_⟩
  · intro s1 hs1
    rw [h1] at hs1
    simp only [Option.some.injEq] at hs1
    subst hs1
    exact ⟨rfl, rfl, fun _ _ => rfl, fun _ => rfl⟩
  · intro s0
    exact ⟨by simp [MIDISong.Update, MIDISong.Stop], rfl, rfl, rfl⟩

theorem Update_stopped_witness :
    (scenarioSong (3 / 4) true []).Stop.Update 5 = some (scenarioSong (3 / 4) true []).Stop
      ∧ (∀ s1, (scenarioSong (3 / 4) true []).Stop.Update 5 = some s1 →
          s1.m_playTime = (scenarioSong (3 / 4) true []).Stop.m_playTime
          ∧ s1.m_currentEvents = (scenarioSong (3 / 4) true []).Stop.m_currentEvents
          ∧ (∀ i j, flagAt s1 i j = flagAt (scenarioSong (3 / 4) true []).Stop i j)
          ∧ ∀ i, s1.IsNoteOn i = (scenarioSong (3 / 4) true []).Stop.IsNoteOn i)
      ∧ ∀ s0 : MIDISong, s0.Stop.Update 5 = some s0.Stop
          ∧ s0.Stop.m_playTime = s0.m_playTime ∧ s0.Stop.m_tracks = s0.m_tracks
          ∧ s0.Stop.m_currentEvents = s0.m_currentEvents :=
  Update_stopped (scenarioSong (3 / 4) true []).Stop 5 rfl

theorem scenarioReported_Reset :
    scenarioReported.Reset = scenarioSong 0 true [(0, scenarioNoteOn true)] := by
  simp [MIDISong.Reset, scenarioReported, scenarioSong]

theorem scenario_Update_after_Reset :
    (scenarioSong 0 true [(0, scenarioNoteOn true)]).Update (3 / 4)
      = some (scenarioSong (3 / 4) true []) := by
  exact scenario_Update_fired 0 (3 / 4) (3 / 4) [(0, scenarioNoteOn true)]
    (by rw [zero_add]; exact roundDouble_three_quarters) (by norm_num) (by norm_num)

theorem scenario_Update_quarter :
    (scenarioSong (3 / 4) true []).Update (1 / 4) = some (scenarioSong 1 true []) := by
  exact scenario_Update_fired (3 / 4) (1 / 4) 1 []
    (by rw [show (3 / 4 : ℚ) + 1 / 4 = 1 by norm_num]; exact roundDouble_one) (by norm_num)
    (by norm_num)

/-- C13 (counterexample): in the scenario song the note-on is fired and reported by the
`Update` that takes the clock to 3/4. After `Reset` the clock is 0 but the fired flag of the
note-on is still true, and the `Update` that takes the clock to 3/4 again reports nothing. -/
theorem Reset_does_not_unfire :
    (scenarioSong 0 false []).Update (3 / 4) = some scenarioReported
      ∧ scenarioReported.IsNoteOn 0 = some (60, 100)
      ∧ scenarioReported.Reset.m_playTime = 0
      ∧ flagAt scenarioReported.Reset 0 0 = some true
      ∧ scenarioReported.Reset.Update (3 / 4) = some (scenarioSong (3 / 4) true [])
      ∧ (scenarioSong (3 / 4) true []).IsNoteOn 0 = none := by
  refine ⟨scenario_Update_example, by decide, ?_, ?_, ?_, by decide⟩
  · rw [scenarioReported_Reset]
    rfl
  · rw [scenarioReported_Reset]
    decide
  · rw [scenarioReported_Reset]
    exact scenario_Update_after_Reset

/-- C13 (amended): `Reset` sets the clock to 0 and changes nothing else: `m_isPlaying`, the
tracks with every fired flag and the current-events map stay. No call clears a fired flag:
along every series of `Play`, `Stop` and `Update` calls made after `Reset`, an event that was
fired before the `Reset` stays fired, and an event that an `Update` made while playing puts
in the current-events map was not fired before the `Reset`. -/
theorem Reset_keeps_flags (s : MIDISong) (ops : List Op) (states : List MIDISong)
    (h : runOps s.Reset ops = some states) (i j : Nat) :
    s.Reset = { s with m_playTime := 0 }
      ∧ (flagAt s i j = some true → ∀ sb ∈ states, flagAt sb i j = some true)
      ∧ (∀ (a : Nat) (sa sa1 : MIDISong) (d : ℚ) (e : MIDIEvent),
          ops[a]? = some (Op.update d) → states[a]? = some sa → states[a + 1]? = some sa1 →
          sa.m_isPlaying = some true → (i, e) ∈ sa1.m_currentEvents →
          ∃ (j1 k : Nat) (e0 : MIDIEvent), eventAt sa i j1 = some (k, e0)
            ∧ e = { e0 with m_processed := true } ∧ flagAt s i j1 ≠ some true) := by
  have hflag : ∀ j1, flagAt s.Reset i j1 = flagAt s i j1 :=
    fun j1 => flagAt_tracks s s.Reset rfl i j1
  refine ⟨rfl, ?_, ?_⟩
  · intro hf sb hsb
    exact runOps_mono ops s.Reset states i j h sb hsb (by rw [hflag]; exact hf)
  · intro a sa sa1 d e hop ha ha1 hpl he
    obtain ⟨op, hop2, happ⟩ := runOps_step ops s.Reset states a sa sa1 h ha ha1
    rw [hop] at hop2
    simp only [Option.some.injEq] at hop2
    subst hop2
    simp only [Op.apply] at happ
    obtain ⟨j1, k, e0, h1, h2, _, h4, _⟩ := Update_currentEvents sa sa1 d i e hpl happ he
    refine ⟨j1, k, e0, h1, h4, ?_⟩
    intro hf
    have := runOps_mono ops s.Reset states i j1 h sa (List.getElem?_mem ha)
      (by rw [hflag]; exact hf)
    simp [flagAt, h1, h2] at this

theorem runOps_scenarioReset :
    runOps scenarioReported.Reset [Op.update (3 / 4), Op.update (1 / 4)]
      = some scenarioResetStates := by
  rw [scenarioReported_Reset]
  exact runOps_cons _ _ _ _ _ scenario_Update_after_Reset
    (runOps_cons _ _ _ _ _ scenario_Update_quarter rfl)

theorem Reset_keeps_flags_witness :
    scenarioReported.Reset = { scenarioReported with m_playTime := 0 }
      ∧ (flagAt scenarioReported 0 0 = some true →
          ∀ sb ∈ scenarioResetStates, flagAt sb 0 0 = some true)
      ∧ (∀ (a : Nat) (sa sa1 : MIDISong) (d : ℚ) (e : MIDIEvent),
          [Op.update (3 / 4), Op.update (1 / 4)][a]? = some (Op.update d) →
          scenarioResetStates[a]? = some sa → scenarioResetStates[a + 1]? = some sa1 →
          sa.m_isPlaying = some true → (0, e) ∈ sa1.m_currentEvents →
          ∃ (j1 k : Nat) (e0 : MIDIEvent), eventAt sa 0 j1 = some (k, e0)
            ∧ e = { e0 with m_processed := true } ∧ flagAt scenarioReported 0 j1 ≠ some true) :=
  Reset_keeps_flags scenarioReported [Op.update (3 / 4), Op.update (1 / 4)] scenarioResetStates
    runOps_scenarioReset 0 0

/-! ## Tempo zero -/

theorem roundDbl_zero (den : Nat) : roundDbl 0 den = ⟨0, 1⟩ := by
  simp [roundDbl]

/-- With tempo 0 and a non-zero division every tick count gets key 0 -/
theorem castKey_tempo_zero (runtime division : Nat) (hd : division ≠ 0) :
    castKey runtime division 0 = some 0 := by
  simp [castKey, hd, Dbl.mul, Dbl.div, Dbl.ofNat, roundDbl_zero]

theorem castKey_tempo_zero_eq (runtime division key : Nat)
    (h : castKey runtime division 0 = some key) : key = 0 := by
  by_cases hd : division = 0
  · simp [castKey, hd] at h
  · rw [castKey_tempo_zero runtime division hd] at h
    simp only [Option.some.injEq] at h
    exact h.symm

theorem parseStates_tempo_zero (division length fuel : Nat) (s0 : ParseState)
    (states : List ParseState) (ht : s0.tempo = 0) (hm : s0.track.m_map = [])
    (h : parseStates division length fuel s0 = some states)
    (hno : ∀ s1 ∈ states, ¬ (s1.status = 0xF ∧ s1.channel = 0xF ∧ s1.param1 = 0x51)) :
    ∀ (i : Nat) (s : ParseState), (s0 :: states)[i]? = some s →
      s.tempo = 0 ∧ (s.track.m_map = [] ∨ ∃ e, s.track.m_map = [(0, e)]) := by
  intro i
  induction i with
  | zero =>
    intro s hs
    simp only [List.getElem?_cons_zero, Option.some.injEq] at hs
    subst hs
    exact ⟨ht, Or.inl hm⟩
  | succ i ih =>
    intro s1 hs1
    simp only [List.getElem?_cons_succ] at hs1
    have hi : i < (s0 :: states).length := by
      have := (List.getElem?_eq_some.mp hs1).1
      simp only [List.length_cons]
      omega
    obtain ⟨hpt, hpm⟩ := ih _ (List.getElem?_eq_getElem hi)
    obtain ⟨hstep, _⟩ := parseStates_step division length fuel s0 states h i _ s1
      (List.getElem?_eq_getElem hi) hs1
    obtain ⟨_, _, _, e4, e5⟩ := parseStep_effect division _ s1 hstep
    have htempo : s1.tempo = 0 := by
      rcases e5 with e5 | ⟨k1, k2, k3, _⟩
      · rw [e5, hpt]
      · exact absurd ⟨k1, k2, k3⟩ (hno s1 (List.getElem?_mem hs1))
    refine ⟨htempo, ?_⟩
    rcases e4 with e4 | ⟨key, e, k1, _, k3, _⟩
    · rw [e4]
      exact hpm
    · rw [hpt] at k1
      have hk := castKey_tempo_zero_eq _ _ _ k1
      subst hk
      right
      rcases hpm with hpm | ⟨e0, hpm⟩
      · exact ⟨e, by rw [k3, hpm]; rfl⟩
      · exact ⟨e, by rw [k3, hpm]; simp [mapInsert]⟩

/-- C19: a new song has tempo 0 and `Load` hands that tempo to `Parse`. When the decode
loop starts with tempo 0 and an empty map and decodes no tempo meta event, the tempo stays 0
and in every iteration the map either stays as it is or becomes the single entry with key 0
holding the event just stored: every stored event gets key 0 and the map never holds more
than one event, whatever the delta-times. -/
theorem tempo_zero_single_key (division length fuel : Nat) (s0 : ParseState)
    (states : List ParseState) (ht : s0.tempo = 0) (hm : s0.track.m_map = [])
    (h : parseStates division length fuel s0 = some states)
    (hno : ∀ s1 ∈ states, ¬ (s1.status = 0xF ∧ s1.channel = 0xF ∧ s1.param1 = 0x51)) :
    MIDISong.new.m_tempo = 0
      ∧ ∀ (i : Nat) (s s1 : ParseState), (s0 :: states)[i]? = some s → states[i]? = some s1 →
        s1.tempo = 0
        ∧ (s1.track.m_map = s.track.m_map
            ∨ ∃ e, e.m_time = s1.runtime ∧ castKey s1.runtime division 0 = some 0
                ∧ s1.track.m_map = [(0, e)])
        ∧ s1.track.m_map.length ≤ 1 ∧ ∀ p ∈ s1.track.m_map, p.1 = 0 := by
  refine ⟨rfl, ?_⟩
  intro i s s1 hs hs1
  have inv := parseStates_tempo_zero division length fuel s0 states ht hm h hno
  obtain ⟨hpt, hpm⟩ := inv i s hs
  obtain ⟨h1t, h1m⟩ := inv (i + 1) s1 (by rw [List.getElem?_cons_succ]; exact hs1)
  obtain ⟨hstep, _⟩ := parseStates_step division length fuel s0 states h i s s1 hs hs1
  obtain ⟨_, _, _, e4, _⟩ := parseStep_effect division s s1 hstep
  refine ⟨h1t, ?_, ?_, ?_⟩
  · rcases e4 with e4 | ⟨key, e, k1, k2, k3, _⟩
    · exact Or.inl e4
    · rw [hpt] at k1
      have hk := castKey_tempo_zero_eq _ _ _ k1
      subst hk
      right
      refine ⟨e, k2, k1, ?_⟩
      rcases hpm with hpm | ⟨e0, hpm⟩
      · rw [k3, hpm]
        rfl
      · rw [k3, hpm]
        simp [mapInsert]
  · rcases h1m with h1m | ⟨e, h1m⟩ <;> simp [h1m]
  · rcases h1m with h1m | ⟨e, h1m⟩ <;> simp [h1m]

set_option maxRecDepth 100000 in
theorem parseStates_noTempo :
    parseStates 480 noTempoBody.length noTempoBody.length
      (ParseState.init MIDITrack.new noTempoBody 0) = some noTempoStates := by
  decide

set_option maxRecDepth 100000 in
theorem noTempo_maps :
    noTempoStates.map (fun s => s.track.m_map.map (fun p => (p.1, p.2.m_time, p.2.m_status)))
      = [[(0, 0, 9)], [(0, 480, 8)], [(0, 480, 8)]] := by
  decide

set_option maxRecDepth 100000 in
theorem tempo_zero_single_key_witness :
    MIDISong.new.m_tempo = 0
      ∧ ∀ (i : Nat) (s s1 : ParseState),
        (ParseState.init MIDITrack.new noTempoBody 0 :: noTempoStates)[i]? = some s →
        noTempoStates[i]? = some s1 →
        s1.tempo = 0
        ∧ (s1.track.m_map = s.track.m_map
            ∨ ∃ e, e.m_time = s1.runtime ∧ castKey s1.runtime 480 0 = some 0
                ∧ s1.track.m_map = [(0, e)])
        ∧ s1.track.m_map.length ≤ 1 ∧ ∀ p ∈ s1.track.m_map, p.1 = 0 :=
  tempo_zero_single_key 480 noTempoBody.length noTempoBody.length
    (ParseState.init MIDITrack.new noTempoBody 0) noTempoStates rfl rfl parseStates_noTempo
    (by decide)

/-! ## Termination of the decode loop -/

theorem decodeEvent_next (s s2 : ParseState) (h : decodeEvent s = some s2) :
    s.track.m_event + 2 ≤ s2.track.m_nextEvent := by
  simp only [decodeEvent] at h
  split_ifs at h <;>
    simp only [Option.bind_eq_bind, Option.bind_eq_some, Option.some.injEq] at h
  · obtain ⟨a, _, rfl⟩ := h
    simp
  · obtain ⟨a, _, b, _, rfl⟩ := h
    simp only
    omega
  · obtain ⟨a, _, rfl⟩ := h
    simp only
    omega
  · obtain ⟨a, _, b, _, rfl⟩ := h
    simp

/-- An iteration reads at the cursor, inside the buffer, and leaves the cursor two bytes
further at least -/
theorem parseStep_advance (division : Nat) (s s1 : ParseState)
    (h : parseStep division s = some s1) :
    s.track.m_event + 2 ≤ s1.track.m_event
      ∧ s.track.m_event < s.track.m_eventBuffer.length := by
  simp only [parseStep, Option.bind_eq_bind, Option.bind_eq_some, Option.some.injEq] at h
  obtain ⟨r, hr, b, _, s2, h2, s3, h3, rfl⟩ := h
  have hadv := GetVLQ_advance _ _ r.1 r.2 hr
  have hnext := decodeEvent_next _ _ h2
  have hkeep := (handleEvent_effect _ _ _ h3).2.2.2.2.2.2.2.1
  refine ⟨?_, by omega⟩
  simp only [hkeep]
  split_ifs at hnext <;> simp only at hnext <;> omega

theorem parseStep_none_of_end (division : Nat) (s : ParseState)
    (h : s.track.m_eventBuffer.length ≤ s.track.m_event) : parseStep division s = none := by
  cases hs : parseStep division s with
  | none => rfl
  | some s1 =>
    have := (parseStep_advance division s s1 hs).2
    omega

/-- More steps than half the bytes left are never used: the result of the loop is the same
for every larger bound -/
theorem parseLoop_fuel (division length : Nat) :
    ∀ (fuel k : Nat) (s : ParseState), s.track.m_eventBuffer.length = length →
      (length - s.track.m_event + 1) / 2 ≤ fuel →
      parseLoop division length (fuel + k) s = parseLoop division length fuel s := by
  intro fuel
  induction fuel with
  | zero =>
    intro k s hb hf
    have hend : s.track.m_eventBuffer.length ≤ s.track.m_event := by omega
    cases k with
    | zero => rfl
    | succ k =>
      simp only [Nat.zero_add, parseLoop, parseStep_none_of_end division s hend,
        Option.none_bind]
  | succ fuel ih =>
    intro k s hb hf
    rw [show fuel + 1 + k = (fuel + k) + 1 by omega]
    simp only [parseLoop]
    split_ifs
    · cases hs : parseStep division s with
      | none => rfl
      | some s1 =>
        obtain ⟨h1, h2⟩ := parseStep_advance division s s1 hs
        have hb1 : s1.track.m_eventBuffer.length = length := by
          rw [(parseStep_effect division s s1 hs).2.2.1, hb]
        simp only [Option.some_bind]
        exact ih k s1 hb1 (by omega)
    · rfl

theorem parseStates_length (division length : Nat) :
    ∀ (fuel : Nat) (s : ParseState) (states : List ParseState),
      s.track.m_eventBuffer.length = length →
      parseStates division length fuel s = some states →
      states.length ≤ (length - s.track.m_event + 1) / 2 := by
  intro fuel
  induction fuel with
  | zero =>
    intro s states _ h
    simp only [parseStates] at h
    split_ifs at h
    simp only [Option.some.injEq] at h
    subst h
    simp
  | succ fuel ih =>
    intro s states hb h
    simp only [parseStates] at h
    split_ifs at h
    · simp only [Option.bind_eq_bind, Option.bind_eq_some, Option.some.injEq] at h
      obtain ⟨s1, hs, rest, hrest, rfl⟩ := h
      obtain ⟨h1, h2⟩ := parseStep_advance division s s1 hs
      have hb1 : s1.track.m_eventBuffer.length = length := by
        rw [(parseStep_effect division s s1 hs).2.2.1, hb]
      have := ih s1 rest hb1 hrest
      simp only [List.length_cons]
      omega
    · simp only [Option.some.injEq] at h
      subst h
      simp

/-- C20: every iteration of the decode loop that completes moves the cursor forward by 2
bytes or more. Hence over a chunk of `n` event bytes the loop makes at most `(n + 1) / 2`
iterations, and the result of `parseLoop` is the same for every step bound from
`(n + 1) / 2` on, the bound `n` used by `Parse` among them: the loop always comes to an end,
with a result or with a read outside the chunk. -/
theorem Parse_loop_terminates (division : Nat) (t : MIDITrack) (body : List Nat) (tempo : Nat) :
    (∀ s s1 : ParseState, parseStep division s = some s1 →
        s.track.m_event + 2 ≤ s1.track.m_event)
      ∧ (∀ fuel, (body.length + 1) / 2 ≤ fuel →
          parseLoop division body.length fuel (ParseState.init t body tempo)
            = parseLoop division body.length body.length (ParseState.init t body tempo))
      ∧ (∀ (fuel : Nat) (states : List ParseState),
          parseStates division body.length fuel (ParseState.init t body tempo) = some states →
          states.length ≤ (body.length + 1) / 2) := by
  refine ⟨fun s s1 h => (parseStep_advance division s s1 h).1, ?_, ?_⟩
  · intro fuel hf
    have hmin : ∀ f, (body.length + 1) / 2 ≤ f →
        parseLoop division body.length f (ParseState.init t body tempo)
          = parseLoop division body.length ((body.length + 1) / 2)
              (ParseState.init t body tempo) := by
      intro f hle
      have := parseLoop_fuel division body.length ((body.length + 1) / 2)
        (f - (body.length + 1) / 2) (ParseState.init t body tempo) rfl
        (by simp [ParseState.init])
      rw [show (body.length + 1) / 2 + (f - (body.length + 1) / 2) = f by omega] at this
      exact this
    rw [hmin fuel hf, hmin body.length (by omega)]
  · intro fuel states h
    have := parseStates_length division body.length fuel (ParseState.init t body tempo) states
      rfl h
    simpa [ParseState.init] using this

/-! ## Truncated chunks -/

theorem vlqLoop_none (l : List Nat) :
    ∀ (acc n : Nat), (∀ b ∈ l, 128 ≤ b % 256) → vlqLoop l acc n = none := by
  induction l with
  | nil =>
    intro acc n _
    rfl
  | cons c rest ih =>
    intro acc n h
    rw [vlqLoop_cons, if_pos (h c (List.mem_cons_self _ _))]
    exact ih _ _ (fun b hb => h b (List.mem_cons_of_mem _ hb))

set_option maxRecDepth 100000 in
/-- C12 (counterexample): the chunk with the event bytes `truncatedMetaBody` ends inside a
meta event whose length field runs past the end. `Parse` returns true for it, leaving the
cursor of the track at offset 9 of the 5 event bytes, and `Load` returns true for the file
made of it. -/
theorem truncated_meta_accepted :
    MIDITrack.Parse MIDITrack.new 480 0 (trackChunk truncatedMetaBody) 0
        = some ⟨true, ⟨truncatedMetaBody, 9, 9, none, none, []⟩, 0, 13⟩
      ∧ (MIDISong.new.Load (headerChunk 0 1 480 ++ trackChunk truncatedMetaBody)).map
          (fun r => (r.1, r.2.m_tracks.length)) = some (true, 1) := by
  decide

/-- C12 (amended): `Parse` has no bounds check and no error path for a truncated chunk. For
every chunk that starts with "MTrk", whatever its event bytes, a run of `Parse` that stays
inside defined behaviour returns true and moves the shared cursor past the declared length;
`Parse` returns false for a wrong identifier only. A delta-time or length whose bytes all
have the continuation bit set up to the end of the buffer makes `GetVLQ` read past the
end. -/
theorem Parse_never_rejects (t : MIDITrack) (division tempo : Nat) (mem : List Nat)
    (songData : Nat) (r : ParseResult) (hid : readU32 mem songData = some MTrk)
    (h : t.Parse division tempo mem songData = some r) :
    r.ok = true
      ∧ (∃ raw, readU32 mem (songData + 4) = some raw
          ∧ r.songData = songData + 8 + SwapLong raw)
      ∧ ∀ (buf : List Nat) (p : Nat), (∀ b ∈ buf.drop p, 128 ≤ b % 256) →
          GetVLQ buf p = none := by
  refine ⟨?_, ?_, ?_⟩
  · simp only [MIDITrack.Parse, hid, Option.bind_eq_bind, Option.some_bind,
      Option.bind_eq_some, ne_eq, not_true_eq_false, if_false] at h
    obtain ⟨raw, _, h⟩ := h
    split_ifs at h
    simp only [Option.bind_eq_some, Option.some.injEq] at h
    obtain ⟨s, _, rfl⟩ := h
    rfl
  · simp only [MIDITrack.Parse, hid, Option.bind_eq_bind, Option.some_bind,
      Option.bind_eq_some, ne_eq, not_true_eq_false, if_false] at h
    obtain ⟨raw, hraw, h⟩ := h
    refine ⟨raw, hraw, ?_⟩
    split_ifs at h
    simp only [Option.bind_eq_some, Option.some.injEq] at h
    obtain ⟨s, _, rfl⟩ := h
    rfl
  · intro buf p hb
    simp [GetVLQ, vlqLoop_none _ 0 0 hb]

set_option maxRecDepth 100000 in
theorem truncated_reads_outside :
    MIDITrack.Parse MIDITrack.new 480 0 (trackChunk truncatedNoteBody) 0 = none
      ∧ MIDITrack.Parse MIDITrack.new 480 0 (trackChunk truncatedDeltaBody) 0 = none := by
  decide

set_option maxRecDepth 100000 in
theorem Parse_never_rejects_witness :
    (⟨true, ⟨truncatedMetaBody, 9, 9, none, none, []⟩, 0, 13⟩ : ParseResult).ok = true
      ∧ (∃ raw, readU32 (trackChunk truncatedMetaBody) (0 + 4) = some raw
          ∧ (⟨true, ⟨truncatedMetaBody, 9, 9, none, none, []⟩, 0, 13⟩ : ParseResult).songData
              = 0 + 8 + SwapLong raw)
      ∧ ∀ (buf : List Nat) (p : Nat), (∀ b ∈ buf.drop p, 128 ≤ b % 256) →
          GetVLQ buf p = none :=
  Parse_never_rejects MIDITrack.new 480 0 (trackChunk truncatedMetaBody) 0
    ⟨true, ⟨truncatedMetaBody, 9, 9, none, none, []⟩, 0, 13⟩ (by decide) (by decide)

/-! ## Meta and system-exclusive events -/

set_option maxRecDepth 100000 in
/-- C15: in `longMetaBody` the status byte FF stands at offset 1 and the length field takes
the 2 bytes 81 00, which encode 128; the data are the bytes 5 to 132 and the next event
starts at offset 133. The code decodes the length 128 but sets `data` to offset 4, the
second byte of the length field, and resumes at offset 132, the last data byte: the note-on
that follows is never stored. In `longSysexBody` (status byte F0 at offset 1, data from
offset 4, next event at offset 132) it sets `data` to offset 3 and resumes at offset 131. -/
theorem long_length_misplaces_data :
    (parseStep 480 (ParseState.init MIDITrack.new longMetaBody 0)).map
        (fun s => (s.param1, s.length, s.data, s.track.m_event)) = some (1, 128, some 4, 132)
      ∧ (parseBody 480 0 longMetaBody).map (fun s => s.track.m_map) = some []
      ∧ (parseStep 480 (ParseState.init MIDITrack.new longSysexBody 0)).map
          (fun s => (s.length, s.data, s.track.m_event)) = some (128, some 3, 131) := by
  decide

/-! ## End of track -/

set_option maxRecDepth 100000 in
/-- C16 (counterexample): `afterEndBody` holds the marker FF 2F 00 followed by a tempo meta
event and a note-on. `Parse` decodes both: the tempo ends at 500000 and the map holds the
note-on of tick 10 under key 682, whereas the same bytes cut off right after the marker
(`emptyTrackBody`) leave the tempo at 0 and the map empty. -/
theorem decoding_continues_after_end_of_track :
    (parseBody 480 0 afterEndBody).map
        (fun s => (s.tempo, s.track.m_map.map (fun p => (p.1, p.2.m_time, p.2.m_status))))
        = some (500000, [(682, 10, 9)])
      ∧ afterEndBody.take 4 = emptyTrackBody
      ∧ (parseBody 480 0 emptyTrackBody).map (fun s => (s.tempo, s.track.m_map))
        = some (0, []) := by
  decide

/-- C16 (amended): the end-of-track marker does not stop the decoding. An iteration that
finds a delta-time followed by FF 2F and a length `len` leaves the map, the names and the
tempo as they are, sets the cursor `3 + len` bytes after the status byte (right after the
marker for FF 2F 00), and the loop goes on from there under its usual condition: decoding
ends only when the cursor has reached the declared length. -/
theorem end_of_track_continues (division length fuel : Nat) (s : ParseState)
    (dt p len q : Nat)
    (hv : GetVLQ s.track.m_eventBuffer s.track.m_event = some (dt, p))
    (hff : readByte s.track.m_eventBuffer p = some 0xFF)
    (h2f : readByte s.track.m_eventBuffer (p + 1) = some 0x2F)
    (hlen : GetVLQ s.track.m_eventBuffer (p + 2) = some (len, q))
    (hcond : s.track.m_event % 2 ^ 32 < length) :
    parseStep division s = some
        { s with
          deltatime := dt, runtime := (s.runtime + dt) % 2 ^ 32,
          status := 0xF, channel := 0xF, param1 := 0x2F, length := len,
          data := some (p + 3),
          track := { s.track with m_event := p + 3 + len, m_nextEvent := p + 3 + len } }
      ∧ parseLoop division length (fuel + 1) s = parseLoop division length fuel
        { s with
          deltatime := dt, runtime := (s.runtime + dt) % 2 ^ 32,
          status := 0xF, channel := 0xF, param1 := 0x2F, length := len,
          data := some (p + 3),
          track := { s.track with m_event := p + 3 + len, m_nextEvent := p + 3 + len } } := by
  have hstep : parseStep division s = some
      { s with
        deltatime := dt, runtime := (s.runtime + dt) % 2 ^ 32,
        status := 0xF, channel := 0xF, param1 := 0x2F, length := len,
        data := some (p + 3),
        track := { s.track with m_event := p + 3 + len, m_nextEvent := p + 3 + len } } := by
    have h1 : (255 : Nat) >>> 4 = 15 := by decide
    have h2 : (255 : Nat) &&& 15 = 15 := by decide
    simp [parseStep, decodeEvent, handleEvent, hv, hff, h2f, hlen, h1, h2]
  refine ⟨hstep, ?_⟩
  simp only [parseLoop, hcond, if_true, hstep, Option.some_bind]

set_option maxRecDepth 100000 in
theorem end_of_track_continues_witness :
    parseStep 480 (ParseState.init MIDITrack.new afterEndBody 0) = some
        { ParseState.init MIDITrack.new afterEndBody 0 with
          deltatime := 0,
          runtime := ((ParseState.init MIDITrack.new afterEndBody 0).runtime + 0) % 2 ^ 32,
          status := 0xF, channel := 0xF, param1 := 0x2F, length := 0,
          data := some (1 + 3),
          track := { (ParseState.init MIDITrack.new afterEndBody 0).track with
            m_event := 1 + 3 + 0, m_nextEvent := 1 + 3 + 0 } }
      ∧ parseLoop 480 afterEndBody.length (14 + 1) (ParseState.init MIDITrack.new afterEndBody 0)
        = parseLoop 480 afterEndBody.length 14
        { ParseState.init MIDITrack.new afterEndBody 0 with
          deltatime := 0,
          runtime := ((ParseState.init MIDITrack.new afterEndBody 0).runtime + 0) % 2 ^ 32,
          status := 0xF, channel := 0xF, param1 := 0x2F, length := 0,
          data := some (1 + 3),
          track := { (ParseState.init MIDITrack.new afterEndBody 0).track with
            m_event := 1 + 3 + 0, m_nextEvent := 1 + 3 + 0 } } :=
  end_of_track_continues 480 afterEndBody.length 14
    (ParseState.init MIDITrack.new afterEndBody 0) 0 1 0 4
    (by decide) (by decide) (by decide) (by decide) (by decide)

/-! ## Track and instrument names -/

set_option maxRecDepth 100000 in
/-- C17: in `nameThenNoteBody` the track-name meta event holds the 5 data bytes "Drums" and
is followed by an event with delta-time 0x60. `GetTrackName` returns 9 bytes: "Drums" and
the bytes 60 90 3C 64 of the next event, up to the first zero byte, because the name is
copied as a NUL-terminated string from `data`. In `longNameBody` the instrument name of 300
letters is not cut to 255: the copy violates the `strcpy_s` constraint and the run is
undefined. -/
theorem track_name_runs_into_next_event :
    (parseBody 480 0 nameThenNoteBody).map (fun s => s.track.GetTrackName)
        = some (some [0x44, 0x72, 0x75, 0x6D, 0x73, 0x60, 0x90, 0x3C, 0x64])
      ∧ (nameThenNoteBody.drop 4).take 5 = [0x44, 0x72, 0x75, 0x6D, 0x73]
      ∧ parseBody 480 0 longNameBody = none
      ∧ (parseBody 480 0 drumsBody).map (fun s => s.track.GetTrackName)
        = some (some [0x44, 0x72, 0x75, 0x6D, 0x73]) := by
  decide

/-! ## The effect of `Update` while playing -/

theorem mapInsert_find_self {α : Type} (l : List (Nat × α)) (key : Nat) (value : α) :
    (mapInsert l key value).find? (fun p => p.1 == key) = some (key, value) := by
  induction l with
  | nil => simp [mapInsert]
  | cons q rest ih =>
    obtain ⟨k, v⟩ := q
    simp only [mapInsert]
    split_ifs with h1 h2
    · simp
    · simp
    · have hne : (k == key) = false := by
        simp only [beq_eq_false_iff_ne, ne_eq]
        omega
      simp [List.find?_cons, hne, ih]

theorem mapInsert_find_ne {α : Type} (l : List (Nat × α)) (key j : Nat) (value : α)
    (hj : j ≠ key) :
    (mapInsert l key value).find? (fun p => p.1 == j) = l.find? (fun p => p.1 == j) := by
  have hkj : (key == j) = false := by
    simp only [beq_eq_false_iff_ne, ne_eq]
    omega
  induction l with
  | nil => simp [mapInsert, hkj]
  | cons q rest ih =>
    obtain ⟨k, v⟩ := q
    simp only [mapInsert]
    split_ifs with h1 h2
    · simp [List.find?_cons, hkj]
    · subst h2
      simp [List.find?_cons, hkj]
    · simp [List.find?_cons, ih]

theorem markFired_of_gt (tick : Nat) (p : Nat × MIDIEvent) (h : tick < p.1) :
    markFired tick p = p := by
  have : ¬ p.1 ≤ tick := by omega
  simp [markFired, this]

/-- On a map with ascending keys the scan sets the flag of every selected event with key at
most `tick` and of no other -/
theorem scanTrack_map (tick i : Nat) (m : List (Nat × MIDIEvent)) :
    ∀ (cur : List (Nat × MIDIEvent)), keysAscending m →
      (scanTrack tick i m cur).1 = m.map (markFired tick) := by
  induction m with
  | nil =>
    intro cur _
    rfl
  | cons q rest ih =>
    intro cur hs
    obtain ⟨k, e⟩ := q
    simp only [keysAscending, List.pairwise_cons] at hs
    obtain ⟨hk, hrest⟩ := hs
    by_cases hkt : k ≤ tick
    · cases hf : fires e
      · simp [scanTrack, hkt, hf, markFired, ih _ hrest]
      · simp [scanTrack, hkt, hf, markFired, ih _ hrest]
    · have hall : rest.map (markFired tick) = rest := by
        rw [List.map_congr_left (g := id)]
        · simp
        · intro p hp
          exact markFired_of_gt tick p (by have := hk p hp; simp only at this; omega)
      simp [scanTrack, hkt, markFired, hall]

theorem scanTrack_find_ne (tick i j : Nat) (hj : j ≠ i) (m : List (Nat × MIDIEvent)) :
    ∀ (cur : List (Nat × MIDIEvent)),
      (scanTrack tick i m cur).2.find? (fun p => p.1 == j) = cur.find? (fun p => p.1 == j) := by
  induction m with
  | nil =>
    intro cur
    rfl
  | cons q rest ih =>
    intro cur
    obtain ⟨k, e⟩ := q
    by_cases hkt : k ≤ tick
    · cases hf : fires e
      · simp [scanTrack, hkt, hf, ih]
      · by_cases h9 : e.m_status = 0x9
        · simp [scanTrack, hkt, hf, h9, ih, mapInsert_find_ne _ _ _ _ hj]
        · simp [scanTrack, hkt, hf, h9, ih]
    · simp [scanTrack, hkt]

theorem newNoteOns_of_gt (tick : Nat) (m : List (Nat × MIDIEvent))
    (h : ∀ p ∈ m, tick < p.1) : newNoteOns tick m = [] := by
  simp only [newNoteOns, List.filter_eq_nil_iff]
  intro p hp
  have := h p hp
  have hn : ¬ p.1 ≤ tick := by omega
  simp [hn]

/-- On a map with ascending keys the entry of track `i` in the current-events map after the
scan is the last note-on the scan has fired, and the entry from before when it has fired
none -/
theorem scanTrack_find_self (tick i : Nat) (m : List (Nat × MIDIEvent)) :
    ∀ (cur : List (Nat × MIDIEvent)), keysAscending m →
      (scanTrack tick i m cur).2.find? (fun p => p.1 == i) =
        (newNoteOns tick m).getLast?.elim (cur.find? (fun p => p.1 == i))
          (fun q => some (i, { q.2 with m_processed := true })) := by
  induction m with
  | nil =>
    intro cur _
    rfl
  | cons q rest ih =>
    intro cur hs
    obtain ⟨k, e⟩ := q
    have hs0 := hs
    simp only [keysAscending, List.pairwise_cons] at hs
    obtain ⟨hk, hrest⟩ := hs
    by_cases hkt : k ≤ tick
    · cases hf : fires e
      · simp [scanTrack, hkt, hf, ih _ hrest, newNoteOns]
      · by_cases h9 : e.m_status = 0x9
        · have hcons : newNoteOns tick ((k, e) :: rest) = (k, e) :: newNoteOns tick rest := by
            simp [newNoteOns, hkt, hf, h9]
          simp only [scanTrack, hkt, if_true, hf, if_pos h9, ih _ hrest, hcons]
          cases hl : newNoteOns tick rest with
          | nil => simp [mapInsert_find_self]
          | cons a l =>
            have hx := List.getLast?_eq_getLast (a :: l) (List.cons_ne_nil _ _)
            rw [List.getLast?_cons_cons, hx]
            simp
        · have hcons : newNoteOns tick ((k, e) :: rest) = newNoteOns tick rest := by
            simp [newNoteOns, h9]
          simp only [scanTrack, hkt, if_true, hf, if_neg h9, ih _ hrest, hcons]
    · have hnil : newNoteOns tick ((k, e) :: rest) = [] := by
        apply newNoteOns_of_gt
        intro p hp
        rcases List.mem_cons.mp hp with hp | hp
        · subst hp
          simp only
          omega
        · have := hk p hp
          simp only at this
          omega
      simp [scanTrack, hkt, hnil]

theorem scanTracks_map (tick : Nat) (ts : List MIDITrack) :
    ∀ (i : Nat) (cur : List (Nat × MIDIEvent)), (∀ t ∈ ts, keysAscending t.m_map) →
      (scanTracks tick i ts cur).1
        = ts.map (fun t => { t with m_map := t.m_map.map (markFired tick) }) := by
  induction ts with
  | nil =>
    intro i cur _
    rfl
  | cons t ts ih =>
    intro i cur hs
    simp only [scanTracks, List.map_cons,
      scanTrack_map tick i t.m_map cur (hs t (List.mem_cons_self _ _)),
      ih _ _ (fun t1 h1 => hs t1 (List.mem_cons_of_mem _ h1))]

theorem scanTracks_find_lt (tick j : Nat) (ts : List MIDITrack) :
    ∀ (i : Nat) (cur : List (Nat × MIDIEvent)), j < i →
      (scanTracks tick i ts cur).2.find? (fun p => p.1 == j) = cur.find? (fun p => p.1 == j) := by
  induction ts with
  | nil =>
    intro i cur _
    rfl
  | cons t ts ih =>
    intro i cur hj
    simp only [scanTracks]
    rw [ih (i + 1) _ (by omega), scanTrack_find_ne tick i j (by omega)]

theorem scanTracks_find (tick : Nat) (ts : List MIDITrack) :
    ∀ (i : Nat) (cur : List (Nat × MIDIEvent)) (n : Nat), (∀ t ∈ ts, keysAscending t.m_map) →
      (scanTracks tick i ts cur).2.find? (fun p => p.1 == i + n) =
        (ts[n]?.bind (fun t => (newNoteOns tick t.m_map).getLast?)).elim
          (cur.find? (fun p => p.1 == i + n))
          (fun q => some (i + n, { q.2 with m_processed := true })) := by
  induction ts with
  | nil =>
    intro i cur n _
    simp [scanTracks]
  | cons t ts ih =>
    intro i cur n hs
    have ht := hs t (List.mem_cons_self _ _)
    have hts : ∀ t1 ∈ ts, keysAscending t1.m_map :=
      fun t1 h1 => hs t1 (List.mem_cons_of_mem _ h1)
    simp only [scanTracks]
    cases n with
    | zero =>
      rw [Nat.add_zero, scanTracks_find_lt tick i ts (i + 1) _ (by omega),
        scanTrack_find_self tick i t.m_map cur ht]
      simp
    | succ n =>
      have e : i + (n + 1) = i + 1 + n := by omega
      rw [e, ih (i + 1) _ n hts, scanTrack_find_ne tick i (i + 1 + n) (by omega)]
      simp

theorem pairwise_getLast {α : Type} (R : α → α → Prop) (l : List α) :
    ∀ (last : α), l.Pairwise R → l.getLast? = some last → ∀ q ∈ l, q = last ∨ R q last := by
  induction l with
  | nil =>
    intro last _ h
    simp at h
  | cons a rest ih =>
    intro last hp h q hq
    simp only [List.pairwise_cons] at hp
    cases rest with
    | nil =>
      simp only [List.getLast?_singleton, Option.some.injEq] at h
      simp only [List.mem_singleton] at hq
      exact Or.inl (hq.trans h)
    | cons b rest2 =>
      rw [List.getLast?_cons_cons] at h
      rcases List.mem_cons.mp hq with hq | hq
      · right
        rw [hq]
        exact hp.1 last (List.mem_of_mem_getLast? (Option.mem_def.mpr h))
      · exact ih last hp.2 h q hq

theorem scenario_Update_tie :
    (scenarioSong (1 / 2 - 1 / 2 ^ 54) false []).Update (1 / 2 ^ 55)
      = some (scenarioSong (1 / 2) true [(0, scenarioNoteOn true)]) := by
  have h := scenario_Update (1 / 2 - 1 / 2 ^ 54) (1 / 2 ^ 55) (1 / 2) false []
    roundDouble_tie_half (by norm_num) (by norm_num)
  have hd : (1 : ℚ) ≤ 2 * (1 / 2) := by norm_num
  rw [decide_eq_true hd, if_pos ⟨rfl, hd⟩] at h
  exact h

/-- C14 (counterexample): in the scenario song with the clock at 1/2 - 2^-54, a `double`, the
call `Update(2^-55)` rounds the sum 1/2 - 2^-55 to the clock 1/2, works with tick 32768 and
fires and reports the note-on under key 32768, while the floor of the exact
`(playTime + delta) * 65536` is 32767, below that key. -/
theorem Update_tick_above_exact_floor :
    roundDouble (1 / 2 - 1 / 2 ^ 54) = some (1 / 2 - 1 / 2 ^ 54)
      ∧ roundDouble (1 / 2 ^ 55) = some (1 / 2 ^ 55)
      ∧ (scenarioSong (1 / 2 - 1 / 2 ^ 54) false []).Update (1 / 2 ^ 55)
          = some (scenarioSong (1 / 2) true [(0, scenarioNoteOn true)])
      ∧ (scenarioSong (1 / 2) true [(0, scenarioNoteOn true)]).IsNoteOn 0 = some (60, 100)
      ∧ toUInt32 ((1 / 2 : ℚ) * 65536) = some 32768
      ∧ ⌊((1 / 2 - 1 / 2 ^ 54 : ℚ) + 1 / 2 ^ 55) * 65536⌋ = 32767 := by
  refine ⟨?_, ?_, ?_, by decide, ?_, ?_⟩
  · have h := roundDouble_below_half
    rw [zero_add] at h
    exact h
  · have h := roundDouble_dyadic 1 55 (by norm_num) (by norm_num)
    norm_num at h ⊢
    exact h
  · exact scenario_Update_tie
  · have hc : -1 < (1 / 2 : ℚ) * 65536 ∧ (1 / 2 : ℚ) * 65536 < 2 ^ 32 := by
      constructor <;> norm_num
    have hf : ⌊(1 / 2 : ℚ) * 65536⌋ = 32768 := by
      rw [Int.floor_eq_iff]
      constructor <;> norm_num
    simp only [toUInt32, hc, and_self, if_true, hf]
    rfl
  · rw [Int.floor_eq_iff]
    constructor <;> norm_num

/-- C14 (amended): for a playing song whose maps have ascending keys, as every `std::map`
has, an `Update(delta)` that is defined takes as its new clock the `double` nearest to
`playTime + delta` and works with the tick obtained by converting that clock times 65536,
which is its floor when the clock is not negative. It sets the fired flag of exactly the
entries with key at most the tick whose event was unfired, has a status other than 0x8
and a channel other than 0xF, and leaves every other entry as it is. Afterwards
`IsNoteOn(i)` returns the parameters of the last of the note-ons of track `i` fired by this
call, which has the largest key among them, and returns false when the call fired no
note-on of track `i` or when `i` is not a track index. -/
theorem Update_effect (s s1 : MIDISong) (d : ℚ) (hp : s.m_isPlaying = some true)
    (hs : ∀ t ∈ s.m_tracks, keysAscending t.m_map) (h : s.Update d = some s1) :
    ∃ (p : ℚ) (tick : Nat), roundDouble (s.m_playTime + d) = some p
      ∧ toUInt32 (p * 65536) = some tick
      ∧ (0 ≤ p → (tick : ℤ) = ⌊p * 65536⌋)
      ∧ s1.m_playTime = p
      ∧ s1.m_tracks = s.m_tracks.map (fun t => { t with m_map := t.m_map.map (markFired tick) })
      ∧ (∀ i, s1.IsNoteOn i = s.m_tracks[i]?.bind (fun t =>
          (newNoteOns tick t.m_map).getLast?.map (fun q => (q.2.m_param1, q.2.m_param2))))
      ∧ (∀ t ∈ s.m_tracks, ∀ last, (newNoteOns tick t.m_map).getLast? = some last →
          ∀ q ∈ newNoteOns tick t.m_map, q.1 ≤ last.1) := by
  obtain ⟨p, tick, hr, htick, rfl⟩ := Update_playing s s1 d hp h
  refine ⟨p, tick, hr, htick, ?_, rfl, scanTracks_map tick s.m_tracks 0 [] hs, ?_, ?_⟩
  · intro h0
    simp only [toUInt32] at htick
    split_ifs at htick
    simp only [Option.some.injEq] at htick
    rw [← htick]
    exact Int.toNat_of_nonneg (Int.floor_nonneg.mpr (by positivity))
  · intro i
    have hfind := scanTracks_find tick s.m_tracks 0 [] i hs
    rw [Nat.zero_add] at hfind
    simp only [MIDISong.IsNoteOn, scanTracks_map tick s.m_tracks 0 [] hs, List.length_map,
      hfind, List.find?_nil]
    by_cases hi : i < s.m_tracks.length
    · have hge : ¬ i ≥ s.m_tracks.length := by omega
      rw [if_neg hge, List.getElem?_eq_getElem hi]
      simp only [Option.some_bind]
      cases (newNoteOns tick s.m_tracks[i].m_map).getLast? <;> rfl
    · have hge : i ≥ s.m_tracks.length := by omega
      rw [if_pos hge, List.getElem?_eq_none (by omega)]
      rfl
  · intro t ht last hlast q hq
    have hsorted : (newNoteOns tick t.m_map).Pairwise (fun a b => a.1 < b.1) :=
      List.Pairwise.filter _ (hs t ht)
    rcases pairwise_getLast _ _ last hsorted hlast q hq with h1 | h1
    · rw [h1]
    · exact Nat.le_of_lt h1

theorem scenarioSong_ascending (pt : ℚ) (b : Bool) (cur : List (Nat × MIDIEvent)) :
    ∀ t ∈ (scenarioSong pt b cur).m_tracks, keysAscending t.m_map := by
  intro t ht
  simp only [scenarioSong, List.mem_singleton] at ht
  subst ht
  simp [keysAscending, scenarioTrack]

theorem Update_effect_witness :
    ∃ (p : ℚ) (tick : Nat),
      roundDouble ((scenarioSong (1 / 2 - 1 / 2 ^ 54) false []).m_playTime + 1 / 2 ^ 55) = some p
      ∧ toUInt32 (p * 65536) = some tick
      ∧ (0 ≤ p → (tick : ℤ) = ⌊p * 65536⌋)
      ∧ (scenarioSong (1 / 2) true [(0, scenarioNoteOn true)]).m_playTime = p
      ∧ (scenarioSong (1 / 2) true [(0, scenarioNoteOn true)]).m_tracks
          = (scenarioSong (1 / 2 - 1 / 2 ^ 54) false []).m_tracks.map
              (fun t => { t with m_map := t.m_map.map (markFired tick) })
      ∧ (∀ i, (scenarioSong (1 / 2) true [(0, scenarioNoteOn true)]).IsNoteOn i
          = (scenarioSong (1 / 2 - 1 / 2 ^ 54) false []).m_tracks[i]?.bind (fun t =>
              (newNoteOns tick t.m_map).getLast?.map (fun q => (q.2.m_param1, q.2.m_param2))))
      ∧ (∀ t ∈ (scenarioSong (1 / 2 - 1 / 2 ^ 54) false []).m_tracks, ∀ last,
          (newNoteOns tick t.m_map).getLast? = some last →
          ∀ q ∈ newNoteOns tick t.m_map, q.1 ≤ last.1) :=
  Update_effect (scenarioSong (1 / 2 - 1 / 2 ^ 54) false [])
    (scenarioSong (1 / 2) true [(0, scenarioNoteOn true)]) (1 / 2 ^ 55) rfl
    (scenarioSong_ascending (1 / 2 - 1 / 2 ^ 54) false []) scenario_Update_tie

/-! ## Ascending keys -/

theorem mapInsert_lower {α : Type} (l : List (Nat × α)) (key : Nat) (value : α) (k : Nat)
    (hl : ∀ p ∈ l, k < p.1) (hk : k < key) : ∀ p ∈ mapInsert l key value, k < p.1 := by
  intro p hp
  rcases mem_mapInsert l key value p hp with h | h
  · exact hl p h
  · rw [h]
    exact hk

/-- The assignment `m[key] = value` keeps the keys ascending -/
theorem mapInsert_ascending {α : Type} (l : List (Nat × α)) (key : Nat) (value : α)
    (h : l.Pairwise (fun a b => a.1 < b.1)) :
    (mapInsert l key value).Pairwise (fun a b => a.1 < b.1) := by
  induction l with
  | nil => simp [mapInsert]
  | cons q rest ih =>
    obtain ⟨k, v⟩ := q
    simp only [List.pairwise_cons] at h
    obtain ⟨hk, hrest⟩ := h
    simp only [mapInsert]
    split_ifs with h1 h2
    · simp only [List.pairwise_cons, List.mem_cons]
      refine ⟨?_, hk, hrest⟩
      intro p hp
      rcases hp with hp | hp
      · rw [hp]
        exact h1
      · exact Nat.lt_trans h1 (hk p hp)
    · subst h2
      simp only [List.pairwise_cons]
      exact ⟨hk, hrest⟩
    · simp only [List.pairwise_cons]
      exact ⟨mapInsert_lower rest key value k hk (by omega), ih hrest⟩

/-- An iteration of the decode loop keeps the keys of the map ascending -/
theorem parseStep_ascending (division : Nat) (s s1 : ParseState)
    (h : parseStep division s = some s1) (hs : keysAscending s.track.m_map) :
    keysAscending s1.track.m_map := by
  rcases (parseStep_effect division s s1 h).2.2.2.1 with e | ⟨key, e, _, _, k3, _⟩
  · rw [e]
    exact hs
  · rw [k3]
    exact mapInsert_ascending _ _ _ hs

/-! ## The key grows with the tick count -/

theorem scaleUp_spec (fuel : Nat) : ∀ (n d sc : Nat),
    ∃ a, a ≤ fuel ∧ (scaleUp fuel n d sc).2 = sc * 2 ^ a ∧ (scaleUp fuel n d sc).1 = n * 2 ^ a
      ∧ (2 ^ 52 * d ≤ n * 2 ^ a ∨ a = fuel) ∧ (0 < a → n * 2 ^ a < 2 ^ 53 * d) := by
  induction fuel with
  | zero =>
    intro n d sc
    exact ⟨0, le_refl _, by simp [scaleUp], by simp [scaleUp], Or.inr rfl, by simp⟩
  | succ fuel ih =>
    intro n d sc
    by_cases hlt : n < 2 ^ 52 * d
    · obtain ⟨a, ha, h1, h2, h3, h4⟩ := ih (2 * n) d (2 * sc)
      have e : ∀ k : Nat, 2 * k * 2 ^ a = k * 2 ^ (a + 1) := fun k => by rw [pow_succ]; ring
      refine ⟨a + 1, by omega, ?_, ?_, ?_, ?_⟩
      · rw [scaleUp, if_pos hlt, h1, e]
      · rw [scaleUp, if_pos hlt, h2, e]
      · rw [← e]
        rcases h3 with h3 | h3
        · exact Or.inl h3
        · exact Or.inr (by omega)
      · intro _
        rw [← e]
        rcases Nat.eq_zero_or_pos a with h0 | h0
        · subst h0
          simp only [pow_zero, mul_one]
          omega
        · exact h4 h0
    · refine ⟨0, by omega, ?_, ?_, ?_, ?_⟩
      · rw [scaleUp, if_neg hlt]; simp
      · rw [scaleUp, if_neg hlt]; simp
      · left; simp only [pow_zero, mul_one]; omega
      · intro h; omega

theorem scaleDown_spec (fuel : Nat) : ∀ (n d sc : Nat),
    ∃ b, b ≤ fuel ∧ (scaleDown fuel n d sc).2 = sc * 2 ^ b ∧ (scaleDown fuel n d sc).1 = d * 2 ^ b
      ∧ (n < 2 ^ 53 * (d * 2 ^ b) ∨ b = fuel) ∧ (0 < b → 2 ^ 52 * (d * 2 ^ b) ≤ n) := by
  induction fuel with
  | zero =>
    intro n d sc
    exact ⟨0, le_refl _, by simp [scaleDown], by simp [scaleDown], Or.inr rfl, by simp⟩
  | succ fuel ih =>
    intro n d sc
    by_cases hle : 2 ^ 53 * d ≤ n
    · obtain ⟨b, hb, h1, h2, h3, h4⟩ := ih n (2 * d) (2 * sc)
      have e : ∀ k : Nat, 2 * k * 2 ^ b = k * 2 ^ (b + 1) := fun k => by rw [pow_succ]; ring
      refine ⟨b + 1, by omega, ?_, ?_, ?_, ?_⟩
      · rw [scaleDown, if_pos hle, h1, e]
      · rw [scaleDown, if_pos hle, h2, e]
      · rw [← e]
        rcases h3 with h3 | h3
        · exact Or.inl h3
        · exact Or.inr (by omega)
      · intro _
        rw [← e]
        rcases Nat.eq_zero_or_pos b with h0 | h0
        · subst h0
          simp only [pow_zero, mul_one]
          omega
        · exact h4 h0
    · refine ⟨0, by omega, ?_, ?_, ?_, ?_⟩
      · rw [scaleDown, if_neg hle]; simp
      · rw [scaleDown, if_neg hle]; simp
      · left; simp only [pow_zero, mul_one]; omega
      · intro h; omega

theorem roundDbl_unfold (n d : Nat) (hn : 0 < n) (hd : 0 < d) (up dn : Nat × Nat)
    (hup : scaleUp 1100 n d 1 = up) (hdn : scaleDown 1100 up.1 d 1 = dn) :
    roundDbl n d = ⟨(if 2 * (up.1 % dn.1) < dn.1 then up.1 / dn.1
      else if dn.1 < 2 * (up.1 % dn.1) then up.1 / dn.1 + 1
      else if (up.1 / dn.1) % 2 = 0 then up.1 / dn.1 else up.1 / dn.1 + 1) * dn.2, up.2⟩ := by
  have hne : ¬ (n = 0 ∨ d = 0) := by omega
  subst hup hdn
  rw [roundDbl, if_neg hne]

theorem roundDbl_spec_aux (F : Nat) (n d a b : Nat) (r : Dbl) (hd : 0 < d) (ha : a ≤ F) (hb : b ≤ F)
    (hr : r = ⟨(if 2 * ((n * 2 ^ a) % (d * 2 ^ b)) < d * 2 ^ b then (n * 2 ^ a) / (d * 2 ^ b)
      else if d * 2 ^ b < 2 * ((n * 2 ^ a) % (d * 2 ^ b)) then (n * 2 ^ a) / (d * 2 ^ b) + 1
      else if ((n * 2 ^ a) / (d * 2 ^ b)) % 2 = 0 then (n * 2 ^ a) / (d * 2 ^ b)
      else (n * 2 ^ a) / (d * 2 ^ b) + 1) * 2 ^ b, 2 ^ a⟩)
    (hu1 : 2 ^ 52 * d ≤ n * 2 ^ a ∨ a = F) (hu2 : 0 < a → n * 2 ^ a < 2 ^ 53 * d)
    (hd1 : n * 2 ^ a < 2 ^ 53 * (d * 2 ^ b) ∨ b = F)
    (hd2 : 0 < b → 2 ^ 52 * (d * 2 ^ b) ≤ n * 2 ^ a) :
    ∃ E : Nat, E ≤ 2 * F ∧ 0 < r.den ∧
      r.val * 2 ^ F = (rne ((n : ℚ) / d * 2 ^ F / 2 ^ E) : ℚ) * 2 ^ E ∧
      (2 ^ 52 * 2 ^ E ≤ (n : ℚ) / d * 2 ^ F ∨ E = 0) ∧
      ((n : ℚ) / d * 2 ^ F < 2 ^ 53 * 2 ^ E ∨ E = 2 * F) := by
  have hBpos : 0 < 2 ^ b := Nat.pos_pow_of_pos _ (by norm_num)
  have hab : a = 0 ∨ b = 0 := by
    rcases Nat.eq_zero_or_pos a with h | h
    · exact Or.inl h
    · right
      rcases Nat.eq_zero_or_pos b with h0 | h0
      · exact h0
      · exfalso
        have h1 := hu2 h
        have h2 := hd2 h0
        have h3 : 2 ≤ 2 ^ b := by
          calc 2 = 2 ^ 1 := by norm_num
            _ ≤ 2 ^ b := Nat.pow_le_pow_right (by norm_num) h0
        have h4 : d * 2 ≤ d * 2 ^ b := Nat.mul_le_mul_left d h3
        omega
  have hDpos : 0 < d * 2 ^ b := Nat.mul_pos hd hBpos
  have hrel : (2 : ℚ) ^ (F + b - a) * 2 ^ a = 2 ^ F * 2 ^ b := by
    rw [← pow_add, ← pow_add]
    congr 1
    omega
  have hE : (0 : ℚ) < 2 ^ (F + b - a) := by positivity
  have hA : (0 : ℚ) < 2 ^ a := by positivity
  have hB : (0 : ℚ) < 2 ^ b := by positivity
  have hdq : (0 : ℚ) < d := by exact_mod_cast hd
  have hDq : (0 : ℚ) < ((d * 2 ^ b : Nat) : ℚ) := by exact_mod_cast hDpos
  have hX : (n : ℚ) / d * 2 ^ F
      = ((n * 2 ^ a : Nat) : ℚ) / ((d * 2 ^ b : Nat) : ℚ) * 2 ^ (F + b - a) := by
    push_cast
    field_simp
    linear_combination (-(n : ℚ) * d) * hrel
  have hval : r.val * 2 ^ F
      = (rne (((n * 2 ^ a : Nat) : ℚ) / ((d * 2 ^ b : Nat) : ℚ)) : ℚ) * 2 ^ (F + b - a) := by
    rw [rne_div _ _ hDpos, hr]
    generalize (if 2 * ((n * 2 ^ a) % (d * 2 ^ b)) < d * 2 ^ b then (n * 2 ^ a) / (d * 2 ^ b)
      else if d * 2 ^ b < 2 * ((n * 2 ^ a) % (d * 2 ^ b)) then (n * 2 ^ a) / (d * 2 ^ b) + 1
      else if ((n * 2 ^ a) / (d * 2 ^ b)) % 2 = 0 then (n * 2 ^ a) / (d * 2 ^ b)
      else (n * 2 ^ a) / (d * 2 ^ b) + 1) = m
    rw [Int.cast_natCast]
    show ((m * 2 ^ b : Nat) : ℚ) / ((2 ^ a : Nat) : ℚ) * 2 ^ F = (m : ℚ) * 2 ^ (F + b - a)
    push_cast
    field_simp
    linear_combination (-(m : ℚ)) * hrel
  refine ⟨F + b - a, by omega, ?_, ?_, ?_, ?_⟩
  · rw [hr]
    exact Nat.pos_pow_of_pos _ (by norm_num)
  · rw [hval, hX, mul_div_assoc, div_self (ne_of_gt hE), mul_one]
  · rw [hX]
    have c : 2 ^ 52 * (d * 2 ^ b) ≤ n * 2 ^ a ∨ (a = F ∧ b = 0) := by
      rcases Nat.eq_zero_or_pos b with h0 | h0
      · subst h0
        rcases hu1 with h | h
        · left; simpa using h
        · right; exact ⟨h, rfl⟩
      · exact Or.inl (hd2 h0)
    rcases c with c | ⟨c1, c2⟩
    · left
      apply mul_le_mul_of_nonneg_right _ (le_of_lt hE)
      rw [le_div_iff₀ hDq]
      exact_mod_cast c
    · right; omega
  · rw [hX]
    rcases hd1 with c | c
    · left
      apply mul_lt_mul_of_pos_right _ hE
      rw [div_lt_iff₀ hDq]
      exact_mod_cast c
    · right
      rcases hab with h | h <;> omega

theorem roundDbl_spec (n d : Nat) (hn : 0 < n) (hd : 0 < d) :
    ∃ E : Nat, E ≤ 2 * 1100 ∧ 0 < (roundDbl n d).den ∧
      (roundDbl n d).val * 2 ^ 1100 = (rne ((n : ℚ) / d * 2 ^ 1100 / 2 ^ E) : ℚ) * 2 ^ E ∧
      (2 ^ 52 * 2 ^ E ≤ (n : ℚ) / d * 2 ^ 1100 ∨ E = 0) ∧
      ((n : ℚ) / d * 2 ^ 1100 < 2 ^ 53 * 2 ^ E ∨ E = 2 * 1100) := by
  obtain ⟨a, ha, hS, hN, hu1, hu2⟩ := scaleUp_spec 1100 n d 1
  obtain ⟨b, hb, hR, hD, hd1, hd2⟩ := scaleDown_spec 1100 (scaleUp 1100 n d 1).1 d 1
  rw [hN] at hd1 hd2
  have hr := roundDbl_unfold n d hn hd _ _ rfl rfl
  rw [hR, hD, hN, hS, one_mul, one_mul] at hr
  exact roundDbl_spec_aux 1100 n d a b _ hd ha hb hr hu1 hu2 hd1 hd2

theorem Dbl.val_nonneg (a : Dbl) : 0 ≤ a.val := by
  unfold Dbl.val
  positivity

theorem roundDbl_den_pos (n d : Nat) : 0 < (roundDbl n d).den := by
  rcases Nat.eq_zero_or_pos n with hn | hn
  · simp [roundDbl, hn]
  · rcases Nat.eq_zero_or_pos d with hd | hd
    · simp [roundDbl, hd]
    · obtain ⟨E, _, h, _⟩ := roundDbl_spec n d hn hd
      exact h

theorem roundDbl_mono (n1 d1 n2 d2 : Nat) (hd1 : 0 < d1) (hd2 : 0 < d2)
    (h : (n1 : ℚ) / d1 ≤ (n2 : ℚ) / d2) : (roundDbl n1 d1).val ≤ (roundDbl n2 d2).val := by
  have hq1 : (0 : ℚ) < d1 := by exact_mod_cast hd1
  have hq2 : (0 : ℚ) < d2 := by exact_mod_cast hd2
  rcases Nat.eq_zero_or_pos n1 with hn1 | hn1
  · have : roundDbl n1 d1 = ⟨0, 1⟩ := by simp [roundDbl, hn1]
    rw [this]
    have h0 : (Dbl.mk 0 1).val = 0 := by simp [Dbl.val]
    rw [h0]
    exact Dbl.val_nonneg _
  · have hn2 : 0 < n2 := by
      rcases Nat.eq_zero_or_pos n2 with h0 | h0
      · exfalso
        subst h0
        have h1 : (0 : ℚ) < (n1 : ℚ) / d1 := div_pos (by exact_mod_cast hn1) hq1
        simp at h
        linarith
      · exact h0
    obtain ⟨Ex, hEx, _, vx, x1, x2⟩ := roundDbl_spec n1 d1 hn1 hd1
    obtain ⟨Ey, hEy, _, vy, y1, y2⟩ := roundDbl_spec n2 d2 hn2 hd2
    have hp : (0 : ℚ) < 2 ^ 1100 := by positivity
    have hXY : (n1 : ℚ) / d1 * 2 ^ 1100 ≤ (n2 : ℚ) / d2 * 2 ^ 1100 :=
      mul_le_mul_of_nonneg_right h (le_of_lt hp)
    have := grid_round_mono 1100 _ _ Ex Ey hXY hEx hEy x1 x2 y1 y2
    rw [← vx, ← vy] at this
    exact le_of_mul_le_mul_right this hp

theorem Dbl.mul_mono (a b c : Dbl) (ha : 0 < a.den) (hb : 0 < b.den) (hc : 0 < c.den)
    (h : a.val ≤ b.val) : (Dbl.mul a c).val ≤ (Dbl.mul b c).val := by
  unfold Dbl.mul
  apply roundDbl_mono _ _ _ _ (Nat.mul_pos ha hc) (Nat.mul_pos hb hc)
  have e : ∀ x : Dbl, ((x.num * c.num : Nat) : ℚ) / ((x.den * c.den : Nat) : ℚ)
      = x.val * c.val := by
    intro x
    unfold Dbl.val
    push_cast
    rw [mul_div_mul_comm]
  rw [e, e]
  exact mul_le_mul_of_nonneg_right h (Dbl.val_nonneg c)

theorem Dbl.div_mono (a b c : Dbl) (ha : 0 < a.den) (hb : 0 < b.den) (hc : 0 < c.num)
    (h : a.val ≤ b.val) : (Dbl.div a c).val ≤ (Dbl.div b c).val := by
  unfold Dbl.div
  apply roundDbl_mono _ _ _ _ (Nat.mul_pos ha hc) (Nat.mul_pos hb hc)
  have e : ∀ x : Dbl, ((x.num * c.den : Nat) : ℚ) / ((x.den * c.num : Nat) : ℚ)
      = x.val * ((c.den : ℚ) / c.num) := by
    intro x
    unfold Dbl.val
    push_cast
    rw [mul_div_mul_comm]
  rw [e, e]
  exact mul_le_mul_of_nonneg_right h (by positivity)

theorem Dbl.mul_den_pos (a b : Dbl) : 0 < (Dbl.mul a b).den := roundDbl_den_pos _ _

theorem Dbl.div_den_pos (a b : Dbl) : 0 < (Dbl.div a b).den := roundDbl_den_pos _ _

theorem castKey_mono (t1 t2 division tempo k1 k2 : Nat) (ht : t1 ≤ t2)
    (h1 : castKey t1 division tempo = some k1) (h2 : castKey t2 division tempo = some k2) :
    k1 ≤ k2 := by
  unfold castKey at h1 h2
  by_cases hd : division = 0
  · rw [if_pos hd] at h1
    exact absurd h1 (by simp)
  · rw [if_neg hd] at h1 h2
    simp only [] at h1 h2
    have hdp : 0 < division := Nat.pos_of_ne_zero hd
    have e0 : (Dbl.ofNat t1).val ≤ (Dbl.ofNat t2).val := by
      simp only [Dbl.val, Dbl.ofNat]
      simp only [Nat.cast_one, div_one]
      exact_mod_cast ht
    have e1 := Dbl.div_mono _ _ (Dbl.ofNat division) (by simp [Dbl.ofNat]) (by simp [Dbl.ofNat])
      (by simpa [Dbl.ofNat] using hdp) e0
    have e2 := Dbl.mul_mono _ _ (Dbl.ofNat tempo) (Dbl.div_den_pos _ _) (Dbl.div_den_pos _ _)
      (by simp [Dbl.ofNat]) e1
    have e3 := Dbl.div_mono _ _ (Dbl.ofNat 1000000) (Dbl.mul_den_pos _ _) (Dbl.mul_den_pos _ _)
      (by simp [Dbl.ofNat]) e2
    have e4 := Dbl.mul_mono _ _ (Dbl.ofNat 65536) (Dbl.div_den_pos _ _) (Dbl.div_den_pos _ _)
      (by simp [Dbl.ofNat]) e3
    have e5 := Nat.floor_mono e4
    simp only [Dbl.val, Rat.natFloor_natCast_div_natCast] at e5
    split_ifs at h1 h2
    simp only [Option.some.injEq] at h1 h2
    rw [← h1, ← h2]
    exact e5

/-! ## Key order and tick order -/

/-- C18 (counterexample): a track with tempo 1000000, a note-on at tick 480, a tempo change
to 250000 and a note-on at tick 960 is parsed into a map whose key order visits the event of
tick 960 (key 32768) before the event of tick 480 (key 65536): the ticks decrease. -/
theorem tempo_drop_reverses_ticks :
    (MIDITrack.Parse MIDITrack.new 480 0 (trackChunk tempoDropBody) 0).map
        (fun r => (r.ok, r.track.m_map.map (fun p => (p.1, p.2.m_time, p.2.m_param1))))
      = some (true, [(32768, 960, 62), (65536, 480, 60)]) := by
  decide

theorem parseStates_same_tempo (division length tempo : Nat) :
    ∀ (fuel : Nat) (s0 : ParseState) (states : List ParseState),
      parseStates division length fuel s0 = some states →
      keysAscending s0.track.m_map →
      (∀ p ∈ s0.track.m_map, castKey p.2.m_time division tempo = some p.1) →
      (∀ p ∈ (s0 :: states).zip states, p.2.track.m_map ≠ p.1.track.m_map → p.1.tempo = tempo) →
      keysAscending (states.getLastD s0).track.m_map
        ∧ ∀ p ∈ (states.getLastD s0).track.m_map, castKey p.2.m_time division tempo = some p.1 := by
  intro fuel
  induction fuel with
  | zero =>
    intro s0 states h ha hk _
    simp only [parseStates] at h
    split_ifs at h
    simp only [Option.some.injEq] at h
    subst h
    exact ⟨ha, hk⟩
  | succ fuel ih =>
    intro s0 states h ha hk ht
    simp only [parseStates] at h
    split_ifs at h with hc
    · simp only [Option.bind_eq_bind, Option.bind_eq_some, Option.some.injEq] at h
      obtain ⟨s1, hstep, rest, hrest, rfl⟩ := h
      have ha1 := parseStep_ascending division s0 s1 hstep ha
      have hk1 : ∀ p ∈ s1.track.m_map, castKey p.2.m_time division tempo = some p.1 := by
        by_cases hm : s1.track.m_map = s0.track.m_map
        · rw [hm]
          exact hk
        · have h0 : s0.tempo = tempo :=
            ht (s0, s1) (by simp) hm
          rcases (parseStep_effect division s0 s1 hstep).2.2.2.1 with e | ⟨key, e, k1, k2, k3, _⟩
          · exact absurd e hm
          · intro p hp
            rw [k3] at hp
            rcases mem_mapInsert _ _ _ _ hp with hp | hp
            · exact hk p hp
            · subst hp
              simp only
              rw [k2, ← h0]
              exact k1
      have ht1 : ∀ p ∈ (s1 :: rest).zip rest,
          p.2.track.m_map ≠ p.1.track.m_map → p.1.tempo = tempo := by
        intro p hp
        apply ht p
        cases rest with
        | nil => simp at hp
        | cons r rest2 =>
          simp only [List.zip_cons_cons, List.mem_cons] at hp ⊢
          exact Or.inr hp
      have := ih s1 rest hrest ha1 hk1 ht1
      cases rest with
      | nil => exact this
      | cons r rest2 => exact this
    · simp only [Option.some.injEq] at h
      subst h
      exact ⟨ha, hk⟩

set_option maxRecDepth 100000 in
theorem parseStates_scenario :
    parseStates 480 scenarioBody.length scenarioBody.length
      (ParseState.init MIDITrack.new scenarioBody 0) = some scenarioParseStates := by
  decide

/-- C18 (amended): the decode loop of `Parse`, started on a track with an empty map, leaves a
map whose keys are strictly increasing in its order, and the ticks stored in the events are
strictly increasing along that order as well, provided every iteration that stores an event
runs under one and the same tempo (tempo meta events before the first stored event, or
restating the tempo, are allowed). -/
theorem same_tempo_tick_order (division length fuel tempo : Nat) (s0 : ParseState)
    (states : List ParseState) (h : parseStates division length fuel s0 = some states)
    (h0 : s0.track.m_map = [])
    (ht : ∀ p ∈ (s0 :: states).zip states,
      p.2.track.m_map ≠ p.1.track.m_map → p.1.tempo = tempo) :
    parseLoop division length fuel s0 = some (states.getLastD s0)
      ∧ keysAscending (states.getLastD s0).track.m_map
      ∧ (states.getLastD s0).track.m_map.Pairwise (fun a b => a.2.m_time < b.2.m_time) := by
  refine ⟨by rw [parseLoop_parseStates, h]; rfl, ?_⟩
  obtain ⟨ha, hk⟩ := parseStates_same_tempo division length tempo fuel s0 states h
    (by rw [h0]; exact List.Pairwise.nil) (by rw [h0]; intro p hp; cases hp) ht
  refine ⟨ha, ?_⟩
  refine List.Pairwise.imp_of_mem ?_ ha
  intro a b hma hmb hab
  by_contra hlt
  have := castKey_mono b.2.m_time a.2.m_time division tempo b.1 a.1 (by omega)
    (hk b hmb) (hk a hma)
  omega

set_option maxRecDepth 100000 in
theorem same_tempo_tick_order_witness :
    parseLoop 480 scenarioBody.length scenarioBody.length
        (ParseState.init MIDITrack.new scenarioBody 0)
        = some (scenarioParseStates.getLastD (ParseState.init MIDITrack.new scenarioBody 0))
      ∧ keysAscending
          (scenarioParseStates.getLastD (ParseState.init MIDITrack.new scenarioBody 0)).track.m_map
      ∧ (scenarioParseStates.getLastD
          (ParseState.init MIDITrack.new scenarioBody 0)).track.m_map.Pairwise
            (fun a b => a.2.m_time < b.2.m_time) :=
  same_tempo_tick_order 480 scenarioBody.length scenarioBody.length 500000
    (ParseState.init MIDITrack.new scenarioBody 0) scenarioParseStates parseStates_scenario rfl
    (by decide)

end MidiSync
